import Mathlib

/-!
# Inverted index of the search engine (`utils/index.c`)

A shallow embedding of the index functions of `utils/index.c` and proofs about them.

Conventions of the embedding.

* A byte is a natural number (`0 .. 255`).  A `char*` argument is a list of bytes that is read
  as a C string: an explicit `0` in the list acts as the terminator, exactly as the end of the
  list does.
* `int` values are integers of `ℤ`.  Signed overflow (`page_word_frequency++` at `INT_MAX`,
  `atoi` on a numeral out of range) is undefined behaviour in C and lies outside the embedding.
* The headers `header.h`, `index.h` and `hash.h` are not among the sources.  What they declare
  (`WORD_LENGTH`, `MAX_NUMBER_OF_SLOTS`, `hash1`) and the signedness of `char` are parameters.
* A chain of nodes linked by `next` is a list; the array of bucket heads is a list of chains.
-/

namespace SearchEngine

/-- Parameters of the embedding: the two constants and the hash function declared in the headers
that are not part of the sources, and whether plain `char` is a signed type on the platform. -/
structure Params where
  WORD_LENGTH : Nat
  MAX_NUMBER_OF_SLOTS : Nat
  hash1 : List Nat → Nat
  charSigned : Bool

/-- Value of a byte read through a `char` lvalue, as an `int`. -/
def charVal (P : Params) (b : Nat) : Int :=
  if P.charSigned && decide (128 ≤ b) then (b : Int) - 256 else (b : Int)

/-- The bytes of a buffer before its terminator. -/
def cstr (s : List Nat) : List Nat :=
  s.takeWhile (fun b => b ≠ 0)

/-- Length of the C string held by a buffer (`strlen`). -/
def strlen (s : List Nat) : Nat :=
  (cstr s).length

/-- Comparison of at most `n` characters of two C strings (`strncmp`); the result is the
difference of the first pair of differing bytes, `0` when there is none. -/
def strncmp : List Nat → List Nat → Nat → Int
  | _, _, 0 => 0
  | a, b, n + 1 =>
    if a.headD 0 ≠ b.headD 0 then (a.headD 0 : Int) - (b.headD 0 : Int)
    else if a.headD 0 = 0 then 0
    else strncmp a.tail b.tail n

/-- The bytes that `strncpy(dst, src, n)` puts in front of the zero padding of a zeroed `dst`. -/
def strncpy (src : List Nat) (n : Nat) : List Nat :=
  (cstr src).take n

/-- Document node: `document_id` and `page_word_frequency`; `next` is the rest of the chain. -/
structure DocumentNode where
  document_id : Int
  page_word_frequency : Int
  deriving DecidableEq, Repr

/-- Word node: the bytes of the `word` array before its padding and the chain `page` of
document nodes; `next` is the rest of the bucket chain.  The back link `prev` is never read. -/
structure WordNode where
  word : List Nat
  page : List DocumentNode
  deriving DecidableEq, Repr

/-- The index: `hash` is the array of `MAX_NUMBER_OF_SLOTS` bucket chains.  The pointer `end` is
only ever assigned the head node of a bucket, so it is recorded as the number of that bucket;
`start` is never assigned after zeroing and is left out. -/
structure INVERTED_INDEX where
  hash : List (List WordNode)
  endSlot : Option Nat
  deriving DecidableEq, Repr

/-- Index produced by `initStructure`: every bucket empty, `start` and `end` null. -/
def initStructure (P : Params) : INVERTED_INDEX :=
  { hash := List.replicate P.MAX_NUMBER_OF_SLOTS [], endSlot := none }

/-- Whether `sanitize` copies a character of value `c` (the five `continue` tests, in order). -/
def sanitizeKeeps (c : Int) : Bool :=
  if c > 13 then
    if c = 39 || c = 44 || c = 46 || c = 34 then false
    else if (c ≥ 33 && c ≤ 44) && c ≠ 38 then false
    else if c ≥ 59 && c ≤ 64 && c ≠ 60 && c ≠ 62 then false
    else if c ≥ 91 && c ≤ 96 then false
    else if c ≥ 123 && c ≤ 127 then false
    else true
  else false

/-- Content of the buffer after `sanitize`: the loop runs up to the terminator and appends the
characters that pass the tests to `temp`, which is copied back. -/
def sanitize (P : Params) : List Nat → List Nat
  | [] => []
  | b :: rest =>
    if b = 0 then []
    else if sanitizeKeeps (charVal P b) then b :: sanitize P rest
    else sanitize P rest

/-- The set of values that the specification says the sanitizer drops. -/
def specDropped (c : Int) : Prop :=
  c ≤ 13 ∨ (c = 39 ∨ c = 44 ∨ c = 46 ∨ c = 34) ∨ (33 ≤ c ∧ c ≤ 44 ∧ c ≠ 38) ∨
    (59 ≤ c ∧ c ≤ 64 ∧ c ≠ 60 ∧ c ≠ 62) ∨ (91 ≤ c ∧ c ≤ 96) ∨ (123 ≤ c ∧ c ≤ 127)

instance specDroppedDecidable (c : Int) : Decidable (specDropped c) := by
  unfold specDropped
  infer_instance

/-- The sanitizer as the specification words it: the subsequence of the bytes whose value is in
none of the dropped sets. -/
def specSanitize (s : List Nat) : List Nat :=
  s.filter (fun b => decide (¬ specDropped (b : Int)))

/-- The bytes that `sanitize` drops: those of the sets of the specification and, where plain
`char` is signed, the bytes from 128 on, which are read as negative values and fail the test
`> 13`. -/
def droppedByte (P : Params) (b : Nat) : Prop :=
  specDropped (b : Int) ∨ (P.charSigned = true ∧ 128 ≤ b)

instance droppedByteDecidable (P : Params) (b : Nat) : Decidable (droppedByte P b) := by
  unfold droppedByte
  infer_instance

/-- Node made by `newDocNode`. -/
def newDocNode (docId page_freq : Int) : DocumentNode :=
  { document_id := docId, page_word_frequency := page_freq }

/-- Node made by `newWordNode`: the word array is zeroed and filled by `strncpy`. -/
def newWordNode (P : Params) (docNode : DocumentNode) (word : List Nat) : WordNode :=
  { word := strncpy word P.WORD_LENGTH, page := [docNode] }

/-- The `while (matchDocNode != NULL)` loop of `reconstructIndex`, entered with `matchDocNode`
at the head of the given chain.  A node without successor gets the new node appended; otherwise
the loop steps to the successor and compares only that one with `documentId`. -/
def docLoop (documentId page_word_frequency : Int) : List DocumentNode → List DocumentNode
  | [] => []
  | [m] => [m, newDocNode documentId page_word_frequency]
  | m :: n :: rest =>
    if n.document_id = documentId then
      m :: { n with page_word_frequency := n.page_word_frequency + 1 } :: rest
    else m :: docLoop documentId page_word_frequency (n :: rest)

/-- The `while (checkWordNode != NULL)` loop of `reconstructIndex` together with the branch that
follows it, entered with `checkWordNode` at the head of the given chain (a node already known
not to match).  At the last node a new word node is linked after it; otherwise the loop steps to
the successor and, when that one matches, its document chain is merged. -/
def wordLoop (P : Params) (word : List Nat) (documentId page_word_frequency : Int) :
    List WordNode → List WordNode
  | [] => []
  | [c] => [c, newWordNode P (newDocNode documentId page_word_frequency) word]
  | c :: n :: rest =>
    if strncmp n.word word P.WORD_LENGTH = 0 then
      c :: { n with page := docLoop documentId page_word_frequency n.page } :: rest
    else c :: wordLoop P word documentId page_word_frequency (n :: rest)

/-- Bucket number computed by `reconstructIndex`. -/
def slotOf (P : Params) (word : List Nat) : Nat :=
  P.hash1 (cstr word) % P.MAX_NUMBER_OF_SLOTS

/-- The function `reconstructIndex` (the insert-or-merge of the specification): the returned
`int` and the index after the call. -/
def reconstructIndex (P : Params) (word : List Nat) (documentId page_word_frequency : Int)
    (indexReload : INVERTED_INDEX) : Int × INVERTED_INDEX :=
  let wordHash := slotOf P word
  match indexReload.hash.getD wordHash [] with
  | [] =>
    (1, { hash := indexReload.hash.set wordHash
            [newWordNode P (newDocNode documentId page_word_frequency) word],
          endSlot := some wordHash })
  | checkWordNode :: rest =>
    if strncmp checkWordNode.word word P.WORD_LENGTH = 0 then
      (1, { indexReload with
            hash := indexReload.hash.set wordHash
              ({ checkWordNode with
                  page := docLoop documentId page_word_frequency checkWordNode.page } :: rest) })
    else
      (1, { indexReload with
            hash := indexReload.hash.set wordHash
              (wordLoop P word documentId page_word_frequency (checkWordNode :: rest)) })

/-- One insert-or-merge call: word, document id, frequency. -/
abbrev Call := List Nat × Int × Int

/-- Index after a sequence of `reconstructIndex` calls. -/
def applyCalls (P : Params) (calls : List Call) (index : INVERTED_INDEX) : INVERTED_INDEX :=
  calls.foldl (fun acc c => (reconstructIndex P c.1 c.2.1 c.2.2 acc).2) index

/-- Index built from the empty one by a sequence of `reconstructIndex` calls. -/
def buildIndex (P : Params) (calls : List Call) : INVERTED_INDEX :=
  applyCalls P calls (initStructure P)

/-- Bucket chain number `slot` of an index. -/
def bucket (index : INVERTED_INDEX) (slot : Nat) : List WordNode :=
  index.hash.getD slot []

/-- What a call of `reconstructIndex` does to the chain of its bucket, as one recursion over the
chain: the first node whose word matches has its document chain merged, and a chain without a
match gets a new word node at its end.  `reconstructIndex_hash` proves that the function does
this. -/
def insertChain (P : Params) (word : List Nat) (documentId page_word_frequency : Int) :
    List WordNode → List WordNode
  | [] => [newWordNode P (newDocNode documentId page_word_frequency) word]
  | c :: rest =>
    if strncmp c.word word P.WORD_LENGTH = 0 then
      { c with page := docLoop documentId page_word_frequency c.page } :: rest
    else c :: insertChain P word documentId page_word_frequency rest

/-- Invariant of the indexes that `reconstructIndex` builds: every stored word is a truncated
C string, and the words of one bucket chain are pairwise different. -/
def BucketsDistinct (P : Params) (index : INVERTED_INDEX) : Prop :=
  ∀ chain ∈ index.hash,
    (∀ wn ∈ chain, strncpy wn.word P.WORD_LENGTH = wn.word) ∧ (chain.map WordNode.word).Nodup

/-- How a function that may end the process finishes: it returns a value, calls `exit(1)`, runs
into undefined behaviour (a null pointer handed to `atoi`), or loops for ever. -/
inductive Run (α : Type) where
  | returns : α → Run α
  | exits : Run α
  | crashes : Run α
  | hangs : Run α
  deriving DecidableEq, Repr

/-- Buffer returned by `loadDocument` for an existing file whose bytes are all read by `fread`:
`tempFileSize + 2` bytes are allocated, the file fills the first `tempFileSize`, and the
terminator is stored at index `readResult + 1`.  The byte at index `tempFileSize` is never
written; `g` is the value the allocation happens to hold there.  A read of zero bytes ends the
process. -/
def loadDocument (g : Nat) (file : List Nat) : Run (List Nat) :=
  if file.length = 0 then Run.exits
  else Run.returns (file ++ [g, 0])

/-- The character arrays stored by the successive calls `fgets(placeholder, cap + 1, fp)` until
end of file: a call stops behind a newline, or when `cap` characters are read.  `room` is what
the running call may still read and `cur` what it has read, last character first. -/
def fgetsAll (cap : Nat) : Nat → List Nat → List Nat → List (List Nat)
  | _, cur, [] => if cur.isEmpty then [] else [cur.reverse]
  | room, cur, c :: cs =>
    if c = 10 ∨ room ≤ 1 then (c :: cur).reverse :: fgetsAll cap cap [] cs
    else fgetsAll cap (room - 1) (c :: cur) cs

/-- The tokens that successive `strtok(_, " ")` calls find in a buffer: the non-empty runs of
characters between spaces. -/
def strtokAll (buffer : List Nat) : List (List Nat) :=
  ((cstr buffer).splitOn 32).filter (fun t => !t.isEmpty)

/-- White space in the sense of `isspace` in the C locale. -/
def isspace (c : Nat) : Bool :=
  c = 32 || (9 ≤ c && c ≤ 13)

/-- Decimal digit. -/
def isdigit (c : Nat) : Bool :=
  48 ≤ c && c ≤ 57

/-- Value of the leading run of decimal digits of a string. -/
def digitsValue (s : List Nat) : Nat :=
  (s.takeWhile isdigit).foldl (fun acc c => 10 * acc + (c - 48)) 0

/-- The library function `atoi`: white space is skipped, an optional sign is read, then the
digits up to the first other character.  The value is given in `ℤ`: it is what `atoi` returns
for a numeral within the range of `int`; beyond that range C leaves the result undefined, and
the theorems that read numerals from an arbitrary file bound their values (`InIntRange`). -/
def atoi (s : List Nat) : Int :=
  match (cstr s).dropWhile isspace with
  | 45 :: t => - (digitsValue t : Int)
  | 43 :: t => (digitsValue t : Int)
  | t => (digitsValue t : Int)

/-- The inner `while` loop of `reloadIndexFromFile` over the tokens that follow the count field:
two tokens are taken per round and handed to `reconstructIndex` through `atoi`; the returned
`int` only selects a diagnostic.  A last token without partner makes `strtok` return a null
pointer, which `atoi` dereferences. -/
def pairLoop (P : Params) (wordNode : List Nat) :
    List (List Nat) → INVERTED_INDEX → Run INVERTED_INDEX
  | [], index => Run.returns index
  | [_], _ => Run.crashes
  | docNode :: page_word_frequency :: rest, index =>
    pairLoop P wordNode rest
      (reconstructIndex P wordNode (atoi docNode) (atoi page_word_frequency) index).2

/-- Body of the outer loop of `reloadIndexFromFile` for one array read by `fgets`: sanitize,
take the first token as the word, skip the second, run the inner loop over the rest.  Without a
first token every further `strtok` call returns a null pointer and nothing is inserted. -/
def processLine (P : Params) (placeholder : List Nat) (index : INVERTED_INDEX) :
    Run INVERTED_INDEX :=
  match strtokAll (sanitize P placeholder) with
  | [] => Run.returns index
  | wordNode :: rest => pairLoop P wordNode (rest.drop 1) index

/-- The outer loop of `reloadIndexFromFile` over the arrays read by `fgets`. -/
def processLines (P : Params) : List (List Nat) → INVERTED_INDEX → Run INVERTED_INDEX
  | [], index => Run.returns index
  | line :: rest, index =>
    match processLine P line index with
    | Run.returns index1 => processLines P rest index1
    | Run.exits => Run.exits
    | Run.crashes => Run.crashes
    | Run.hangs => Run.hangs

/-- The function `reloadIndexFromFile` on an existing file with the given bytes.  The size
handed to `fgets` is `strlen(loadedFile) + 1`; with size `1` `fgets` stores the empty string
without reading, so the loop never reaches the end of the file. -/
def reloadIndexFromFile (P : Params) (g : Nat) (file : List Nat) (indexReload : INVERTED_INDEX) :
    Run INVERTED_INDEX :=
  match loadDocument g file with
  | Run.returns loadedFile =>
    if strlen loadedFile = 0 then Run.hangs
    else processLines P (fgetsAll (strlen loadedFile) (strlen loadedFile) [] file) indexReload
  | Run.exits => Run.exits
  | Run.crashes => Run.crashes
  | Run.hangs => Run.hangs

/-- Decimal digits of a natural number, most significant first, in front of `acc`. -/
def decimalAux : Nat → Nat → List Nat → List Nat
  | 0, _, acc => acc
  | fuel + 1, n, acc =>
    if n / 10 = 0 then (48 + n % 10) :: acc
    else decimalAux fuel (n / 10) ((48 + n % 10) :: acc)

/-- Decimal numeral of a natural number. -/
def decimal (n : Nat) : List Nat :=
  decimalAux (n + 1) n []

/-- Output of the conversion `%d`. -/
def fmtInt (i : Int) : List Nat :=
  if i < 0 then 45 :: decimal i.natAbs else decimal i.natAbs

/-- The counting loop of `saveIndexToFile` over a Document chain. -/
def countDocs : List DocumentNode → Int
  | [] => 0
  | _ :: rest => countDocs rest + 1

/-- What `saveIndexToFile` prints for one Word node: the word and the count, each followed by a
space, then every document id and frequency each followed by a space, then a newline.  The word
is printed by `%s`, which takes the array as a C string: a stored word shorter than
`WORD_LENGTH` is followed by the zero padding of the array, and the bytes printed are the word.
A stored word of `WORD_LENGTH` bytes fills the array without terminator and `%s` runs on into the
memory behind it; the definition does not describe that case, and every theorem about the
written file is stated for the shorter words (`WordsTerminated`, `GoodWord`). -/
def wordLine (wn : WordNode) : List Nat :=
  cstr wn.word ++ [32] ++ fmtInt (countDocs wn.page) ++ [32] ++
    (wn.page.map (fun d =>
      fmtInt d.document_id ++ [32] ++ fmtInt d.page_word_frequency ++ [32])).flatten ++ [10]

/-- The bytes that the loops of `saveIndexToFile` write: buckets in ascending order, each chain
from its head. -/
def writeIndex (P : Params) (index : INVERTED_INDEX) : List Nat :=
  ((List.range P.MAX_NUMBER_OF_SLOTS).map (fun i => ((bucket index i).map wordLine).flatten)).flatten

/-- The lines of a file as `sort` sees them, without their newlines; the characters behind the
last newline, if any, are a line too. -/
def splitLines : List Nat → List (List Nat)
  | [] => []
  | c :: cs =>
    if c = 10 then [] :: splitLines cs
    else
      match splitLines cs with
      | [] => [[c]]
      | l :: ls => (c :: l) :: ls

/-- The command `sort -o file file` in the C locale: the lines of the file in ascending
lexicographic order of their bytes, each written with a newline. -/
def sortFile (file : List Nat) : List Nat :=
  (((splitLines file).insertionSort (fun a b => a ≤ b)).map (fun l => l ++ [10])).flatten

/-- The file left by `saveIndexToFile` when the file can be written and `sort` succeeds. -/
def saveIndexToFile (P : Params) (index : INVERTED_INDEX) : List Nat :=
  sortFile (writeIndex P index)

/-- A file given by its lines: every element of `bodies` followed by a newline, then `tail`, the
characters behind the last newline. -/
def linesFile (bodies : List (List Nat)) (tail : List Nat) : List Nat :=
  (bodies.map (fun b => b ++ [10])).flatten ++ tail

/-- The arrays that `fgets` reads from `linesFile bodies tail`, without their newlines. -/
def linesOf (bodies : List (List Nat)) (tail : List Nat) : List (List Nat) :=
  bodies ++ (if tail.isEmpty then [] else [tail])

/-- A character that `sanitize` copies. -/
def Kept (P : Params) (b : Nat) : Prop :=
  sanitizeKeeps (charVal P b) = true

/-- A token of an index file: not empty, of characters that `sanitize` copies, without space. -/
def IsToken (P : Params) (t : List Nat) : Prop :=
  t ≠ [] ∧ ∀ b ∈ t, Kept P b ∧ b ≠ 32

/-- A line of an index file: the word, the count field and the pairs of tokens behind it; the
fields are separated by single spaces, and a space may follow the last field. -/
structure IndexLine where
  word : List Nat
  count : List Nat
  pairs : List (List Nat × List Nat)
  trailingSpace : Bool

/-- The fields of a line in their order. -/
def IndexLine.fields (l : IndexLine) : List (List Nat) :=
  l.word :: l.count :: (l.pairs.map (fun p => [p.1, p.2])).flatten

/-- The characters of a line, without newline. -/
def IndexLine.body (l : IndexLine) : List Nat :=
  [32].intercalate l.fields ++ (if l.trailingSpace then [32] else [])

/-- All fields of the line are tokens. -/
def IndexLine.TokensOk (P : Params) (l : IndexLine) : Prop :=
  ∀ t ∈ l.fields, IsToken P t

/-- The calls that reloading a line makes, the numbers read by `atoi`. -/
def IndexLine.calls (l : IndexLine) : List Call :=
  l.pairs.map (fun p => (l.word, atoi p.1, atoi p.2))

/-- A numeric token: a non-empty string of decimal digits. -/
def IsNumeral (t : List Nat) : Prop :=
  t ≠ [] ∧ ∀ b ∈ t, isdigit b = true

/-- Decimal value of a string of digits, as the specification means it. -/
def decimalValue (t : List Nat) : Nat :=
  Nat.ofDigits 10 (t.reverse.map (fun c => c - 48))

instance keptDecidable (P : Params) (b : Nat) : Decidable (Kept P b) := by
  unfold Kept
  infer_instance

instance isTokenDecidable (P : Params) (t : List Nat) : Decidable (IsToken P t) := by
  unfold IsToken
  infer_instance

instance isNumeralDecidable (t : List Nat) : Decidable (IsNumeral t) := by
  unfold IsNumeral
  infer_instance

/-- The Word entries of an index in the order in which `saveIndexToFile` visits them. -/
def entries (P : Params) (index : INVERTED_INDEX) : List WordNode :=
  ((List.range P.MAX_NUMBER_OF_SLOTS).map (fun i => bucket index i)).flatten

/-- The fields of the line of a Word entry, as the specification lists them: the word, the number
of Document entries, then document id and frequency of every Document entry, in decimal. -/
def lineFields (wn : WordNode) : List (List Nat) :=
  cstr wn.word :: fmtInt (wn.page.length : Int) ::
    (wn.page.map (fun d => [fmtInt d.document_id, fmtInt d.page_word_frequency])).flatten

/-- The fields of a Word entry with a space behind every field, the last one included. -/
def spacedBody (wn : WordNode) : List Nat :=
  ((lineFields wn).map (fun t => t ++ [32])).flatten

/-- The line of a Word entry with a space behind every field, the last one included, and a
newline at the end. -/
def spacedLine (wn : WordNode) : List Nat :=
  spacedBody wn ++ [10]

/-- What the document loop does behind the head of a chain, as one recursion: the first node
with the document id has its frequency raised by one, and a chain without such a node gets a
new node at its end.  `docLoop_cons` proves that the loop does this. -/
def mergeTail (documentId page_word_frequency : Int) : List DocumentNode → List DocumentNode
  | [] => [newDocNode documentId page_word_frequency]
  | n :: rest =>
    if n.document_id = documentId then
      { n with page_word_frequency := n.page_word_frequency + 1 } :: rest
    else n :: mergeTail documentId page_word_frequency rest

/-- A word as the round trip needs it: not empty, shorter than `WORD_LENGTH`, of characters
that `sanitize` copies, without space. -/
def GoodWord (P : Params) (w : List Nat) : Prop :=
  IsToken P w ∧ w.length < P.WORD_LENGTH

instance goodWordDecidable (P : Params) (w : List Nat) : Decidable (GoodWord P w) := by
  unfold GoodWord
  infer_instance

/-- Invariant of a Word entry of bucket `i` in an index built from good words: the stored word
is good and hashes to `i`, and the Document chain is not empty and holds no document id twice
behind its head. -/
def WordOk (P : Params) (i : Nat) (wn : WordNode) : Prop :=
  GoodWord P wn.word ∧ slotOf P wn.word = i ∧ wn.page ≠ [] ∧
    (wn.page.tail.map DocumentNode.document_id).Nodup

/-- Invariant of an index built from good words. -/
def GoodIndex (P : Params) (index : INVERTED_INDEX) : Prop :=
  index.hash.length = P.MAX_NUMBER_OF_SLOTS ∧ ∀ i, ∀ wn ∈ bucket index i, WordOk P i wn

/-- The calls that reloading the line of a Word entry makes. -/
def replayCalls (wn : WordNode) : List Call :=
  wn.page.map (fun d => (wn.word, d.document_id, d.page_word_frequency))

/-- Total frequency of a word in a document: the sum of the frequencies of the Document entries
with that document id over the Word entries with that word. -/
def totalFrequency (P : Params) (index : INVERTED_INDEX) (w : List Nat) (d : Int) : Int :=
  (((entries P index).filter (fun wn => decide (wn.word = w))).map (fun wn =>
    ((wn.page.filter (fun e => decide (e.document_id = d))).map
      DocumentNode.page_word_frequency).sum)).sum

/-- The line of a Word entry as a line of the index file. -/
def lineOfEntry (wn : WordNode) : IndexLine :=
  { word := cstr wn.word,
    count := fmtInt (wn.page.length : Int),
    pairs := wn.page.map (fun d => (fmtInt d.document_id, fmtInt d.page_word_frequency)),
    trailingSpace := true }

/-- Content of the buffer after `capitalToLower`: the loop runs up to the terminator and replaces
every character between `'A'` and `'Z'` by `'a' + c - 'A'`, stored back as a byte. -/
def capitalToLower (P : Params) : List Nat → List Nat
  | [] => []
  | b :: rest =>
    if b = 0 then b :: rest
    else
      (if charVal P b ≥ 65 ∧ charVal P b ≤ 90 then ((97 + charVal P b - 65) % 256).toNat
        else b) :: capitalToLower P rest

/-- The lower-case byte of a byte, as the specification of `capitalToLower` words it: capital
letters are moved up by 32, every other byte stays. -/
def specLower (b : Nat) : Nat :=
  if 65 ≤ b ∧ b ≤ 90 then b + 32 else b

/-- The distinct elements of a list of words in the order of their first occurrence. -/
def firstSeen : List (List Nat) → List (List Nat)
  | [] => []
  | x :: xs => x :: (firstSeen xs).filter (fun y => decide (y ≠ x))

/-- The words that the calls for bucket `b` store, truncated to `WORD_LENGTH`, in call order. -/
def wordsForBucket (P : Params) (calls : List Call) (b : Nat) : List (List Nat) :=
  (calls.filter (fun c => decide (slotOf P c.1 = b))).map (fun c => strncpy c.1 P.WORD_LENGTH)

/-- Shape of the Document chains of the indexes that `reconstructIndex` builds: no chain is
empty, and behind its head no chain holds a document id twice. -/
def ChainsOk (index : INVERTED_INDEX) : Prop :=
  ∀ chain ∈ index.hash, ∀ wn ∈ chain,
    wn.page ≠ [] ∧ (wn.page.tail.map DocumentNode.document_id).Nodup

/-- The Word entry `wn` of bucket `b` was created by a call of the sequence: the first call that
hashes to `b` and whose truncated word is the stored word, and the head of the Document chain
holds the document id and the frequency of that call. -/
def CreatedBy (P : Params) (calls : List Call) (b : Nat) (wn : WordNode) : Prop :=
  ∃ pre c post, calls = pre ++ c :: post ∧ slotOf P c.1 = b ∧
    strncpy c.1 P.WORD_LENGTH = wn.word ∧
    (∀ c1 ∈ pre, ¬ (slotOf P c1.1 = b ∧ strncpy c1.1 P.WORD_LENGTH = wn.word)) ∧
    wn.page.head? = some { document_id := c.2.1, page_word_frequency := c.2.2 }

/-- Every stored word of the index is shorter than `WORD_LENGTH`, so that its array holds a
terminator. -/
def WordsTerminated (P : Params) (index : INVERTED_INDEX) : Prop :=
  ∀ wn ∈ entries P index, wn.word.length < P.WORD_LENGTH

instance wordsTerminatedDecidable (P : Params) (index : INVERTED_INDEX) :
    Decidable (WordsTerminated P index) := by
  unfold WordsTerminated
  infer_instance

/-- A value within the range of a 32-bit `int`. -/
def InIntRange (i : Int) : Prop :=
  -2147483648 ≤ i ∧ i ≤ 2147483647

instance inIntRangeDecidable (i : Int) : Decidable (InIntRange i) := by
  unfold InIntRange
  infer_instance

/-- A token as it stands in a file: without space, newline and zero byte, and with at least one
character that `sanitize` copies. -/
def IsRawToken (P : Params) (t : List Nat) : Prop :=
  (∀ b ∈ t, b ≠ 32 ∧ b ≠ 0 ∧ b ≠ 10) ∧ sanitize P t ≠ []

instance isRawTokenDecidable (P : Params) (t : List Nat) : Decidable (IsRawToken P t) := by
  unfold IsRawToken
  infer_instance

/-- The rest of a line behind a token: nothing, or something that starts with a space. -/
def SpaceOrEnd (r : List Nat) : Prop :=
  r = [] ∨ r.head? = some 32

instance spaceOrEndDecidable (r : List Nat) : Decidable (SpaceOrEnd r) := by
  unfold SpaceOrEnd
  infer_instance

/-- A token with the spaces in front of it: one space and `st.1` more. -/
def spaced (st : Nat × List Nat) : List Nat :=
  List.replicate (st.1 + 1) 32 ++ st.2

/-- A numeric token: a numeral, or a numeral behind a sign. -/
def IsIntNumeral (t : List Nat) : Prop :=
  IsNumeral t ∨ ((t.head? = some 45 ∨ t.head? = some 43) ∧ IsNumeral t.tail)

instance isIntNumeralDecidable (t : List Nat) : Decidable (IsIntNumeral t) := by
  unfold IsIntNumeral
  infer_instance

/-- Decimal value of a numeric token, as the specification means it. -/
def intValue (t : List Nat) : Int :=
  if t.head? = some 45 then - (decimalValue t.tail : Int)
  else if t.head? = some 43 then (decimalValue t.tail : Int)
  else (decimalValue t : Int)

/-- A line of a file in the format of the index file: spaces, the word, the count field and the
pairs of numeric tokens, every token behind the word with the spaces in front of it, and the
spaces at the end of the line. -/
structure FileLine where
  lead : Nat
  word : List Nat
  count : Nat × List Nat
  pairs : List ((Nat × List Nat) × (Nat × List Nat))
  trail : Nat

/-- The tokens behind the word of a line, each with the number of its additional spaces. -/
def FileLine.numerals (l : FileLine) : List (Nat × List Nat) :=
  l.count :: (l.pairs.map (fun p => [p.1, p.2])).flatten

/-- The characters of a line, without newline. -/
def FileLine.body (l : FileLine) : List Nat :=
  List.replicate l.lead 32 ++ l.word ++ (l.numerals.map spaced).flatten ++
    List.replicate l.trail 32

/-- The insert-or-merge calls that the specification assigns to a line: one per pair, with the
word as `sanitize` leaves it and the decimal values of the two tokens. -/
def FileLine.specCalls (P : Params) (l : FileLine) : List Call :=
  l.pairs.map (fun p => (sanitize P l.word, intValue p.1.2, intValue p.2.2))

/-- A line in the format of the index file: the word is a token, the count field and the tokens
of the pairs are numeric, and the values of the pairs are within the range of `int`. -/
def FileLine.WellFormed (P : Params) (l : FileLine) : Prop :=
  IsRawToken P l.word ∧ IsIntNumeral l.count.2 ∧
    ∀ p ∈ l.pairs, (IsIntNumeral p.1.2 ∧ InIntRange (intValue p.1.2)) ∧
      (IsIntNumeral p.2.2 ∧ InIntRange (intValue p.2.2))

instance fileLineWellFormedDecidable (P : Params) (l : FileLine) :
    Decidable (l.WellFormed P) := by
  unfold FileLine.WellFormed
  infer_instance

/-- Two lines that are the same, or that differ only in their second token: both consist of
the same spaces and first token, the same spaces behind it, a second token, and the same rest,
which is empty or starts with a space.  The tokens hold no space, and each of the three keeps at
least one character under `sanitize`. -/
def SameUpToCount (P : Params) (l1 l2 : List Nat) : Prop :=
  l1 = l2 ∨
  ∃ lead w gap t1 t2 rest,
    l1 = List.replicate lead 32 ++ w ++ spaced (gap, t1) ++ rest ∧
    l2 = List.replicate lead 32 ++ w ++ spaced (gap, t2) ++ rest ∧
    IsRawToken P w ∧ IsRawToken P t1 ∧ IsRawToken P t2 ∧ SpaceOrEnd rest

/-! ## Theorems -/

theorem sanitizeKeeps_iff (c : Int) : sanitizeKeeps c = true ↔ ¬ specDropped c := by
  unfold sanitizeKeeps specDropped
  split_ifs <;> (simp_all; try omega)

theorem sanitize_eq_filter (P : Params) (s : List Nat) (h : ∀ b ∈ s, b ≠ 0) :
    sanitize P s = s.filter (fun b => decide (¬ specDropped (charVal P b))) := by
  induction s with
  | nil => rfl
  | cons b rest ih =>
    have hb : b ≠ 0 := h b (List.mem_cons_self _ _)
    have ih2 := ih (fun x hx => h x (List.mem_cons_of_mem _ hx))
    by_cases hk : sanitizeKeeps (charVal P b) = true
    · have hd : ¬ specDropped (charVal P b) := (sanitizeKeeps_iff _).1 hk
      simp [sanitize, hb, hk, hd, ih2]
    · have hd : specDropped (charVal P b) := by
        by_contra hn
        exact hk ((sanitizeKeeps_iff _).2 hn)
      simp [sanitize, hb, hk, hd, ih2]

theorem charVal_of_lt (P : Params) (b : Nat) (h : b < 128) : charVal P b = (b : Int) := by
  unfold charVal
  have : ¬ (128 ≤ b) := by omega
  simp [this]

theorem specDropped_charVal (P : Params) (b : Nat) (hb : b < 256) :
    specDropped (charVal P b) ↔ droppedByte P b := by
  unfold droppedByte
  by_cases h : 128 ≤ b
  · cases hs : P.charSigned
    · simp [charVal, hs]
    · have h1 : charVal P b = (b : Int) - 256 := by simp [charVal, hs, h]
      rw [h1]
      constructor
      · intro _
        exact Or.inr ⟨rfl, h⟩
      · intro _
        unfold specDropped
        omega
  · have h1 : charVal P b = (b : Int) := charVal_of_lt P b (by omega)
    rw [h1]
    constructor
    · exact Or.inl
    · rintro (h2 | ⟨_, h2⟩)
      · exact h2
      · exact absurd h2 h

theorem sanitize_eq_filter_bytes (P : Params) (s : List Nat) (h0 : ∀ b ∈ s, b ≠ 0)
    (hb : ∀ b ∈ s, b < 256) :
    sanitize P s = s.filter (fun b => decide (¬ droppedByte P b)) := by
  rw [sanitize_eq_filter P s h0]
  apply List.filter_congr
  intro b hbs
  rw [decide_eq_decide, not_iff_not]
  exact specDropped_charVal P b (hb b hbs)

/-- C8 (as amended). For every buffer of bytes without embedded terminator, `sanitize` leaves
exactly the bytes, in their order, that are in none of the dropped sets of the specification
and, where plain `char` is signed, are below 128.  Where `char` is unsigned, and for buffers of
bytes below 128, this is the filter of the specification.  The empty input gives the empty
output, every `&`, `<` and `>` is kept, and the documented example holds. -/
theorem sanitize_spec (P : Params) (s : List Nat) (h0 : ∀ b ∈ s, b ≠ 0)
    (hb : ∀ b ∈ s, b < 256) :
    sanitize P s = s.filter (fun b => decide (¬ droppedByte P b)) ∧
    (P.charSigned = false → sanitize P s = specSanitize s) ∧
    ((∀ b ∈ s, b < 128) → sanitize P s = specSanitize s) ∧
    sanitize P [] = [] ∧
    ((sanitize P s).count 38 = s.count 38 ∧ (sanitize P s).count 60 = s.count 60 ∧
      (sanitize P s).count 62 = s.count 62) ∧
    sanitize P [73, 116, 39, 115, 32, 97, 32, 34, 116, 101, 115, 116, 34, 44, 32, 35, 49, 33]
      = [73, 116, 115, 32, 97, 32, 116, 101, 115, 116, 32, 49] := by
  have hf := sanitize_eq_filter_bytes P s h0 hb
  refine ⟨hf, ?_, ?_, rfl, ?_, ?_⟩
  · intro hs
    rw [hf]
    unfold specSanitize
    apply List.filter_congr
    intro b _
    simp [droppedByte, hs]
  · intro hlow
    rw [hf]
    unfold specSanitize
    apply List.filter_congr
    intro b hbs
    have : ¬ 128 ≤ b := by
      have := hlow b hbs
      omega
    simp [droppedByte, this]
  · rw [hf]
    refine ⟨?_, ?_, ?_⟩ <;>
    · rw [List.count_filter]
      simp [droppedByte, specDropped]
  · simp [sanitize, charVal_of_lt, sanitizeKeeps]

theorem sanitize_spec_witness :
    sanitize ⟨8, 4, fun _ => 0, true⟩ [38, 46, 97, 200, 60] = [38, 97, 60] ∧
    sanitize ⟨8, 4, fun _ => 0, false⟩ [38, 46, 97, 200, 60] = [38, 97, 200, 60] := by
  constructor
  · rw [(sanitize_spec ⟨8, 4, fun _ => 0, true⟩ [38, 46, 97, 200, 60] (by decide)
      (by decide)).1]
    decide
  · rw [(sanitize_spec ⟨8, 4, fun _ => 0, false⟩ [38, 46, 97, 200, 60] (by decide)
      (by decide)).2.1 rfl]
    decide

/-- C8, counterexample.  Where plain `char` is signed, `sanitize` drops the byte 200 of the
buffer `a`, 200, `b`, although 200 is in none of the sets of the specification, whose filter
keeps it. -/
theorem sanitize_spec_counterexample :
    sanitize ⟨8, 4, fun _ => 0, true⟩ [97, 200, 98] = [97, 98] ∧
    specSanitize [97, 200, 98] = [97, 200, 98] ∧
    ¬ specDropped 200 := by
  decide

/-! ### The string primitives -/

theorem cstr_nil : cstr [] = [] := rfl

theorem cstr_cons_zero (s : List Nat) : cstr (0 :: s) = [] := by
  simp [cstr]

theorem cstr_cons_ne (b : Nat) (s : List Nat) (h : b ≠ 0) : cstr (b :: s) = b :: cstr s := by
  simp [cstr, List.takeWhile_cons, h]

theorem cstr_of_no_zero (s : List Nat) (h : ∀ b ∈ s, b ≠ 0) : cstr s = s := by
  unfold cstr
  rw [List.takeWhile_eq_self_iff]
  intro b hb
  simpa using h b hb

theorem cstr_no_zero (s : List Nat) : ∀ b ∈ cstr s, b ≠ 0 := by
  intro b hb
  have := List.mem_takeWhile_imp hb
  simpa using this

theorem cstr_idem (s : List Nat) : cstr (cstr s) = cstr s :=
  cstr_of_no_zero _ (cstr_no_zero s)

theorem strncpy_idem (s : List Nat) (n : Nat) : strncpy (strncpy s n) n = strncpy s n := by
  unfold strncpy
  rw [cstr_of_no_zero]
  · simp
  · intro b hb
    exact cstr_no_zero s b (List.mem_of_mem_take hb)

theorem strncmp_eq_zero_iff (n : Nat) (a b : List Nat) :
    strncmp a b n = 0 ↔ strncpy a n = strncpy b n := by
  induction n generalizing a b with
  | zero => simp [strncmp, strncpy]
  | succ n ih =>
    unfold strncmp
    cases a with
    | nil =>
      cases b with
      | nil => simp [strncpy]
      | cons y b =>
        by_cases hy : y = 0
        · subst hy
          simp [strncpy, cstr_cons_zero, cstr_nil]
        · have h1 : ¬ (0 = y) := fun h => hy h.symm
          simp [strncpy, cstr_cons_ne _ _ hy, cstr_nil, h1]
          omega
    | cons x a =>
      cases b with
      | nil =>
        by_cases hx : x = 0
        · subst hx
          simp [strncpy, cstr_cons_zero, cstr_nil]
        · simp [strncpy, cstr_cons_ne _ _ hx, cstr_nil, hx]
      | cons y b =>
        by_cases hx : x = 0
        · subst hx
          by_cases hy : y = 0
          · subst hy
            simp [strncpy, cstr_cons_zero]
          · have h1 : ¬ (0 = y) := fun h => hy h.symm
            simp [strncpy, cstr_cons_zero, cstr_cons_ne _ _ hy, h1]
            omega
        · by_cases hy : y = 0
          · subst hy
            simp [strncpy, cstr_cons_zero, cstr_cons_ne _ _ hx, hx]
          · by_cases hxy : x = y
            · subst hxy
              have := ih a b
              simp [strncpy, cstr_cons_ne _ _ hx, hx] at this ⊢
              exact this
            · simp [strncpy, cstr_cons_ne _ _ hx, cstr_cons_ne _ _ hy, hxy]
              omega

/-! ### One call of `reconstructIndex` -/

theorem wordLoop_cons (P : Params) (word : List Nat) (d f : Int) (c : WordNode)
    (rest : List WordNode) :
    wordLoop P word d f (c :: rest) = c :: insertChain P word d f rest := by
  induction rest generalizing c with
  | nil => simp [wordLoop, insertChain]
  | cons n rest ih =>
    by_cases h : strncmp n.word word P.WORD_LENGTH = 0
    · simp [wordLoop, insertChain, h]
    · simp [wordLoop, insertChain, h, ih n]

theorem reconstructIndex_fst (P : Params) (word : List Nat) (d f : Int) (index : INVERTED_INDEX) :
    (reconstructIndex P word d f index).1 = 1 := by
  simp only [reconstructIndex]
  generalize index.hash.getD (slotOf P word) [] = ch
  cases ch with
  | nil => rfl
  | cons c rest => by_cases hm : strncmp c.word word P.WORD_LENGTH = 0 <;> simp [hm]

theorem reconstructIndex_hash (P : Params) (word : List Nat) (d f : Int) (index : INVERTED_INDEX) :
    (reconstructIndex P word d f index).2.hash =
      index.hash.set (slotOf P word) (insertChain P word d f (bucket index (slotOf P word))) := by
  simp only [reconstructIndex, bucket]
  generalize index.hash.getD (slotOf P word) [] = ch
  cases ch with
  | nil => simp [insertChain]
  | cons c rest =>
    by_cases hm : strncmp c.word word P.WORD_LENGTH = 0
    · simp [hm, insertChain]
    · simp [hm, insertChain, wordLoop_cons]

theorem reconstructIndex_length (P : Params) (word : List Nat) (d f : Int)
    (index : INVERTED_INDEX) :
    (reconstructIndex P word d f index).2.hash.length = index.hash.length := by
  rw [reconstructIndex_hash, List.length_set]

theorem bucket_reconstructIndex_same (P : Params) (word : List Nat) (d f : Int)
    (index : INVERTED_INDEX) (h : slotOf P word < index.hash.length) :
    bucket (reconstructIndex P word d f index).2 (slotOf P word) =
      insertChain P word d f (bucket index (slotOf P word)) := by
  unfold bucket
  rw [reconstructIndex_hash]
  simp [List.getD_eq_getElem?_getD, List.getElem?_set, h, bucket]

theorem bucket_reconstructIndex_other (P : Params) (word : List Nat) (d f : Int)
    (index : INVERTED_INDEX) (s : Nat) (h : s ≠ slotOf P word) :
    bucket (reconstructIndex P word d f index).2 s = bucket index s := by
  unfold bucket
  rw [reconstructIndex_hash]
  simp [List.getD_eq_getElem?_getD, List.getElem?_set, Ne.symm h]

theorem insertChain_of_no_match (P : Params) (word : List Nat) (d f : Int)
    (chain : List WordNode) (h : ∀ wn ∈ chain, strncmp wn.word word P.WORD_LENGTH ≠ 0) :
    insertChain P word d f chain = chain ++ [newWordNode P (newDocNode d f) word] := by
  induction chain with
  | nil => rfl
  | cons c rest ih =>
    have hc := h c (List.mem_cons_self _ _)
    simp [insertChain, hc, ih (fun wn hwn => h wn (List.mem_cons_of_mem _ hwn))]

theorem insertChain_map_word_of_match (P : Params) (word : List Nat) (d f : Int)
    (chain : List WordNode) (h : ∃ wn ∈ chain, strncmp wn.word word P.WORD_LENGTH = 0) :
    (insertChain P word d f chain).map WordNode.word = chain.map WordNode.word := by
  induction chain with
  | nil => simp at h
  | cons c rest ih =>
    by_cases hc : strncmp c.word word P.WORD_LENGTH = 0
    · simp [insertChain, hc]
    · have h2 : ∃ wn ∈ rest, strncmp wn.word word P.WORD_LENGTH = 0 := by
        obtain ⟨wn, hwn, hm⟩ := h
        rcases List.mem_cons.1 hwn with rfl | hr
        · exact absurd hm hc
        · exact ⟨wn, hr, hm⟩
      simp [insertChain, hc, ih h2]

theorem initStructure_bucket (P : Params) (s : Nat) : bucket (initStructure P) s = [] := by
  unfold bucket initStructure
  simp [List.getD_eq_getElem?_getD, List.getElem?_replicate]
  split <;> simp

theorem applyCalls_length (P : Params) (calls : List Call) (index : INVERTED_INDEX) :
    (applyCalls P calls index).hash.length = index.hash.length := by
  induction calls generalizing index with
  | nil => rfl
  | cons c rest ih =>
    unfold applyCalls at ih ⊢
    rw [List.foldl_cons, ih, reconstructIndex_length]

theorem buildIndex_length (P : Params) (calls : List Call) :
    (buildIndex P calls).hash.length = P.MAX_NUMBER_OF_SLOTS := by
  unfold buildIndex
  rw [applyCalls_length]
  simp [initStructure]

theorem applyCalls_append (P : Params) (xs ys : List Call) (index : INVERTED_INDEX) :
    applyCalls P (xs ++ ys) index = applyCalls P ys (applyCalls P xs index) := by
  simp [applyCalls, List.foldl_append]

theorem slotOf_lt (P : Params) (word : List Nat) (h : 0 < P.MAX_NUMBER_OF_SLOTS) :
    slotOf P word < P.MAX_NUMBER_OF_SLOTS :=
  Nat.mod_lt _ h

/-! ### Word entries of a bucket -/

theorem bucket_mem_or_nil (index : INVERTED_INDEX) (s : Nat) :
    bucket index s ∈ index.hash ∨ bucket index s = [] := by
  unfold bucket
  by_cases h : s < index.hash.length
  · left
    rw [List.getD_eq_getElem?_getD, List.getElem?_eq_getElem h]
    exact List.getElem_mem h
  · right
    rw [List.getD_eq_getElem?_getD, List.getElem?_eq_none (by omega)]
    rfl

theorem insertChain_word_mem (P : Params) (word : List Nat) (d f : Int) (chain : List WordNode)
    (wn : WordNode) (h : wn ∈ insertChain P word d f chain) :
    wn.word = strncpy word P.WORD_LENGTH ∨ wn.word ∈ chain.map WordNode.word := by
  by_cases hm : ∃ x ∈ chain, strncmp x.word word P.WORD_LENGTH = 0
  · right
    rw [← insertChain_map_word_of_match P word d f chain hm]
    exact List.mem_map_of_mem _ h
  · have hno : ∀ x ∈ chain, strncmp x.word word P.WORD_LENGTH ≠ 0 := by
      intro x hx h0
      exact hm ⟨x, hx, h0⟩
    rw [insertChain_of_no_match P word d f chain hno] at h
    rcases List.mem_append.1 h with h1 | h1
    · right
      exact List.mem_map_of_mem _ h1
    · left
      simp [newWordNode] at h1
      rw [h1]

theorem insertChain_normalized (P : Params) (word : List Nat) (d f : Int) (chain : List WordNode)
    (hn : ∀ wn ∈ chain, strncpy wn.word P.WORD_LENGTH = wn.word) :
    ∀ wn ∈ insertChain P word d f chain, strncpy wn.word P.WORD_LENGTH = wn.word := by
  intro wn hwn
  rcases insertChain_word_mem P word d f chain wn hwn with h | h
  · rw [h, strncpy_idem]
  · obtain ⟨x, hx, hxw⟩ := List.mem_map.1 h
    rw [← hxw]
    exact hn x hx

theorem insertChain_nodup (P : Params) (word : List Nat) (d f : Int) (chain : List WordNode)
    (hn : ∀ wn ∈ chain, strncpy wn.word P.WORD_LENGTH = wn.word)
    (hd : (chain.map WordNode.word).Nodup) :
    ((insertChain P word d f chain).map WordNode.word).Nodup := by
  by_cases hm : ∃ x ∈ chain, strncmp x.word word P.WORD_LENGTH = 0
  · rw [insertChain_map_word_of_match P word d f chain hm]
    exact hd
  · have hno : ∀ x ∈ chain, strncmp x.word word P.WORD_LENGTH ≠ 0 := by
      intro x hx h0
      exact hm ⟨x, hx, h0⟩
    rw [insertChain_of_no_match P word d f chain hno, List.map_append]
    refine List.Nodup.append hd (by simp) ?_
    intro a ha hb
    obtain ⟨x, hx, hxw⟩ := List.mem_map.1 ha
    simp [newWordNode] at hb
    apply hno x hx
    rw [strncmp_eq_zero_iff, hn x hx, hxw, hb]

theorem bucketsDistinct_step (P : Params) (word : List Nat) (d f : Int) (index : INVERTED_INDEX)
    (h : BucketsDistinct P index) : BucketsDistinct P (reconstructIndex P word d f index).2 := by
  intro chain hc
  rw [reconstructIndex_hash] at hc
  rcases List.mem_or_eq_of_mem_set hc with h1 | h1
  · exact h chain h1
  · have hb : (∀ wn ∈ bucket index (slotOf P word), strncpy wn.word P.WORD_LENGTH = wn.word) ∧
        ((bucket index (slotOf P word)).map WordNode.word).Nodup := by
      rcases bucket_mem_or_nil index (slotOf P word) with h2 | h2
      · exact h _ h2
      · rw [h2]
        simp
    rw [h1]
    exact ⟨insertChain_normalized P word d f _ hb.1, insertChain_nodup P word d f _ hb.1 hb.2⟩

theorem bucketsDistinct_applyCalls (P : Params) (calls : List Call) (index : INVERTED_INDEX)
    (h : BucketsDistinct P index) : BucketsDistinct P (applyCalls P calls index) := by
  induction calls generalizing index with
  | nil => exact h
  | cons c rest ih =>
    unfold applyCalls at ih ⊢
    rw [List.foldl_cons]
    exact ih _ (bucketsDistinct_step P c.1 c.2.1 c.2.2 index h)

theorem bucketsDistinct_init (P : Params) : BucketsDistinct P (initStructure P) := by
  intro chain hc
  simp [initStructure, List.mem_replicate] at hc
  rw [hc.2]
  simp

theorem bucketsDistinct_build (P : Params) (calls : List Call) :
    BucketsDistinct P (buildIndex P calls) :=
  bucketsDistinct_applyCalls P calls _ (bucketsDistinct_init P)

theorem stored_words_applyCalls (P : Params) (calls : List Call) (index : INVERTED_INDEX) :
    ∀ chain ∈ (applyCalls P calls index).hash, ∀ wn ∈ chain,
      (∃ c ∈ calls, wn.word = strncpy c.1 P.WORD_LENGTH) ∨
        ∃ chain0 ∈ index.hash, wn.word ∈ chain0.map WordNode.word := by
  induction calls generalizing index with
  | nil =>
    intro chain hc wn hwn
    right
    exact ⟨chain, hc, List.mem_map_of_mem _ hwn⟩
  | cons c rest ih =>
    intro chain hc wn hwn
    unfold applyCalls at ih hc
    rw [List.foldl_cons] at hc
    rcases ih _ chain hc wn hwn with ⟨c2, hc2, hw⟩ | ⟨chain0, hc0, hw⟩
    · left
      exact ⟨c2, List.mem_cons_of_mem _ hc2, hw⟩
    · rw [reconstructIndex_hash] at hc0
      rcases List.mem_or_eq_of_mem_set hc0 with h1 | h1
      · right
        exact ⟨chain0, h1, hw⟩
      · rw [h1] at hw
        obtain ⟨x, hx, hxw⟩ := List.mem_map.1 hw
        rcases insertChain_word_mem P c.1 c.2.1 c.2.2 _ x hx with h2 | h2
        · left
          exact ⟨c, List.mem_cons_self _ _, by rw [← hxw, h2]⟩
        · rcases bucket_mem_or_nil index (slotOf P c.1) with h3 | h3
          · right
            exact ⟨_, h3, by rw [← hxw]; exact h2⟩
          · rw [h3] at h2
            simp at h2

/-- C2. After any sequence of `reconstructIndex` calls on the empty index, whatever the hash
function, the Word entries of one bucket chain have pairwise different stored words, also under
the fixed-width comparison `strncmp(_, _, WORD_LENGTH)`, and every stored word is the word of
some call truncated to `WORD_LENGTH`. -/
theorem bucket_words_unique (P : Params) (calls : List Call) :
    ∀ chain ∈ (buildIndex P calls).hash,
      chain.Pairwise (fun a b => a.word ≠ b.word ∧ strncmp a.word b.word P.WORD_LENGTH ≠ 0) ∧
      ∀ wn ∈ chain, ∃ c ∈ calls, wn.word = strncpy c.1 P.WORD_LENGTH := by
  intro chain hc
  have hinv := bucketsDistinct_build P calls chain hc
  constructor
  · have hp : chain.Pairwise (fun a b => a.word ≠ b.word) := List.pairwise_map.1 hinv.2
    refine List.Pairwise.imp_of_mem ?_ hp
    intro a b ha hb hab
    refine ⟨hab, ?_⟩
    intro h0
    rw [strncmp_eq_zero_iff, hinv.1 a ha, hinv.1 b hb] at h0
    exact hab h0
  · intro wn hwn
    rcases stored_words_applyCalls P calls (initStructure P) chain hc wn hwn with h | ⟨c0, hc0, hw⟩
    · exact h
    · simp [initStructure, List.mem_replicate] at hc0
      rw [hc0.2] at hw
      simp at hw

theorem bucket_words_unique_witness :
    List.Pairwise (fun a b : WordNode => a.word ≠ b.word ∧ strncmp a.word b.word 8 ≠ 0)
        [⟨[100, 111, 103], [⟨2, 5⟩]⟩, ⟨[99, 97, 116], [⟨1, 3⟩, ⟨1, 3⟩]⟩] ∧
      ∀ wn ∈ [(⟨[100, 111, 103], [⟨2, 5⟩]⟩ : WordNode), ⟨[99, 97, 116], [⟨1, 3⟩, ⟨1, 3⟩]⟩],
        ∃ c ∈ [(([100, 111, 103], 2, 5) : Call), ([99, 97, 116], 1, 3), ([99, 97, 116], 1, 3)],
          wn.word = strncpy c.1 8 :=
  bucket_words_unique ⟨8, 2, fun _ => 1, true⟩
    [([100, 111, 103], 2, 5), ([99, 97, 116], 1, 3), ([99, 97, 116], 1, 3)]
    [⟨[100, 111, 103], [⟨2, 5⟩]⟩, ⟨[99, 97, 116], [⟨1, 3⟩, ⟨1, 3⟩]⟩] (by decide)

/-- C10. A call of `reconstructIndex` whose bucket holds no Word entry matching the word leaves
the old chain of that bucket in place and links exactly one new Word entry after it, holding the
word truncated to `WORD_LENGTH` and the single Document entry of the call; in an empty bucket the
new entry is the head; every other bucket is unchanged. -/
theorem new_word_appended (P : Params) (index : INVERTED_INDEX) (word : List Nat) (d f : Int)
    (hlen : index.hash.length = P.MAX_NUMBER_OF_SLOTS) (hpos : 0 < P.MAX_NUMBER_OF_SLOTS)
    (hno : ∀ wn ∈ bucket index (slotOf P word), strncmp wn.word word P.WORD_LENGTH ≠ 0) :
    bucket (reconstructIndex P word d f index).2 (slotOf P word) =
      bucket index (slotOf P word) ++
        [{ word := strncpy word P.WORD_LENGTH,
           page := [{ document_id := d, page_word_frequency := f }] }] ∧
    (bucket index (slotOf P word) = [] →
      (bucket (reconstructIndex P word d f index).2 (slotOf P word)).head? =
        some { word := strncpy word P.WORD_LENGTH,
               page := [{ document_id := d, page_word_frequency := f }] }) ∧
    (∀ s, s ≠ slotOf P word → bucket (reconstructIndex P word d f index).2 s = bucket index s) ∧
    (reconstructIndex P word d f index).2.hash.length = index.hash.length := by
  have hs : slotOf P word < index.hash.length := by
    rw [hlen]
    exact slotOf_lt P word hpos
  have h1 := bucket_reconstructIndex_same P word d f index hs
  rw [insertChain_of_no_match P word d f _ hno] at h1
  refine ⟨h1, ?_, ?_, reconstructIndex_length P word d f index⟩
  · intro he
    rw [h1, he]
    rfl
  · intro s hne
    exact bucket_reconstructIndex_other P word d f index s hne

theorem new_word_appended_witness :
    bucket (reconstructIndex ⟨8, 2, fun _ => 1, true⟩ [100, 111, 103] 4 2
        ⟨[[], [⟨[99, 97, 116], [⟨1, 3⟩]⟩]], some 1⟩).2 1 =
      [⟨[99, 97, 116], [⟨1, 3⟩]⟩, ⟨[100, 111, 103], [⟨4, 2⟩]⟩] :=
  (new_word_appended ⟨8, 2, fun _ => 1, true⟩ ⟨[[], [⟨[99, 97, 116], [⟨1, 3⟩]⟩]], some 1⟩
    [100, 111, 103] 4 2 rfl (by decide) (by decide)).1

/-- C1. Two calls of `reconstructIndex` with the same word and the same document id on the empty
index leave a Word entry whose Document chain holds that document id twice: the loop over the
chain never compares the head node, so the second call appends. -/
theorem duplicate_document_after_two_calls (P : Params) (hpos : 0 < P.MAX_NUMBER_OF_SLOTS)
    (word : List Nat) (d f : Int) :
    bucket (buildIndex P [(word, d, f), (word, d, f)]) (slotOf P word) =
      [{ word := strncpy word P.WORD_LENGTH,
         page := [{ document_id := d, page_word_frequency := f },
                  { document_id := d, page_word_frequency := f }] }] ∧
    ∃ wn ∈ bucket (buildIndex P [(word, d, f), (word, d, f)]) (slotOf P word),
      ¬ (wn.page.map DocumentNode.document_id).Nodup := by
  have hs : slotOf P word < (initStructure P).hash.length := by
    simp [initStructure]
    exact slotOf_lt P word hpos
  have h1 : bucket (reconstructIndex P word d f (initStructure P)).2 (slotOf P word) =
      [newWordNode P (newDocNode d f) word] := by
    rw [bucket_reconstructIndex_same P word d f _ hs, initStructure_bucket]
    rfl
  have hm : strncmp (strncpy word P.WORD_LENGTH) word P.WORD_LENGTH = 0 := by
    rw [strncmp_eq_zero_iff, strncpy_idem]
  have h2 : bucket (buildIndex P [(word, d, f), (word, d, f)]) (slotOf P word) =
      [{ word := strncpy word P.WORD_LENGTH,
         page := [{ document_id := d, page_word_frequency := f },
                  { document_id := d, page_word_frequency := f }] }] := by
    simp only [buildIndex, applyCalls, List.foldl_cons, List.foldl_nil]
    rw [bucket_reconstructIndex_same P word d f _ (by rw [reconstructIndex_length]; exact hs), h1]
    simp [insertChain, newWordNode, newDocNode, docLoop, hm]
  refine ⟨h2, ?_⟩
  rw [h2]
  exact ⟨_, List.mem_singleton_self _, by simp⟩

theorem duplicate_document_after_two_calls_witness :
    bucket (buildIndex ⟨8, 2, fun _ => 1, true⟩ [([99, 97, 116], 1, 3), ([99, 97, 116], 1, 3)]) 1 =
      [⟨[99, 97, 116], [⟨1, 3⟩, ⟨1, 3⟩]⟩] :=
  (duplicate_document_after_two_calls ⟨8, 2, fun _ => 1, true⟩ (by decide) [99, 97, 116] 1 3).1

/-- C9. On an index whose bucket holds the word with the one Document entry `(d, f0)`, a call
of `reconstructIndex` for the same word and the same document id `d` does not touch the stored
frequency `f0`: it links a second Document entry `(d, f)` after the first. -/
theorem head_document_not_merged (P : Params) (hpos : 0 < P.MAX_NUMBER_OF_SLOTS)
    (word : List Nat) (d f0 f : Int) :
    bucket (reconstructIndex P word d f
        { hash := (List.replicate P.MAX_NUMBER_OF_SLOTS []).set (slotOf P word)
            [{ word := strncpy word P.WORD_LENGTH,
               page := [{ document_id := d, page_word_frequency := f0 }] }],
          endSlot := some (slotOf P word) }).2 (slotOf P word) =
      [{ word := strncpy word P.WORD_LENGTH,
         page := [{ document_id := d, page_word_frequency := f0 },
                  { document_id := d, page_word_frequency := f }] }] := by
  have hs := slotOf_lt P word hpos
  have hm : strncmp (strncpy word P.WORD_LENGTH) word P.WORD_LENGTH = 0 := by
    rw [strncmp_eq_zero_iff, strncpy_idem]
  rw [bucket_reconstructIndex_same _ _ _ _ _ (by simpa using hs)]
  simp [bucket, List.getD_eq_getElem?_getD, List.getElem?_set, hs, insertChain, hm, docLoop,
    newDocNode]

theorem head_document_not_merged_witness :
    bucket (reconstructIndex ⟨8, 2, fun _ => 1, true⟩ [99, 97, 116] 7 5
        ⟨[[], [⟨[99, 97, 116], [⟨7, 3⟩]⟩]], some 1⟩).2 1 =
      [⟨[99, 97, 116], [⟨7, 3⟩, ⟨7, 5⟩]⟩] :=
  head_document_not_merged ⟨8, 2, fun _ => 1, true⟩ (by decide) [99, 97, 116] 7 3 5

/-! ### Sanitizing -/

theorem kept_ne_zero (P : Params) (b : Nat) (h : Kept P b) : b ≠ 0 := by
  intro h0
  subst h0
  unfold Kept at h
  simp [charVal_of_lt, sanitizeKeeps] at h

theorem kept_ne_newline (P : Params) (b : Nat) (h : Kept P b) : b ≠ 10 := by
  intro h0
  subst h0
  unfold Kept at h
  simp [charVal_of_lt, sanitizeKeeps] at h

theorem kept_space (P : Params) : Kept P 32 := by
  unfold Kept
  simp [charVal_of_lt, sanitizeKeeps]

theorem kept_minus (P : Params) : Kept P 45 := by
  unfold Kept
  simp [charVal_of_lt, sanitizeKeeps]

theorem kept_digit (P : Params) (b : Nat) (h : isdigit b = true) : Kept P b := by
  unfold isdigit at h
  simp at h
  unfold Kept
  rw [charVal_of_lt P b (by omega), sanitizeKeeps_iff]
  unfold specDropped
  omega

theorem sanitize_append (P : Params) (a b : List Nat) (h : ∀ x ∈ a, x ≠ 0) :
    sanitize P (a ++ b) = sanitize P a ++ sanitize P b := by
  induction a with
  | nil => rfl
  | cons x a ih =>
    have hx : x ≠ 0 := h x (List.mem_cons_self _ _)
    have ih2 := ih (fun y hy => h y (List.mem_cons_of_mem _ hy))
    by_cases hk : sanitizeKeeps (charVal P x) = true
    · simp [sanitize, hx, hk, ih2]
    · simp [sanitize, hx, hk, ih2]

theorem sanitize_of_kept (P : Params) (s : List Nat) (h : ∀ b ∈ s, Kept P b) :
    sanitize P s = s := by
  induction s with
  | nil => rfl
  | cons x s ih =>
    have hx : Kept P x := h x (List.mem_cons_self _ _)
    have hx0 := kept_ne_zero P x hx
    unfold Kept at hx
    simp [sanitize, hx0, hx, ih (fun y hy => h y (List.mem_cons_of_mem _ hy))]

theorem sanitize_newline (P : Params) : sanitize P [10] = [] := by
  simp [sanitize, charVal_of_lt, sanitizeKeeps]

theorem sanitize_no_zero (P : Params) (s : List Nat) : ∀ b ∈ sanitize P s, b ≠ 0 := by
  induction s with
  | nil => simp [sanitize]
  | cons x s ih =>
    by_cases hx : x = 0
    · simp [sanitize, hx]
    · by_cases hk : sanitizeKeeps (charVal P x) = true
      · simp only [sanitize, hx, hk, if_true, if_false]
        intro b hb
        rcases List.mem_cons.1 hb with rfl | h1
        · exact hx
        · exact ih b h1
      · simp only [sanitize, hx, hk, if_false]
        exact ih

/-! ### Reading the lines of a file -/

theorem fgetsAll_line (cap : Nat) (body : List Nat) (room : Nat) (cur rest : List Nat)
    (h10 : ∀ b ∈ body, b ≠ 10) (hroom : body.length < room) :
    fgetsAll cap room cur (body ++ 10 :: rest) =
      (cur.reverse ++ body ++ [10]) :: fgetsAll cap cap [] rest := by
  induction body generalizing room cur with
  | nil => simp [fgetsAll]
  | cons b body ih =>
    have hb : b ≠ 10 := h10 b (List.mem_cons_self _ _)
    have hr : ¬ room ≤ 1 := by
      simp at hroom
      omega
    simp only [List.cons_append, fgetsAll, hb, hr, or_self, if_false, List.append_eq]
    rw [ih (room - 1) (b :: cur) (fun y hy => h10 y (List.mem_cons_of_mem _ hy))
      (by simp at hroom; omega)]
    simp

theorem fgetsAll_tail (cap : Nat) (tail : List Nat) (room : Nat) (cur : List Nat)
    (h10 : ∀ b ∈ tail, b ≠ 10) (hroom : tail.length ≤ room) :
    fgetsAll cap room cur tail =
      if (cur.reverse ++ tail).isEmpty then [] else [cur.reverse ++ tail] := by
  induction tail generalizing room cur with
  | nil =>
    cases cur <;> simp [fgetsAll]
  | cons b tail ih =>
    have hb : b ≠ 10 := h10 b (List.mem_cons_self _ _)
    by_cases hr : room ≤ 1
    · have ht : tail = [] := by
        simp at hroom
        have : tail.length = 0 := by omega
        exact List.length_eq_zero.1 this
      subst ht
      simp [fgetsAll, hr]
    · simp only [fgetsAll, hb, hr, or_self, if_false]
      rw [ih (room - 1) (b :: cur) (fun y hy => h10 y (List.mem_cons_of_mem _ hy))
        (by simp at hroom; omega)]
      simp

theorem fgetsAll_linesFile (cap : Nat) (bodies : List (List Nat)) (tail : List Nat)
    (hb : ∀ b ∈ bodies, (∀ x ∈ b, x ≠ 10) ∧ b.length < cap)
    (ht : (∀ x ∈ tail, x ≠ 10) ∧ tail.length ≤ cap) :
    fgetsAll cap cap [] (linesFile bodies tail) =
      bodies.map (fun b => b ++ [10]) ++ (if tail.isEmpty then [] else [tail]) := by
  induction bodies with
  | nil =>
    simp only [linesFile, List.map_nil, List.flatten_nil, List.nil_append]
    rw [fgetsAll_tail cap tail cap [] ht.1 ht.2]
    simp
  | cons b bodies ih =>
    have h1 := hb b (List.mem_cons_self _ _)
    have ih2 := ih (fun y hy => hb y (List.mem_cons_of_mem _ hy))
    unfold linesFile at ih2 ⊢
    simp only [List.map_cons, List.flatten_cons, List.append_assoc, List.singleton_append,
      List.cons_append]
    rw [fgetsAll_line cap b cap [] _ h1.1 h1.2]
    simp only [List.nil_append, List.reverse_nil]
    rw [ih2]

theorem cstr_append_of_no_zero (a b : List Nat) (h : ∀ x ∈ a, x ≠ 0) :
    cstr (a ++ b) = a ++ cstr b := by
  unfold cstr
  rw [List.takeWhile_append_of_pos]
  intro x hx
  simpa using h x hx

theorem strlen_loaded (g : Nat) (file : List Nat) (h : ∀ x ∈ file, x ≠ 0) :
    file.length ≤ strlen (file ++ [g, 0]) := by
  unfold strlen
  rw [cstr_append_of_no_zero _ _ h]
  simp

theorem mem_linesFile (bodies : List (List Nat)) (tail : List Nat) (x : Nat)
    (h : x ∈ linesFile bodies tail) : (∃ b ∈ bodies, x ∈ b) ∨ x = 10 ∨ x ∈ tail := by
  unfold linesFile at h
  rcases List.mem_append.1 h with h1 | h1
  · obtain ⟨l, hl, hx⟩ := List.mem_flatten.1 h1
    obtain ⟨b, hb, rfl⟩ := List.mem_map.1 hl
    rcases List.mem_append.1 hx with h2 | h2
    · exact Or.inl ⟨b, hb, h2⟩
    · simp at h2
      exact Or.inr (Or.inl h2)
  · exact Or.inr (Or.inr h1)

theorem length_body_lt_linesFile (bodies : List (List Nat)) (tail : List Nat) (b : List Nat)
    (h : b ∈ bodies) : b.length < (linesFile bodies tail).length := by
  induction bodies with
  | nil => simp at h
  | cons c bodies ih =>
    rcases List.mem_cons.1 h with rfl | h1
    · simp [linesFile]
    · have := ih h1
      simp [linesFile] at this ⊢
      omega

theorem length_tail_le_linesFile (bodies : List (List Nat)) (tail : List Nat) :
    tail.length ≤ (linesFile bodies tail).length := by
  simp [linesFile]

theorem processLine_newline (P : Params) (b : List Nat) (index : INVERTED_INDEX)
    (h : ∀ x ∈ b, x ≠ 0) : processLine P (b ++ [10]) index = processLine P b index := by
  unfold processLine
  rw [sanitize_append P b [10] h, sanitize_newline, List.append_nil]

theorem processLines_map_newline (P : Params) (bodies rest : List (List Nat))
    (index : INVERTED_INDEX) (h : ∀ b ∈ bodies, ∀ x ∈ b, x ≠ 0) :
    processLines P (bodies.map (fun b => b ++ [10]) ++ rest) index =
      processLines P (bodies ++ rest) index := by
  induction bodies generalizing index with
  | nil => rfl
  | cons b bodies ih =>
    have hb := h b (List.mem_cons_self _ _)
    have ih2 := fun i => ih i (fun y hy => h y (List.mem_cons_of_mem _ hy))
    simp only [List.map_cons, List.cons_append, processLines]
    rw [processLine_newline P b index hb]
    cases processLine P b index with
    | returns i => exact ih2 i
    | exits => rfl
    | crashes => rfl
    | hangs => rfl

theorem processLines_append (P : Params) (xs ys : List (List Nat)) (index : INVERTED_INDEX) :
    processLines P (xs ++ ys) index =
      match processLines P xs index with
      | Run.returns i => processLines P ys i
      | Run.exits => Run.exits
      | Run.crashes => Run.crashes
      | Run.hangs => Run.hangs := by
  induction xs generalizing index with
  | nil => rfl
  | cons x xs ih =>
    simp only [List.cons_append, processLines]
    cases processLine P x index with
    | returns i => exact ih i
    | exits => rfl
    | crashes => rfl
    | hangs => rfl

theorem reloadIndexFromFile_linesFile (P : Params) (g : Nat) (bodies : List (List Nat))
    (tail : List Nat) (index : INVERTED_INDEX) (hne : linesFile bodies tail ≠ [])
    (hb : ∀ b ∈ bodies, ∀ x ∈ b, x ≠ 10 ∧ x ≠ 0) (ht : ∀ x ∈ tail, x ≠ 10 ∧ x ≠ 0) :
    reloadIndexFromFile P g (linesFile bodies tail) index =
      processLines P (linesOf bodies tail) index := by
  have hz : ∀ x ∈ linesFile bodies tail, x ≠ 0 := by
    intro x hx
    rcases mem_linesFile bodies tail x hx with ⟨b, hbm, hxb⟩ | h10 | hxt
    · exact (hb b hbm x hxb).2
    · rw [h10]
      decide
    · exact (ht x hxt).2
  have hlen : 0 < (linesFile bodies tail).length := List.length_pos.2 hne
  have hcap := strlen_loaded g _ hz
  unfold reloadIndexFromFile loadDocument
  rw [if_neg (by omega)]
  simp only
  rw [if_neg (by omega)]
  rw [fgetsAll_linesFile]
  · have h2 := processLines_map_newline P bodies (if tail.isEmpty then [] else [tail]) index
      (fun b hbm x hx => (hb b hbm x hx).2)
    rw [h2]
    rfl
  · intro b hbm
    refine ⟨fun x hx => (hb b hbm x hx).1, ?_⟩
    have := length_body_lt_linesFile bodies tail b hbm
    omega
  · refine ⟨fun x hx => (ht x hx).1, ?_⟩
    have := length_tail_le_linesFile bodies tail
    omega

/-! ### Tokens of a line -/

theorem intercalate_cons_cons (sep a b : List Nat) (ls : List (List Nat)) :
    sep.intercalate (a :: b :: ls) = a ++ sep ++ sep.intercalate (b :: ls) := by
  simp [List.intercalate]

theorem intercalate_append_nil (sep : List Nat) (ls : List (List Nat)) (h : ls ≠ []) :
    sep.intercalate (ls ++ [[]]) = sep.intercalate ls ++ sep := by
  induction ls with
  | nil => exact absurd rfl h
  | cons a ls ih =>
    cases ls with
    | nil => simp [List.intercalate]
    | cons b ls =>
      have := ih (by simp)
      rw [List.cons_append, List.cons_append, intercalate_cons_cons, intercalate_cons_cons,
        ← List.cons_append, this]
      simp

theorem mem_intercalate (sep : List Nat) (ls : List (List Nat)) (x : Nat)
    (h : x ∈ sep.intercalate ls) : x ∈ sep ∨ ∃ l ∈ ls, x ∈ l := by
  induction ls with
  | nil => simp [List.intercalate] at h
  | cons a ls ih =>
    cases ls with
    | nil =>
      simp [List.intercalate] at h
      exact Or.inr ⟨a, List.mem_cons_self _ _, h⟩
    | cons b ls =>
      rw [intercalate_cons_cons] at h
      rcases List.mem_append.1 h with h1 | h1
      · rcases List.mem_append.1 h1 with h2 | h2
        · exact Or.inr ⟨a, List.mem_cons_self _ _, h2⟩
        · exact Or.inl h2
      · rcases ih h1 with h2 | ⟨l, hl, hx⟩
        · exact Or.inl h2
        · exact Or.inr ⟨l, List.mem_cons_of_mem _ hl, hx⟩

theorem IndexLine.body_eq (l : IndexLine) :
    l.body = [32].intercalate (l.fields ++ (if l.trailingSpace then [[]] else [])) := by
  unfold IndexLine.body
  cases l.trailingSpace with
  | false => simp
  | true =>
    simp only [if_true]
    rw [intercalate_append_nil _ _ (by simp [IndexLine.fields])]

theorem IndexLine.mem_body (l : IndexLine) (x : Nat) (h : x ∈ l.body) :
    x = 32 ∨ ∃ t ∈ l.fields, x ∈ t := by
  unfold IndexLine.body at h
  rcases List.mem_append.1 h with h1 | h1
  · rcases mem_intercalate _ _ _ h1 with h2 | h2
    · left
      simpa using h2
    · exact Or.inr h2
  · left
    split at h1
    · simpa using h1
    · simp at h1

theorem IndexLine.body_kept (P : Params) (l : IndexLine) (h : l.TokensOk P) :
    ∀ x ∈ l.body, Kept P x := by
  intro x hx
  rcases l.mem_body x hx with h1 | ⟨t, ht, hxt⟩
  · rw [h1]
    exact kept_space P
  · exact ((h t ht).2 x hxt).1

theorem strtokAll_body (P : Params) (l : IndexLine) (h : l.TokensOk P) :
    strtokAll l.body = l.fields := by
  unfold strtokAll
  rw [cstr_of_no_zero _ (fun x hx => kept_ne_zero P x (l.body_kept P h x hx)), l.body_eq,
    List.splitOn_intercalate]
  · rw [List.filter_append]
    have h1 : l.fields.filter (fun t => !t.isEmpty) = l.fields := by
      rw [List.filter_eq_self]
      intro t ht
      have := (h t ht).1
      cases t with
      | nil => exact absurd rfl this
      | cons a t => rfl
    rw [h1]
    cases l.trailingSpace <;> simp
  · intro t ht
    rcases List.mem_append.1 ht with h1 | h1
    · intro h32
      exact ((h t h1).2 32 h32).2 rfl
    · split at h1
      · simp at h1
        rw [h1]
        simp
      · simp at h1
  · simp [IndexLine.fields]

theorem pairLoop_pairs (P : Params) (word : List Nat) (pairs : List (List Nat × List Nat))
    (index : INVERTED_INDEX) :
    pairLoop P word (pairs.map (fun p => [p.1, p.2])).flatten index =
      Run.returns (applyCalls P (pairs.map (fun p => (word, atoi p.1, atoi p.2))) index) := by
  induction pairs generalizing index with
  | nil => rfl
  | cons p pairs ih =>
    simp only [List.map_cons, List.flatten_cons, List.cons_append, List.nil_append, pairLoop,
      List.append_eq]
    rw [ih]
    rfl

theorem processLine_body (P : Params) (l : IndexLine) (index : INVERTED_INDEX)
    (h : l.TokensOk P) :
    processLine P l.body index = Run.returns (applyCalls P l.calls index) := by
  unfold processLine
  rw [sanitize_of_kept P _ (l.body_kept P h), strtokAll_body P l h]
  simp only [IndexLine.fields, List.drop_one, List.tail_cons]
  exact pairLoop_pairs P l.word l.pairs index

theorem processLines_bodies (P : Params) (ls : List IndexLine) (index : INVERTED_INDEX)
    (h : ∀ l ∈ ls, l.TokensOk P) :
    processLines P (ls.map IndexLine.body) index =
      Run.returns (applyCalls P (ls.map IndexLine.calls).flatten index) := by
  induction ls generalizing index with
  | nil => rfl
  | cons l ls ih =>
    simp only [List.map_cons, processLines, List.flatten_cons]
    rw [processLine_body P l index (h l (List.mem_cons_self _ _))]
    simp only
    rw [ih _ (fun y hy => h y (List.mem_cons_of_mem _ hy)), applyCalls_append]

/-! ### Numerals -/

theorem foldl_digits_append (t : List Nat) (c : Nat) :
    (t ++ [c]).foldl (fun acc c => 10 * acc + (c - 48)) 0 =
      10 * t.foldl (fun acc c => 10 * acc + (c - 48)) 0 + (c - 48) := by
  rw [List.foldl_append]
  rfl

theorem foldl_digits_eq_decimalValue (t : List Nat) :
    t.foldl (fun acc c => 10 * acc + (c - 48)) 0 = decimalValue t := by
  induction t using List.reverseRecOn with
  | nil => simp [decimalValue]
  | append_singleton t c ih =>
    rw [foldl_digits_append, ih]
    unfold decimalValue
    simp [Nat.ofDigits_cons]
    omega

theorem digitsValue_numeral (t : List Nat) (h : ∀ b ∈ t, isdigit b = true) :
    digitsValue t = decimalValue t := by
  unfold digitsValue
  rw [List.takeWhile_eq_self_iff.2 h]
  exact foldl_digits_eq_decimalValue t

theorem atoi_numeral (t : List Nat) (h : IsNumeral t) : atoi t = (decimalValue t : Int) := by
  obtain ⟨hne, hd⟩ := h
  cases t with
  | nil => exact absurd rfl hne
  | cons c t =>
    have hc := hd c (List.mem_cons_self _ _)
    have hz : ∀ b ∈ c :: t, b ≠ 0 := by
      intro b hb h0
      have := hd b hb
      rw [h0] at this
      simp [isdigit] at this
    have hc2 : 48 ≤ c ∧ c ≤ 57 := by simpa [isdigit] using hc
    have hsp : isspace c = false := by
      simp [isspace]
      omega
    unfold atoi
    rw [cstr_of_no_zero _ hz]
    simp only [List.dropWhile_cons, hsp]
    split
    · next t2 heq =>
      simp at heq
      omega
    · next t2 heq =>
      simp at heq
      omega
    · next t2 h1 h2 =>
      simp
      exact digitsValue_numeral _ hd

theorem numeral_isToken (P : Params) (t : List Nat) (h : IsNumeral t) : IsToken P t := by
  refine ⟨h.1, fun b hb => ⟨kept_digit P b (h.2 b hb), ?_⟩⟩
  intro h32
  have := h.2 b hb
  rw [h32] at this
  simp [isdigit] at this

/-! ### Reloading a file -/

theorem linesFile_ne_nil_of_bodies (bodies : List (List Nat)) (tail : List Nat)
    (h : bodies ≠ []) : linesFile bodies tail ≠ [] := by
  cases bodies with
  | nil => exact absurd rfl h
  | cons b bodies =>
    intro h0
    have := congrArg List.length h0
    simp [linesFile] at this

theorem IndexLine.body_ne_nil (P : Params) (l : IndexLine) (h : l.TokensOk P) : l.body ≠ [] := by
  intro h0
  have h1 := strtokAll_body P l h
  rw [h0] at h1
  simp [strtokAll, cstr, IndexLine.fields] at h1

theorem reload_wellFormed_lines (P : Params) (g : Nat) (ls : List IndexLine)
    (last : Option IndexLine) (index : INVERTED_INDEX) (hne : ls ++ last.toList ≠ [])
    (hw : ∀ l ∈ ls ++ last.toList, l.TokensOk P) :
    reloadIndexFromFile P g (linesFile (ls.map IndexLine.body) (last.elim [] IndexLine.body))
        index =
      Run.returns (applyCalls P ((ls ++ last.toList).map IndexLine.calls).flatten index) := by
  have hk : ∀ l ∈ ls ++ last.toList, ∀ x ∈ l.body, x ≠ 10 ∧ x ≠ 0 := by
    intro l hl x hx
    have := l.body_kept P (hw l hl) x hx
    exact ⟨kept_ne_newline P x this, kept_ne_zero P x this⟩
  have hlines : linesOf (ls.map IndexLine.body) (last.elim [] IndexLine.body) =
      (ls ++ last.toList).map IndexLine.body := by
    unfold linesOf
    cases last with
    | none => simp
    | some l =>
      have := l.body_ne_nil P (hw l (by simp))
      cases hb : l.body with
      | nil => exact absurd hb this
      | cons a t => simp [hb]
  rw [reloadIndexFromFile_linesFile, hlines, processLines_bodies P _ index hw]
  · cases last with
    | none =>
      apply linesFile_ne_nil_of_bodies
      simpa using hne
    | some l =>
      intro h0
      have h1 := l.body_ne_nil P (hw l (by simp))
      have h2 := congrArg List.length h0
      simp [linesFile] at h2
      exact h1 h2.2
  · intro b hb x hx
    obtain ⟨l, hl, rfl⟩ := List.mem_map.1 hb
    exact hk l (List.mem_append_left _ hl) x hx
  · intro x hx
    cases last with
    | none => simp at hx
    | some l => exact hk l (by simp) x hx

theorem processLine_short (P : Params) (b : List Nat) (index : INVERTED_INDEX)
    (h : (strtokAll (sanitize P b)).length ≤ 2) : processLine P b index = Run.returns index := by
  unfold processLine
  cases h1 : strtokAll (sanitize P b) with
  | nil => rfl
  | cons w rest =>
    rw [h1] at h
    cases rest with
    | nil => rfl
    | cons c rest2 =>
      cases rest2 with
      | nil => rfl
      | cons d rest3 =>
        simp at h

/-! ### Writing the index -/

theorem countDocs_eq_length (page : List DocumentNode) : countDocs page = (page.length : Int) := by
  induction page with
  | nil => rfl
  | cons d page ih => simp [countDocs, ih]

theorem flatten_pairs_spaced (page : List DocumentNode) :
    (((page.map (fun d => [fmtInt d.document_id, fmtInt d.page_word_frequency])).flatten).map
      (fun t => t ++ [32])).flatten =
    (page.map (fun d =>
      fmtInt d.document_id ++ [32] ++ fmtInt d.page_word_frequency ++ [32])).flatten := by
  induction page with
  | nil => rfl
  | cons d page ih =>
    rw [List.map_cons, List.flatten_cons, List.map_cons, List.flatten_cons, List.map_append,
      List.flatten_append, ih]
    simp

theorem wordLine_eq_spacedLine (wn : WordNode) : wordLine wn = spacedLine wn := by
  unfold wordLine spacedLine spacedBody lineFields
  simp only [List.map_cons, List.flatten_cons]
  rw [flatten_pairs_spaced, countDocs_eq_length]
  simp

theorem writeIndex_eq (P : Params) (index : INVERTED_INDEX) :
    writeIndex P index = ((entries P index).map wordLine).flatten := by
  unfold writeIndex entries
  induction List.range P.MAX_NUMBER_OF_SLOTS with
  | nil => rfl
  | cons i rest ih => simp [ih]

theorem splitLines_ne_nil (c : Nat) (s : List Nat) : splitLines (c :: s) ≠ [] := by
  unfold splitLines
  split
  · simp
  · split <;> simp

theorem splitLines_append_newline (a rest : List Nat) :
    splitLines (a ++ 10 :: rest) = splitLines (a ++ [10]) ++ splitLines rest := by
  induction a with
  | nil => simp [splitLines]
  | cons c a ih =>
    by_cases hc : c = 10
    · simp [splitLines, hc, ih]
    · simp only [List.cons_append, splitLines, hc, if_false, List.append_eq]
      rw [ih]
      cases h : splitLines (a ++ [10]) with
      | nil =>
        cases a with
        | nil => simp [splitLines] at h
        | cons x a => exact absurd h (splitLines_ne_nil _ _)
      | cons l ls => rfl

theorem splitLines_line (body : List Nat) (h : ∀ x ∈ body, x ≠ 10) :
    splitLines (body ++ [10]) = [body] := by
  induction body with
  | nil => simp [splitLines]
  | cons c body ih =>
    have hc : c ≠ 10 := h c (List.mem_cons_self _ _)
    simp only [List.cons_append, splitLines, hc, if_false, List.append_eq]
    rw [ih (fun x hx => h x (List.mem_cons_of_mem _ hx))]

theorem splitLines_flatten (lines : List (List Nat)) :
    splitLines (lines.map (fun b => b ++ [10])).flatten =
      (lines.map (fun b => splitLines (b ++ [10]))).flatten := by
  induction lines with
  | nil => rfl
  | cons b lines ih =>
    simp only [List.map_cons, List.flatten_cons, List.append_assoc, List.singleton_append]
    rw [splitLines_append_newline, ih]

theorem splitLines_lines (lines : List (List Nat)) (h : ∀ b ∈ lines, ∀ x ∈ b, x ≠ 10) :
    splitLines (lines.map (fun b => b ++ [10])).flatten = lines := by
  rw [splitLines_flatten]
  induction lines with
  | nil => rfl
  | cons b lines ih =>
    simp only [List.map_cons, List.flatten_cons]
    rw [splitLines_line b (h b (List.mem_cons_self _ _)),
      ih (fun y hy => h y (List.mem_cons_of_mem _ hy))]
    rfl

theorem wordLine_eq_body (wn : WordNode) : wordLine wn = spacedBody wn ++ [10] := by
  rw [wordLine_eq_spacedLine]
  rfl

theorem sortFile_perm (xs ys : List (List Nat)) (h : xs.Perm ys) :
    sortFile (xs.map (fun b => b ++ [10])).flatten =
      sortFile (ys.map (fun b => b ++ [10])).flatten := by
  unfold sortFile
  rw [splitLines_flatten, splitLines_flatten]
  congr 2
  apply List.eq_of_perm_of_sorted (r := fun a b : List Nat => a ≤ b)
  · exact ((List.perm_insertionSort _ _).trans ((h.map _).flatten)).trans
      (List.perm_insertionSort _ _).symm
  · exact List.sorted_insertionSort _ _
  · exact List.sorted_insertionSort _ _

theorem writeIndex_eq_lines (P : Params) (index : INVERTED_INDEX) :
    writeIndex P index =
      (((entries P index).map spacedBody).map (fun b => b ++ [10])).flatten := by
  rw [writeIndex_eq, List.map_map]
  congr 1
  apply List.map_congr_left
  intro wn _
  exact wordLine_eq_body wn

/-! ### Decimal numerals -/

theorem decimalAux_digits (fuel n : Nat) (acc : List Nat) (h : ∀ b ∈ acc, isdigit b = true) :
    ∀ b ∈ decimalAux fuel n acc, isdigit b = true := by
  induction fuel generalizing n acc with
  | zero => simpa [decimalAux] using h
  | succ fuel ih =>
    have hd : isdigit (48 + n % 10) = true := by
      simp [isdigit]
      omega
    have hacc : ∀ b ∈ (48 + n % 10) :: acc, isdigit b = true := by
      intro b hb
      rcases List.mem_cons.1 hb with rfl | h1
      · exact hd
      · exact h b h1
    unfold decimalAux
    split
    · exact hacc
    · exact ih _ _ hacc

theorem decimalAux_ne_nil (fuel n : Nat) (acc : List Nat) (h : acc ≠ [] ∨ fuel ≠ 0) :
    decimalAux fuel n acc ≠ [] := by
  induction fuel generalizing n acc with
  | zero =>
    rcases h with h | h
    · simpa [decimalAux] using h
    · exact absurd rfl h
  | succ fuel ih =>
    unfold decimalAux
    split
    · simp
    · exact ih _ _ (Or.inl (by simp))

theorem decimal_digits (n : Nat) : ∀ b ∈ decimal n, isdigit b = true :=
  decimalAux_digits _ _ [] (by simp)

theorem decimal_ne_nil (n : Nat) : decimal n ≠ [] :=
  decimalAux_ne_nil _ _ [] (Or.inr (by simp))

theorem decimal_isNumeral (n : Nat) : IsNumeral (decimal n) :=
  ⟨decimal_ne_nil n, decimal_digits n⟩

theorem foldl_decimalAux (fuel n : Nat) (acc : List Nat) (h : n < fuel) :
    (decimalAux fuel n acc).foldl (fun a c => 10 * a + (c - 48)) 0 =
      acc.foldl (fun a c => 10 * a + (c - 48)) n := by
  induction fuel generalizing n acc with
  | zero => omega
  | succ fuel ih =>
    unfold decimalAux
    split
    · next h0 =>
      have : n % 10 = n := by omega
      simp [List.foldl_cons, this]
    · next h0 =>
      rw [ih (n / 10) _ (by omega)]
      simp only [List.foldl_cons]
      congr 1
      omega

theorem decimalValue_decimal (n : Nat) : decimalValue (decimal n) = n := by
  rw [← foldl_digits_eq_decimalValue]
  unfold decimal
  rw [foldl_decimalAux _ _ _ (by omega)]
  rfl

theorem atoi_fmtInt (i : Int) : atoi (fmtInt i) = i := by
  unfold fmtInt
  split
  · next hneg =>
    have hz : ∀ b ∈ 45 :: decimal i.natAbs, b ≠ 0 := by
      intro b hb h0
      rcases List.mem_cons.1 hb with h1 | h1
      · omega
      · have := decimal_digits _ b h1
        rw [h0] at this
        simp [isdigit] at this
    unfold atoi
    rw [cstr_of_no_zero _ hz]
    simp only [List.dropWhile_cons, isspace]
    simp only [Nat.reduceEqDiff, decide_False, Nat.reduceLeDiff, decide_True, Bool.and_false,
      Bool.or_self, Bool.false_eq_true, if_false]
    rw [digitsValue_numeral _ (decimal_digits _), decimalValue_decimal]
    omega
  · next hpos =>
    rw [atoi_numeral _ (decimal_isNumeral _), decimalValue_decimal]
    omega

theorem fmtInt_isToken (P : Params) (i : Int) : IsToken P (fmtInt i) := by
  unfold fmtInt
  split
  · refine ⟨by simp, ?_⟩
    intro b hb
    rcases List.mem_cons.1 hb with rfl | h1
    · exact ⟨kept_minus P, by decide⟩
    · exact (numeral_isToken P _ (decimal_isNumeral _)).2 b h1
  · exact numeral_isToken P _ (decimal_isNumeral _)

theorem fmtInt_ne_newline (i : Int) : ∀ x ∈ fmtInt i, x ≠ 10 := by
  intro x hx h10
  have := ((fmtInt_isToken ⟨0, 0, fun _ => 0, false⟩ i).2 x hx).1
  exact kept_ne_newline _ x this h10

theorem spacedBody_ne_newline (wn : WordNode) (h : ∀ x ∈ cstr wn.word, x ≠ 10) :
    ∀ x ∈ spacedBody wn, x ≠ 10 := by
  intro x hx
  unfold spacedBody at hx
  obtain ⟨l, hl, hxl⟩ := List.mem_flatten.1 hx
  obtain ⟨t, ht, rfl⟩ := List.mem_map.1 hl
  rcases List.mem_append.1 hxl with h1 | h1
  · unfold lineFields at ht
    rcases List.mem_cons.1 ht with rfl | ht
    · exact h x h1
    rcases List.mem_cons.1 ht with rfl | ht
    · exact fmtInt_ne_newline _ x h1
    obtain ⟨l2, hl2, htl⟩ := List.mem_flatten.1 ht
    obtain ⟨d, _, rfl⟩ := List.mem_map.1 hl2
    simp at htl
    rcases htl with rfl | rfl
    · exact fmtInt_ne_newline _ x h1
    · exact fmtInt_ne_newline _ x h1
  · simp at h1
    omega

theorem saveIndexToFile_eq_sorted (P : Params) (index : INVERTED_INDEX)
    (hnl : ∀ wn ∈ entries P index, ∀ x ∈ cstr wn.word, x ≠ 10) :
    saveIndexToFile P index =
      ((((entries P index).map spacedBody).insertionSort (fun a b => a ≤ b)).map
        (fun l => l ++ [10])).flatten := by
  rw [saveIndexToFile, writeIndex_eq_lines, sortFile, splitLines_lines]
  intro b hb x hx
  obtain ⟨wn, hwn, rfl⟩ := List.mem_map.1 hb
  exact spacedBody_ne_newline wn (hnl wn hwn) x hx

theorem saveIndexToFile_perm (P : Params) (index1 index2 : INVERTED_INDEX)
    (h : (entries P index1).Perm (entries P index2)) :
    saveIndexToFile P index1 = saveIndexToFile P index2 := by
  rw [saveIndexToFile, saveIndexToFile, writeIndex_eq_lines, writeIndex_eq_lines]
  exact sortFile_perm _ _ (h.map _)

/-- C4 (as amended). Two indexes whose stored words are shorter than `WORD_LENGTH` and whose
Word entries are the same, each with its Document chain in the same order, give the same file,
whatever the order of the entries in the bucket chains: the sort step orders the lines and
leaves the order of the Document entries inside a line as it is in the chain. -/
theorem serialize_deterministic (P : Params) (index1 index2 : INVERTED_INDEX)
    (_hterm1 : WordsTerminated P index1) (_hterm2 : WordsTerminated P index2)
    (h : (entries P index1).Perm (entries P index2)) :
    saveIndexToFile P index1 = saveIndexToFile P index2 :=
  saveIndexToFile_perm P index1 index2 h

theorem serialize_deterministic_witness :
    saveIndexToFile ⟨8, 2, fun _ => 1, true⟩
        (buildIndex ⟨8, 2, fun _ => 1, true⟩ [([99, 97, 116], 1, 3), ([100, 111, 103], 2, 5)]) =
      saveIndexToFile ⟨8, 2, fun _ => 1, true⟩
        (buildIndex ⟨8, 2, fun _ => 1, true⟩ [([100, 111, 103], 2, 5), ([99, 97, 116], 1, 3)]) :=
  serialize_deterministic ⟨8, 2, fun _ => 1, true⟩ _ _ (by decide) (by decide) (by decide)

/-- C4, counterexample.  The calls `(cat,1,3)`, `(cat,2,5)` and the same calls in the other
order build indexes with the same words and the same set of Document entries, and the files
differ: `cat 2 1 3 2 5 ` against `cat 2 2 5 1 3 `. -/
theorem serialize_order_counterexample :
    saveIndexToFile ⟨8, 2, fun _ => 1, true⟩
        (buildIndex ⟨8, 2, fun _ => 1, true⟩ [([99, 97, 116], 1, 3), ([99, 97, 116], 2, 5)]) ≠
      saveIndexToFile ⟨8, 2, fun _ => 1, true⟩
        (buildIndex ⟨8, 2, fun _ => 1, true⟩ [([99, 97, 116], 2, 5), ([99, 97, 116], 1, 3)]) ∧
    saveIndexToFile ⟨8, 2, fun _ => 1, true⟩
        (buildIndex ⟨8, 2, fun _ => 1, true⟩ [([99, 97, 116], 1, 3), ([99, 97, 116], 2, 5)]) =
      [99, 97, 116, 32, 50, 32, 49, 32, 51, 32, 50, 32, 53, 32, 10] ∧
    saveIndexToFile ⟨8, 2, fun _ => 1, true⟩
        (buildIndex ⟨8, 2, fun _ => 1, true⟩ [([99, 97, 116], 2, 5), ([99, 97, 116], 1, 3)]) =
      [99, 97, 116, 32, 50, 32, 50, 32, 53, 32, 49, 32, 51, 32, 10] := by
  decide

/-! ### The document chain of a Word entry -/

theorem docLoop_cons (d f : Int) (m : DocumentNode) (rest : List DocumentNode) :
    docLoop d f (m :: rest) = m :: mergeTail d f rest := by
  induction rest generalizing m with
  | nil => simp [docLoop, mergeTail]
  | cons n rest ih =>
    by_cases h : n.document_id = d
    · simp [docLoop, mergeTail, h]
    · simp [docLoop, mergeTail, h, ih n]

theorem mergeTail_of_not_mem (d f : Int) (rest : List DocumentNode)
    (h : d ∉ rest.map DocumentNode.document_id) :
    mergeTail d f rest = rest ++ [newDocNode d f] := by
  induction rest with
  | nil => rfl
  | cons n rest ih =>
    simp only [List.map_cons, List.mem_cons, not_or] at h
    have hn : ¬ n.document_id = d := fun h0 => h.1 h0.symm
    simp [mergeTail, hn, ih h.2]

theorem mergeTail_ids_of_mem (d f : Int) (rest : List DocumentNode)
    (h : d ∈ rest.map DocumentNode.document_id) :
    (mergeTail d f rest).map DocumentNode.document_id = rest.map DocumentNode.document_id := by
  induction rest with
  | nil => simp at h
  | cons n rest ih =>
    by_cases hn : n.document_id = d
    · simp [mergeTail, hn]
    · simp only [List.map_cons, List.mem_cons] at h
      rcases h with h | h
      · exact absurd h.symm hn
      · simp [mergeTail, hn, ih h]

theorem mergeTail_ids_nodup (d f : Int) (rest : List DocumentNode)
    (h : (rest.map DocumentNode.document_id).Nodup) :
    ((mergeTail d f rest).map DocumentNode.document_id).Nodup := by
  by_cases hm : d ∈ rest.map DocumentNode.document_id
  · rw [mergeTail_ids_of_mem d f rest hm]
    exact h
  · rw [mergeTail_of_not_mem d f rest hm, List.map_append]
    refine List.Nodup.append h (by simp) ?_
    intro a ha hb
    simp [newDocNode] at hb
    rw [hb] at ha
    exact hm ha

/-! ### Indexes built from good words -/

theorem goodWord_no_zero (P : Params) (w : List Nat) (h : GoodWord P w) : ∀ b ∈ w, b ≠ 0 :=
  fun b hb => kept_ne_zero P b ((h.1.2 b hb).1)

theorem goodWord_cstr (P : Params) (w : List Nat) (h : GoodWord P w) : cstr w = w :=
  cstr_of_no_zero w (goodWord_no_zero P w h)

theorem goodWord_strncpy (P : Params) (w : List Nat) (h : GoodWord P w) :
    strncpy w P.WORD_LENGTH = w := by
  unfold strncpy
  rw [goodWord_cstr P w h, List.take_of_length_le (Nat.le_of_lt h.2)]

theorem mem_insertChain (P : Params) (word : List Nat) (d f : Int) (chain : List WordNode)
    (wn : WordNode) (h : wn ∈ insertChain P word d f chain) :
    wn ∈ chain ∨ wn = newWordNode P (newDocNode d f) word ∨
      ∃ c ∈ chain, wn = { c with page := docLoop d f c.page } := by
  induction chain with
  | nil =>
    simp [insertChain] at h
    exact Or.inr (Or.inl h)
  | cons c rest ih =>
    by_cases hc : strncmp c.word word P.WORD_LENGTH = 0
    · simp only [insertChain, hc, if_true] at h
      rcases List.mem_cons.1 h with h1 | h1
      · exact Or.inr (Or.inr ⟨c, List.mem_cons_self _ _, h1⟩)
      · exact Or.inl (List.mem_cons_of_mem _ h1)
    · simp only [insertChain, hc, if_false] at h
      rcases List.mem_cons.1 h with h1 | h1
      · left
        rw [h1]
        exact List.mem_cons_self _ _
      · rcases ih h1 with h2 | h2 | ⟨c2, hc2, h2⟩
        · exact Or.inl (List.mem_cons_of_mem _ h2)
        · exact Or.inr (Or.inl h2)
        · exact Or.inr (Or.inr ⟨c2, List.mem_cons_of_mem _ hc2, h2⟩)

theorem goodIndex_step (P : Params) (word : List Nat) (d f : Int) (index : INVERTED_INDEX)
    (hpos : 0 < P.MAX_NUMBER_OF_SLOTS) (hw : GoodWord P word) (h : GoodIndex P index) :
    GoodIndex P (reconstructIndex P word d f index).2 := by
  refine ⟨by rw [reconstructIndex_length]; exact h.1, ?_⟩
  intro i wn hwn
  by_cases hi : i = slotOf P word
  · subst hi
    rw [bucket_reconstructIndex_same P word d f index
      (by rw [h.1]; exact slotOf_lt P word hpos)] at hwn
    rcases mem_insertChain P word d f _ wn hwn with h1 | h1 | ⟨c, hc, h1⟩
    · exact h.2 _ wn h1
    · rw [h1]
      unfold WordOk newWordNode
      simp [goodWord_strncpy P word hw, hw]
    · have hcok := h.2 _ c hc
      rw [h1]
      obtain ⟨g1, g2, g3, g4⟩ := hcok
      refine ⟨g1, g2, ?_, ?_⟩
      · cases hp : c.page with
        | nil => exact absurd hp g3
        | cons m rest => simp [docLoop_cons]
      · cases hp : c.page with
        | nil => exact absurd hp g3
        | cons m rest =>
          rw [hp] at g4
          simp only [docLoop_cons, List.tail_cons] at g4 ⊢
          exact mergeTail_ids_nodup d f rest g4
  · rw [bucket_reconstructIndex_other P word d f index i hi] at hwn
    exact h.2 i wn hwn

theorem goodIndex_init (P : Params) : GoodIndex P (initStructure P) := by
  refine ⟨by simp [initStructure], ?_⟩
  intro i wn hwn
  rw [initStructure_bucket] at hwn
  simp at hwn

theorem goodIndex_applyCalls (P : Params) (calls : List Call) (index : INVERTED_INDEX)
    (hpos : 0 < P.MAX_NUMBER_OF_SLOTS) (hw : ∀ c ∈ calls, GoodWord P c.1)
    (h : GoodIndex P index) : GoodIndex P (applyCalls P calls index) := by
  induction calls generalizing index with
  | nil => exact h
  | cons c rest ih =>
    unfold applyCalls at ih ⊢
    rw [List.foldl_cons]
    exact ih _ (fun y hy => hw y (List.mem_cons_of_mem _ hy))
      (goodIndex_step P c.1 c.2.1 c.2.2 index hpos (hw c (List.mem_cons_self _ _)) h)

theorem goodIndex_build (P : Params) (calls : List Call) (hpos : 0 < P.MAX_NUMBER_OF_SLOTS)
    (hw : ∀ c ∈ calls, GoodWord P c.1) : GoodIndex P (buildIndex P calls) :=
  goodIndex_applyCalls P calls _ hpos hw (goodIndex_init P)

/-! ### Replaying the lines of the index file -/

theorem insertChain_append_match (P : Params) (word : List Nat) (d f : Int)
    (old rest : List WordNode) (c : WordNode)
    (hno : ∀ x ∈ old, strncmp x.word word P.WORD_LENGTH ≠ 0)
    (hm : strncmp c.word word P.WORD_LENGTH = 0) :
    insertChain P word d f (old ++ c :: rest) =
      old ++ { c with page := docLoop d f c.page } :: rest := by
  induction old with
  | nil => simp [insertChain, hm]
  | cons x old ih =>
    have hx := hno x (List.mem_cons_self _ _)
    simp [insertChain, hx, ih (fun y hy => hno y (List.mem_cons_of_mem _ hy))]

theorem strncmp_self (w : List Nat) (n : Nat) : strncmp w w n = 0 := by
  rw [strncmp_eq_zero_iff]

theorem replay_tail (P : Params) (hpos : 0 < P.MAX_NUMBER_OF_SLOTS) (w : List Nat)
    (m : DocumentNode) (old : List WordNode) (todo : List DocumentNode) :
    ∀ (index : INVERTED_INDEX) (done : List DocumentNode),
      index.hash.length = P.MAX_NUMBER_OF_SLOTS →
      bucket index (slotOf P w) = old ++ [{ word := w, page := m :: done }] →
      (∀ x ∈ old, strncmp x.word w P.WORD_LENGTH ≠ 0) →
      ((done ++ todo).map DocumentNode.document_id).Nodup →
      bucket (applyCalls P
          (todo.map (fun e => (w, e.document_id, e.page_word_frequency))) index) (slotOf P w) =
        old ++ [{ word := w, page := m :: (done ++ todo) }] ∧
      (∀ s, s ≠ slotOf P w →
        bucket (applyCalls P
          (todo.map (fun e => (w, e.document_id, e.page_word_frequency))) index) s =
          bucket index s) ∧
      (applyCalls P
          (todo.map (fun e => (w, e.document_id, e.page_word_frequency))) index).hash.length =
        P.MAX_NUMBER_OF_SLOTS := by
  induction todo with
  | nil =>
    intro index done hlen hb _ _
    simp [applyCalls, hb, hlen]
  | cons e todo ih =>
    intro index done hlen hb hno hnd
    have hs : slotOf P w < index.hash.length := by
      rw [hlen]
      exact slotOf_lt P w hpos
    have hnot : e.document_id ∉ done.map DocumentNode.document_id := by
      intro hmem
      rw [List.map_append, List.map_cons] at hnd
      have := (List.nodup_append.1 hnd).2.2
      exact this hmem (List.mem_cons_self _ _) 
    have h1 : bucket (reconstructIndex P w e.document_id e.page_word_frequency index).2
        (slotOf P w) = old ++ [{ word := w, page := m :: (done ++ [e]) }] := by
      rw [bucket_reconstructIndex_same P w _ _ index hs, hb,
        insertChain_append_match P w _ _ old [] _ hno (strncmp_self w _)]
      simp only [docLoop_cons]
      rw [mergeTail_of_not_mem _ _ done hnot]
      rfl
    have h2 := ih (reconstructIndex P w e.document_id e.page_word_frequency index).2
      (done ++ [e]) (by rw [reconstructIndex_length]; exact hlen) h1 hno
      (by simpa using hnd)
    simp only [List.map_cons, applyCalls, List.foldl_cons] at h2 ⊢
    refine ⟨?_, ?_, h2.2.2⟩
    · rw [h2.1]
      simp
    · intro s hne
      rw [h2.2.1 s hne]
      exact bucket_reconstructIndex_other P w _ _ index s hne

theorem replay_entry (P : Params) (hpos : 0 < P.MAX_NUMBER_OF_SLOTS) (e : WordNode)
    (index : INVERTED_INDEX) (hlen : index.hash.length = P.MAX_NUMBER_OF_SLOTS)
    (hw : GoodWord P e.word) (hp : e.page ≠ [])
    (hnd : (e.page.tail.map DocumentNode.document_id).Nodup)
    (hno : ∀ x ∈ bucket index (slotOf P e.word), strncmp x.word e.word P.WORD_LENGTH ≠ 0) :
    bucket (applyCalls P (replayCalls e) index) (slotOf P e.word) =
      bucket index (slotOf P e.word) ++ [e] ∧
    (∀ s, s ≠ slotOf P e.word → bucket (applyCalls P (replayCalls e) index) s = bucket index s) ∧
    (applyCalls P (replayCalls e) index).hash.length = P.MAX_NUMBER_OF_SLOTS := by
  obtain ⟨w, page⟩ := e
  cases page with
  | nil => exact absurd rfl hp
  | cons m tail =>
    simp only at hw hnd hno ⊢
    have hs : slotOf P w < index.hash.length := by
      rw [hlen]
      exact slotOf_lt P w hpos
    have h1 : bucket (reconstructIndex P w m.document_id m.page_word_frequency index).2
        (slotOf P w) = bucket index (slotOf P w) ++ [{ word := w, page := m :: [] }] := by
      rw [bucket_reconstructIndex_same P w _ _ index hs, insertChain_of_no_match P w _ _ _ hno]
      simp [newWordNode, newDocNode, goodWord_strncpy P w hw]
    have h2 := replay_tail P hpos w m (bucket index (slotOf P w)) tail
      (reconstructIndex P w m.document_id m.page_word_frequency index).2 []
      (by rw [reconstructIndex_length]; exact hlen) h1 hno (by simpa using hnd)
    simp only [replayCalls, List.map_cons, applyCalls, List.foldl_cons, List.nil_append] at h2 ⊢
    refine ⟨h2.1, ?_, h2.2.2⟩
    intro s hne
    rw [h2.2.1 s hne]
    exact bucket_reconstructIndex_other P w _ _ index s hne

theorem replay_all (P : Params) (hpos : 0 < P.MAX_NUMBER_OF_SLOTS) (es : List WordNode) :
    ∀ (index : INVERTED_INDEX), index.hash.length = P.MAX_NUMBER_OF_SLOTS →
      (∀ e ∈ es, GoodWord P e.word ∧ e.page ≠ [] ∧
        (e.page.tail.map DocumentNode.document_id).Nodup) →
      es.Pairwise (fun a b => a.word ≠ b.word) →
      (∀ i, ∀ x ∈ bucket index i,
        strncpy x.word P.WORD_LENGTH = x.word ∧ ∀ e ∈ es, x.word ≠ e.word) →
      (∀ i, bucket (applyCalls P (es.map replayCalls).flatten index) i =
        bucket index i ++ es.filter (fun e => decide (slotOf P e.word = i))) ∧
      (applyCalls P (es.map replayCalls).flatten index).hash.length =
        P.MAX_NUMBER_OF_SLOTS := by
  induction es with
  | nil =>
    intro index hlen _ _ _
    simp [applyCalls, hlen]
  | cons e es ih =>
    intro index hlen hok hpw hidx
    have he := hok e (List.mem_cons_self _ _)
    have hno : ∀ x ∈ bucket index (slotOf P e.word),
        strncmp x.word e.word P.WORD_LENGTH ≠ 0 := by
      intro x hx h0
      have hx2 := hidx _ x hx
      rw [strncmp_eq_zero_iff, hx2.1, goodWord_strncpy P e.word he.1] at h0
      exact hx2.2 e (List.mem_cons_self _ _) h0
    have h1 := replay_entry P hpos e index hlen he.1 he.2.1 he.2.2 hno
    have hpw2 := List.pairwise_cons.1 hpw
    have h2 := ih (applyCalls P (replayCalls e) index) h1.2.2
      (fun y hy => hok y (List.mem_cons_of_mem _ hy)) hpw2.2
      (by
        intro i x hx
        by_cases hi : i = slotOf P e.word
        · subst hi
          rw [h1.1] at hx
          rcases List.mem_append.1 hx with h3 | h3
          · have := hidx _ x h3
            exact ⟨this.1, fun y hy => this.2 y (List.mem_cons_of_mem _ hy)⟩
          · simp at h3
            rw [h3]
            exact ⟨goodWord_strncpy P e.word he.1, fun y hy => hpw2.1 y hy⟩
        · rw [h1.2.1 i hi] at hx
          have := hidx _ x hx
          exact ⟨this.1, fun y hy => this.2 y (List.mem_cons_of_mem _ hy)⟩)
    simp only [List.map_cons, List.flatten_cons, applyCalls_append]
    refine ⟨?_, h2.2⟩
    intro i
    rw [h2.1 i]
    by_cases hi : i = slotOf P e.word
    · subst hi
      rw [h1.1]
      simp
    · rw [h1.2.1 i hi]
      have : ¬ slotOf P e.word = i := fun h => hi h.symm
      simp [List.filter_cons, this]

/-! ### The Word entries of an index -/

theorem sum_indicator_range (n k c : Nat) :
    ((List.range n).map (fun i => if k = i then c else 0)).sum = if k < n then c else 0 := by
  induction n with
  | zero => simp
  | succ n ih =>
    rw [List.range_succ, List.map_append, Nat.sum_append, ih]
    by_cases h1 : k < n
    · have h2 : k ≠ n := by omega
      have h3 : k < n + 1 := by omega
      simp [h1, h2, h3]
    · by_cases h2 : k = n
      · simp [h2]
      · have h3 : ¬ k < n + 1 := by omega
        simp [h1, h2, h3]

theorem count_filter_slot (l : List WordNode) (f : WordNode → Nat) (a : WordNode) (i : Nat) :
    List.count a (l.filter (fun x => decide (f x = i))) =
      if f a = i then List.count a l else 0 := by
  by_cases h : f a = i
  · rw [if_pos h, List.count_filter (by simpa using h)]
  · rw [if_neg h, List.count_eq_zero]
    intro hm
    have := (List.mem_filter.1 hm).2
    simp at this
    exact h this

theorem flatten_filter_range_perm (n : Nat) (l : List WordNode) (f : WordNode → Nat)
    (h : ∀ x ∈ l, f x < n) :
    ((List.range n).map (fun i => l.filter (fun x => decide (f x = i)))).flatten.Perm l := by
  rw [List.perm_iff_count]
  intro a
  rw [List.count_flatten, List.map_map]
  have hfun : (List.count a ∘ fun i => l.filter (fun x => decide (f x = i))) =
      fun i => if f a = i then List.count a l else 0 := by
    funext i
    exact count_filter_slot l f a i
  rw [hfun, sum_indicator_range]
  by_cases ha : a ∈ l
  · rw [if_pos (h a ha)]
  · rw [List.count_eq_zero.2 ha]
    simp

theorem mem_entries (P : Params) (index : INVERTED_INDEX) (wn : WordNode) :
    wn ∈ entries P index ↔ ∃ i, i < P.MAX_NUMBER_OF_SLOTS ∧ wn ∈ bucket index i := by
  unfold entries
  simp only [List.mem_flatten, List.mem_map, List.mem_range]
  constructor
  · rintro ⟨l, ⟨i, hi, rfl⟩, hwn⟩
    exact ⟨i, hi, hwn⟩
  · rintro ⟨i, hi, hwn⟩
    exact ⟨_, ⟨i, hi, rfl⟩, hwn⟩

theorem entries_pairwise (P : Params) (index : INVERTED_INDEX) (hg : GoodIndex P index)
    (hd : BucketsDistinct P index) :
    (entries P index).Pairwise (fun a b => a.word ≠ b.word) := by
  unfold entries
  rw [List.pairwise_flatten]
  constructor
  · intro l hl
    obtain ⟨i, _, rfl⟩ := List.mem_map.1 hl
    rcases bucket_mem_or_nil index i with h1 | h1
    · exact List.pairwise_map.1 (hd _ h1).2
    · rw [h1]
      exact List.Pairwise.nil
  · rw [List.pairwise_map]
    refine List.Pairwise.imp ?_ (List.pairwise_lt_range P.MAX_NUMBER_OF_SLOTS)
    intro i j hij x hx y hy hxy
    have h1 := (hg.2 i x hx).2.1
    have h2 := (hg.2 j y hy).2.1
    rw [hxy] at h1
    omega

theorem entries_of_buckets (P : Params) (index : INVERTED_INDEX) (es : List WordNode)
    (h : ∀ i, bucket index i = es.filter (fun e => decide (slotOf P e.word = i)))
    (hs : ∀ e ∈ es, slotOf P e.word < P.MAX_NUMBER_OF_SLOTS) :
    (entries P index).Perm es := by
  unfold entries
  have : (List.range P.MAX_NUMBER_OF_SLOTS).map (fun i => bucket index i) =
      (List.range P.MAX_NUMBER_OF_SLOTS).map
        (fun i => es.filter (fun e => decide (slotOf P e.word = i))) := by
    apply List.map_congr_left
    intro i _
    exact h i
  rw [this]
  exact flatten_filter_range_perm _ es (fun e => slotOf P e.word) hs

theorem entries_build_ne_nil (P : Params) (calls : List Call) (hpos : 0 < P.MAX_NUMBER_OF_SLOTS)
    (hne : calls ≠ []) : entries P (buildIndex P calls) ≠ [] := by
  obtain ⟨xs, c, rfl⟩ : ∃ xs c, calls = xs ++ [c] :=
    ⟨calls.dropLast, calls.getLast hne, (List.dropLast_append_getLast hne).symm⟩
  have hb : bucket (buildIndex P (xs ++ [c])) (slotOf P c.1) ≠ [] := by
    unfold buildIndex
    rw [applyCalls_append]
    simp only [applyCalls, List.foldl_cons, List.foldl_nil]
    rw [bucket_reconstructIndex_same]
    · generalize bucket (List.foldl (fun acc c => (reconstructIndex P c.1 c.2.1 c.2.2 acc).2)
        (initStructure P) xs) (slotOf P c.1) = ch
      cases ch with
      | nil => simp [insertChain]
      | cons x ch =>
        by_cases hm : strncmp x.word c.1 P.WORD_LENGTH = 0 <;> simp [insertChain, hm]
    · have := applyCalls_length P xs (initStructure P)
      unfold applyCalls at this
      rw [this]
      simp [initStructure]
      exact slotOf_lt P c.1 hpos
  intro h0
  cases hch : bucket (buildIndex P (xs ++ [c])) (slotOf P c.1) with
  | nil => exact hb hch
  | cons x ch =>
    have : x ∈ entries P (buildIndex P (xs ++ [c])) :=
      (mem_entries P _ x).2 ⟨_, slotOf_lt P c.1 hpos, by rw [hch]; exact List.mem_cons_self _ _⟩
    rw [h0] at this
    simp at this

theorem totalFrequency_perm (P : Params) (index1 index2 : INVERTED_INDEX)
    (h : (entries P index1).Perm (entries P index2)) (w : List Nat) (d : Int) :
    totalFrequency P index1 w d = totalFrequency P index2 w d := by
  unfold totalFrequency
  exact ((h.filter _).map _).sum_eq

/-! ### Saving and reloading -/

theorem flatten_map_append_sep (sep : List Nat) (fields : List (List Nat)) (h : fields ≠ []) :
    (fields.map (fun t => t ++ sep)).flatten = sep.intercalate fields ++ sep := by
  induction fields with
  | nil => exact absurd rfl h
  | cons a fields ih =>
    cases fields with
    | nil => simp [List.intercalate]
    | cons b fields =>
      rw [List.map_cons, List.flatten_cons, ih (by simp), intercalate_cons_cons]
      simp

theorem lineOfEntry_fields (wn : WordNode) : (lineOfEntry wn).fields = lineFields wn := by
  unfold lineOfEntry IndexLine.fields lineFields
  simp only [List.map_map]
  rfl

theorem spacedBody_eq_body (wn : WordNode) : spacedBody wn = (lineOfEntry wn).body := by
  unfold spacedBody IndexLine.body
  rw [lineOfEntry_fields, flatten_map_append_sep _ _ (by simp [lineFields])]
  rfl

theorem lineOfEntry_tokensOk (P : Params) (wn : WordNode) (h : GoodWord P wn.word) :
    (lineOfEntry wn).TokensOk P := by
  intro t ht
  rw [lineOfEntry_fields] at ht
  unfold lineFields at ht
  rcases List.mem_cons.1 ht with rfl | ht
  · rw [goodWord_cstr P _ h]
    exact h.1
  rcases List.mem_cons.1 ht with rfl | ht
  · exact fmtInt_isToken P _
  obtain ⟨l2, hl2, htl⟩ := List.mem_flatten.1 ht
  obtain ⟨d, _, rfl⟩ := List.mem_map.1 hl2
  simp at htl
  rcases htl with rfl | rfl
  · exact fmtInt_isToken P _
  · exact fmtInt_isToken P _

theorem lineOfEntry_calls (P : Params) (wn : WordNode) (h : GoodWord P wn.word) :
    (lineOfEntry wn).calls = replayCalls wn := by
  unfold IndexLine.calls replayCalls lineOfEntry
  simp only [List.map_map]
  apply List.map_congr_left
  intro d _
  simp [atoi_fmtInt, goodWord_cstr P _ h]

theorem reload_save_entries (P : Params) (g : Nat) (calls : List Call)
    (hpos : 0 < P.MAX_NUMBER_OF_SLOTS) (hne : calls ≠ [])
    (hw : ∀ c ∈ calls, GoodWord P c.1) :
    ∃ reloaded,
      reloadIndexFromFile P g (saveIndexToFile P (buildIndex P calls)) (initStructure P) =
        Run.returns reloaded ∧
      (entries P reloaded).Perm (entries P (buildIndex P calls)) := by
  have hg := goodIndex_build P calls hpos hw
  have hd := bucketsDistinct_build P calls
  have hes : ∀ e ∈ entries P (buildIndex P calls), ∃ i, i < P.MAX_NUMBER_OF_SLOTS ∧
      WordOk P i e := by
    intro e he
    obtain ⟨i, hi, hb⟩ := (mem_entries P _ e).1 he
    exact ⟨i, hi, hg.2 i e hb⟩
  have hperm : ((entries P (buildIndex P calls)).insertionSort
      (fun a b => spacedBody a ≤ spacedBody b)).Perm (entries P (buildIndex P calls)) :=
    List.perm_insertionSort _ _
  generalize hes' : (entries P (buildIndex P calls)).insertionSort
      (fun a b => spacedBody a ≤ spacedBody b) = es' at hperm
  have hmem : ∀ e ∈ es', ∃ i, i < P.MAX_NUMBER_OF_SLOTS ∧ WordOk P i e :=
    fun e he => hes e (hperm.subset he)
  have hfile : saveIndexToFile P (buildIndex P calls) =
      linesFile ((es'.map lineOfEntry).map IndexLine.body) (Option.elim none [] IndexLine.body) := by
    rw [saveIndexToFile_eq_sorted]
    · rw [← List.map_insertionSort (fun a b => spacedBody a ≤ spacedBody b)
        (fun a b : List Nat => a ≤ b) spacedBody _ (fun a _ b _ => Iff.rfl), hes']
      unfold linesFile
      simp only [List.map_map, Option.elim, List.append_nil]
      congr 1
      apply List.map_congr_left
      intro wn _
      simp [spacedBody_eq_body]
    · intro wn hwn x hx
      obtain ⟨i, _, hok⟩ := hes wn hwn
      rw [goodWord_cstr P _ hok.1] at hx
      exact kept_ne_newline P x ((hok.1.1.2 x hx).1)
  have hne' : es' ≠ [] := by
    intro h0
    rw [h0] at hperm
    exact entries_build_ne_nil P calls hpos hne hperm.symm.eq_nil
  have hreload := reload_wellFormed_lines P g (es'.map lineOfEntry) none (initStructure P)
    (by simpa using hne')
    (by
      intro l hl
      simp only [Option.toList, List.append_nil] at hl
      obtain ⟨wn, hwn, rfl⟩ := List.mem_map.1 hl
      obtain ⟨i, _, hok⟩ := hmem wn hwn
      exact lineOfEntry_tokensOk P wn hok.1)
  have hcalls : ((es'.map lineOfEntry ++ (none : Option IndexLine).toList).map
      IndexLine.calls).flatten = (es'.map replayCalls).flatten := by
    simp only [Option.toList, List.append_nil, List.map_map]
    congr 1
    apply List.map_congr_left
    intro wn hwn
    obtain ⟨i, _, hok⟩ := hmem wn hwn
    exact lineOfEntry_calls P wn hok.1
  rw [hcalls] at hreload
  refine ⟨_, by rw [hfile]; exact hreload, ?_⟩
  have hrep := replay_all P hpos es' (initStructure P) (by simp [initStructure])
    (by
      intro e he
      obtain ⟨i, _, hok⟩ := hmem e he
      exact ⟨hok.1, hok.2.2.1, hok.2.2.2⟩)
    ((hperm.pairwise_iff (fun h => Ne.symm h)).2 (entries_pairwise P _ hg hd))
    (by
      intro i x hx
      rw [initStructure_bucket] at hx
      simp at hx)
  refine (entries_of_buckets P _ es' ?_ ?_).trans hperm
  · intro i
    rw [hrep.1 i, initStructure_bucket]
    rfl
  · intro e he
    obtain ⟨i, hi, hok⟩ := hmem e he
    rw [hok.2.1]
    exact hi

/-- C3 (as amended). For an index built from the empty one by at least one `reconstructIndex`
call, the words being non-empty, shorter than `WORD_LENGTH`, without space and of characters
that `sanitize` copies, `reloadIndexFromFile` on the file written by `saveIndexToFile` (sort
included) returns an index with the same total frequency for every word and document id; its
Word entries are those of the original index in another order. -/
theorem round_trip_totals (P : Params) (g : Nat) (calls : List Call)
    (hpos : 0 < P.MAX_NUMBER_OF_SLOTS) (hne : calls ≠ [])
    (hw : ∀ c ∈ calls, GoodWord P c.1) :
    ∃ reloaded,
      reloadIndexFromFile P g (saveIndexToFile P (buildIndex P calls)) (initStructure P) =
        Run.returns reloaded ∧
      (∀ w d, totalFrequency P reloaded w d = totalFrequency P (buildIndex P calls) w d) ∧
      (entries P reloaded).Perm (entries P (buildIndex P calls)) := by
  obtain ⟨reloaded, h1, h2⟩ := reload_save_entries P g calls hpos hne hw
  exact ⟨reloaded, h1, fun w d => totalFrequency_perm P _ _ h2 w d, h2⟩

theorem round_trip_totals_witness :
    ∃ reloaded,
      reloadIndexFromFile ⟨8, 2, fun w => w.length, true⟩ 7
          (saveIndexToFile ⟨8, 2, fun w => w.length, true⟩
            (buildIndex ⟨8, 2, fun w => w.length, true⟩
              [([100, 111, 103], 2, 5), ([99, 97, 116], 1, 3), ([99, 97, 116], 1, 3),
               ([99, 97, 116], 2, 5), ([99, 97, 116], 2, 7), ([103, 110, 117, 115], 4, 1)]))
          (initStructure ⟨8, 2, fun w => w.length, true⟩) = Run.returns reloaded ∧
      (∀ w d, totalFrequency ⟨8, 2, fun w => w.length, true⟩ reloaded w d =
        totalFrequency ⟨8, 2, fun w => w.length, true⟩
          (buildIndex ⟨8, 2, fun w => w.length, true⟩
            [([100, 111, 103], 2, 5), ([99, 97, 116], 1, 3), ([99, 97, 116], 1, 3),
             ([99, 97, 116], 2, 5), ([99, 97, 116], 2, 7), ([103, 110, 117, 115], 4, 1)]) w d) ∧
      (entries ⟨8, 2, fun w => w.length, true⟩ reloaded).Perm
        (entries ⟨8, 2, fun w => w.length, true⟩
          (buildIndex ⟨8, 2, fun w => w.length, true⟩
            [([100, 111, 103], 2, 5), ([99, 97, 116], 1, 3), ([99, 97, 116], 1, 3),
             ([99, 97, 116], 2, 5), ([99, 97, 116], 2, 7), ([103, 110, 117, 115], 4, 1)])) :=
  round_trip_totals ⟨8, 2, fun w => w.length, true⟩ 7
    [([100, 111, 103], 2, 5), ([99, 97, 116], 1, 3), ([99, 97, 116], 1, 3),
     ([99, 97, 116], 2, 5), ([99, 97, 116], 2, 7), ([103, 110, 117, 115], 4, 1)]
    (by decide) (by simp) (by decide)

/-- C3, counterexample.  The index built by no call is written as the empty file, and
`reloadIndexFromFile` ends the process on it (`loadDocument` reads zero bytes) instead of
returning an index. -/
theorem round_trip_counterexample :
    saveIndexToFile ⟨8, 2, fun _ => 1, true⟩ (buildIndex ⟨8, 2, fun _ => 1, true⟩ []) = [] ∧
    reloadIndexFromFile ⟨8, 2, fun _ => 1, true⟩ 0
        (saveIndexToFile ⟨8, 2, fun _ => 1, true⟩ (buildIndex ⟨8, 2, fun _ => 1, true⟩ []))
        (initStructure ⟨8, 2, fun _ => 1, true⟩) = Run.exits := by
  decide

/-! ### A document id found behind the head -/

theorem mergeTail_bump (d f : Int) (pre post : List DocumentNode) (n : DocumentNode)
    (hpre : ∀ x ∈ pre, x.document_id ≠ d) (hn : n.document_id = d) :
    mergeTail d f (pre ++ n :: post) =
      pre ++ { n with page_word_frequency := n.page_word_frequency + 1 } :: post := by
  induction pre with
  | nil => simp [mergeTail, hn]
  | cons x pre ih =>
    have hx := hpre x (List.mem_cons_self _ _)
    simp [mergeTail, hx, ih (fun y hy => hpre y (List.mem_cons_of_mem _ hy))]

theorem docLoop_bump (d f : Int) (m : DocumentNode) (pre post : List DocumentNode)
    (n : DocumentNode) (hpre : ∀ x ∈ pre, x.document_id ≠ d) (hn : n.document_id = d) :
    docLoop d f (m :: (pre ++ n :: post)) =
      m :: (pre ++ { n with page_word_frequency := n.page_word_frequency + 1 } :: post) := by
  rw [docLoop_cons, mergeTail_bump d f pre post n hpre hn]

/-! ### Properties of `sanitize` and `capitalToLower` -/

theorem sanitize_kept (P : Params) (s : List Nat) : ∀ b ∈ sanitize P s, Kept P b := by
  induction s with
  | nil => simp [sanitize]
  | cons x s ih =>
    by_cases hx : x = 0
    · simp [sanitize, hx]
    · by_cases hk : sanitizeKeeps (charVal P x) = true
      · simp only [sanitize, hx, hk, if_true, if_false]
        intro b hb
        rcases List.mem_cons.1 hb with rfl | h1
        · exact hk
        · exact ih b h1
      · simp only [sanitize, hx, hk, if_false]
        exact ih

theorem sanitize_length_le (P : Params) (s : List Nat) : (sanitize P s).length ≤ strlen s := by
  induction s with
  | nil => simp [sanitize]
  | cons x s ih =>
    by_cases hx : x = 0
    · simp [sanitize, hx]
    · unfold strlen at ih ⊢
      rw [cstr_cons_ne x s hx]
      by_cases hk : sanitizeKeeps (charVal P x) = true
      · simp only [sanitize, hx, hk, if_true, if_false, List.length_cons]
        omega
      · simp only [sanitize, hx, hk, if_false, List.length_cons, Bool.false_eq_true]
        omega

theorem strlen_le_length (s : List Nat) : strlen s ≤ s.length := by
  unfold strlen cstr
  exact (List.takeWhile_sublist _).length_le

/-- C17. Sanitizing a sanitized buffer changes nothing, and the sanitized string is never longer
than the string it comes from, so the copy back into the buffer of the caller fits. -/
theorem sanitize_idempotent_and_short (P : Params) (s : List Nat) :
    sanitize P (sanitize P s) = sanitize P s ∧
    (sanitize P s).length ≤ strlen s ∧ strlen s ≤ s.length :=
  ⟨sanitize_of_kept P _ (sanitize_kept P s), sanitize_length_le P s, strlen_le_length s⟩

theorem charVal_capital (P : Params) (b : Nat) (hb : b < 256) :
    (charVal P b ≥ 65 ∧ charVal P b ≤ 90) ↔ (65 ≤ b ∧ b ≤ 90) := by
  unfold charVal
  by_cases h : 128 ≤ b
  · cases P.charSigned
    · simp
    · simp [h]
      omega
  · simp [h]

theorem specLower_ne_zero (b : Nat) (h : b ≠ 0) : specLower b ≠ 0 := by
  unfold specLower
  split <;> omega

theorem specLower_lt (b : Nat) (h : b < 256) : specLower b < 256 := by
  unfold specLower
  split <;> omega

theorem specLower_not_capital (b : Nat) : ¬ (65 ≤ specLower b ∧ specLower b ≤ 90) := by
  unfold specLower
  split <;> omega

theorem specLower_idem (b : Nat) : specLower (specLower b) = specLower b := by
  have h := specLower_not_capital b
  generalize specLower b = c at h
  unfold specLower
  rw [if_neg h]

theorem capitalToLower_cons (P : Params) (b : Nat) (rest : List Nat) (h0 : b ≠ 0)
    (hb : b < 256) : capitalToLower P (b :: rest) = specLower b :: capitalToLower P rest := by
  have hc := charVal_capital P b hb
  by_cases hcap : 65 ≤ b ∧ b ≤ 90
  · have h1 : charVal P b = (b : Int) := charVal_of_lt P b (by omega)
    have h2 : ((97 + (b : Int) - 65) % 256).toNat = b + 32 := by omega
    simp only [capitalToLower, h0, if_false, hc.2 hcap, and_self, if_true, specLower, hcap]
    rw [h1, h2]
  · have h1 : ¬ (charVal P b ≥ 65 ∧ charVal P b ≤ 90) := fun h => hcap (hc.1 h)
    simp only [capitalToLower, h0, if_false, h1, specLower, hcap]

theorem cstr_capitalToLower (P : Params) (s : List Nat) (hbytes : ∀ b ∈ s, b < 256) :
    cstr (capitalToLower P s) = (cstr s).map specLower := by
  induction s with
  | nil => rfl
  | cons b rest ih =>
    have hb := hbytes b (List.mem_cons_self _ _)
    have ih2 := ih (fun x hx => hbytes x (List.mem_cons_of_mem _ hx))
    by_cases h0 : b = 0
    · subst h0
      simp [capitalToLower, cstr_cons_zero]
    · rw [capitalToLower_cons P b rest h0 hb, cstr_cons_ne _ _ (specLower_ne_zero b h0),
        cstr_cons_ne _ _ h0, ih2]
      rfl

theorem capitalToLower_eq (P : Params) (s : List Nat) (hbytes : ∀ b ∈ s, b < 256) :
    capitalToLower P s = (cstr s).map specLower ++ s.drop (strlen s) := by
  induction s with
  | nil => rfl
  | cons b rest ih =>
    have hb := hbytes b (List.mem_cons_self _ _)
    have ih2 := ih (fun x hx => hbytes x (List.mem_cons_of_mem _ hx))
    by_cases h0 : b = 0
    · subst h0
      simp [capitalToLower, cstr_cons_zero, strlen]
    · rw [capitalToLower_cons P b rest h0 hb, ih2]
      simp [strlen, cstr_cons_ne _ _ h0]

theorem capitalToLower_bytes (P : Params) (s : List Nat) (hbytes : ∀ b ∈ s, b < 256) :
    ∀ b ∈ capitalToLower P s, b < 256 := by
  induction s with
  | nil => simp [capitalToLower]
  | cons b rest ih =>
    have hb := hbytes b (List.mem_cons_self _ _)
    have ih2 := ih (fun x hx => hbytes x (List.mem_cons_of_mem _ hx))
    by_cases h0 : b = 0
    · subst h0
      simpa [capitalToLower] using hbytes
    · rw [capitalToLower_cons P b rest h0 hb]
      intro x hx
      rcases List.mem_cons.1 hx with rfl | h1
      · exact specLower_lt b hb
      · exact ih2 x h1

theorem capitalToLower_idem (P : Params) (s : List Nat) (hbytes : ∀ b ∈ s, b < 256) :
    capitalToLower P (capitalToLower P s) = capitalToLower P s := by
  induction s with
  | nil => rfl
  | cons b rest ih =>
    have hb := hbytes b (List.mem_cons_self _ _)
    have ih2 := ih (fun x hx => hbytes x (List.mem_cons_of_mem _ hx))
    by_cases h0 : b = 0
    · subst h0
      simp [capitalToLower]
    · rw [capitalToLower_cons P b rest h0 hb,
        capitalToLower_cons P _ _ (specLower_ne_zero b h0) (specLower_lt b hb), specLower_idem,
        ih2]

/-- C15. On a buffer of bytes `capitalToLower` replaces, up to the terminator, every byte between
`'A'` and `'Z'` by the byte 32 above it and leaves every other byte, the terminator and what
follows it unchanged; the length of the string stays the same, the result holds no byte between
`'A'` and `'Z'`, and a second application changes nothing. -/
theorem capitalToLower_spec (P : Params) (s : List Nat) (hbytes : ∀ b ∈ s, b < 256) :
    capitalToLower P s = (cstr s).map specLower ++ s.drop (strlen s) ∧
    strlen (capitalToLower P s) = strlen s ∧
    (capitalToLower P s).length = s.length ∧
    (∀ b ∈ cstr (capitalToLower P s), ¬ (65 ≤ b ∧ b ≤ 90)) ∧
    capitalToLower P (capitalToLower P s) = capitalToLower P s := by
  have hc := cstr_capitalToLower P s hbytes
  refine ⟨capitalToLower_eq P s hbytes, ?_, ?_, ?_, capitalToLower_idem P s hbytes⟩
  · unfold strlen
    rw [hc, List.length_map]
  · rw [capitalToLower_eq P s hbytes]
    have := strlen_le_length s
    simp [strlen] at this ⊢
    omega
  · intro b hb
    rw [hc] at hb
    obtain ⟨x, _, rfl⟩ := List.mem_map.1 hb
    exact specLower_not_capital x

theorem capitalToLower_spec_witness :
    capitalToLower ⟨8, 2, fun _ => 1, true⟩ [72, 105, 33, 32, 90, 200, 0, 65] =
      [104, 105, 33, 32, 122, 200, 0, 65] := by
  rw [(capitalToLower_spec ⟨8, 2, fun _ => 1, true⟩ [72, 105, 33, 32, 90, 200, 0, 65]
    (by decide)).1]
  decide

/-! ### The buffer of `loadDocument` -/

/-- C13. For a file of `n ≥ 1` bytes `loadDocument` returns a buffer that holds the file in its
first `n` bytes and the terminator at index `n + 1`, not at index `n`: the byte at index `n` is
whatever the allocation held, and when it is not zero the string in the buffer is the file
followed by that byte. -/
theorem loadDocument_terminator_index (g : Nat) (file : List Nat) (hne : file ≠ []) :
    loadDocument g file = Run.returns (file ++ [g, 0]) ∧
    (file ++ [g, 0]).take file.length = file ∧
    (file ++ [g, 0])[file.length]? = some g ∧
    (file ++ [g, 0])[file.length + 1]? = some 0 ∧
    ((∀ x ∈ file, x ≠ 0) → g ≠ 0 → cstr (file ++ [g, 0]) = file ++ [g]) := by
  refine ⟨?_, by simp, ?_, ?_, ?_⟩
  · unfold loadDocument
    rw [if_neg]
    intro h
    exact hne (List.length_eq_zero.1 h)
  · rw [List.getElem?_append_right (Nat.le_refl _)]
    simp
  · rw [List.getElem?_append_right (Nat.le_succ _)]
    simp
  · intro hz hg
    rw [cstr_append_of_no_zero _ _ hz, cstr_cons_ne _ _ hg, cstr_cons_zero]

theorem loadDocument_terminator_index_witness :
    loadDocument 7 [97] = Run.returns [97, 7, 0] ∧ cstr [97, 7, 0] = [97, 7] :=
  ⟨(loadDocument_terminator_index 7 [97] (by decide)).1,
    (loadDocument_terminator_index 7 [97] (by decide)).2.2.2.2 (by decide) (by decide)⟩

/-! ### A new document for a word that is present -/

/-- C11. When the first Word entry of the bucket that matches the word has a Document chain
that is not empty and holds no entry with the document id, `reconstructIndex` puts exactly one
new entry with the id and the frequency of the call behind that chain; the entries that were
there, the Word entries before and behind, their order and every other bucket stay as they
were. -/
theorem document_appended (P : Params) (index : INVERTED_INDEX) (word : List Nat) (d f : Int)
    (pre post : List WordNode) (c : WordNode)
    (hlen : index.hash.length = P.MAX_NUMBER_OF_SLOTS) (hpos : 0 < P.MAX_NUMBER_OF_SLOTS)
    (hb : bucket index (slotOf P word) = pre ++ c :: post)
    (hpre : ∀ x ∈ pre, strncmp x.word word P.WORD_LENGTH ≠ 0)
    (hc : strncmp c.word word P.WORD_LENGTH = 0)
    (hne : c.page ≠ [])
    (hd : ∀ e ∈ c.page, e.document_id ≠ d) :
    bucket (reconstructIndex P word d f index).2 (slotOf P word) =
      pre ++ { word := c.word,
               page := c.page ++ [{ document_id := d, page_word_frequency := f }] } :: post ∧
    (∀ s, s ≠ slotOf P word → bucket (reconstructIndex P word d f index).2 s = bucket index s) ∧
    (reconstructIndex P word d f index).2.hash.length = index.hash.length := by
  have hs : slotOf P word < index.hash.length := by
    rw [hlen]
    exact slotOf_lt P word hpos
  refine ⟨?_, fun s hne => bucket_reconstructIndex_other P word d f index s hne,
    reconstructIndex_length P word d f index⟩
  rw [bucket_reconstructIndex_same P word d f index hs, hb,
    insertChain_append_match P word d f pre post c hpre hc]
  cases hp : c.page with
  | nil => exact absurd hp hne
  | cons m tail =>
    rw [hp] at hd
    have hnot : d ∉ tail.map DocumentNode.document_id := by
      intro hmem
      obtain ⟨e, he, hed⟩ := List.mem_map.1 hmem
      exact hd e (List.mem_cons_of_mem _ he) hed
    rw [docLoop_cons, mergeTail_of_not_mem d f tail hnot]
    rfl

theorem document_appended_witness :
    bucket (reconstructIndex ⟨8, 2, fun _ => 1, true⟩ [99, 97, 116] 9 4
        ⟨[[], [⟨[100, 111, 103], [⟨7, 1⟩]⟩, ⟨[99, 97, 116], [⟨2, 3⟩, ⟨4, 5⟩]⟩]], some 1⟩).2 1 =
      [⟨[100, 111, 103], [⟨7, 1⟩]⟩, ⟨[99, 97, 116], [⟨2, 3⟩, ⟨4, 5⟩, ⟨9, 4⟩]⟩] :=
  (document_appended ⟨8, 2, fun _ => 1, true⟩
    ⟨[[], [⟨[100, 111, 103], [⟨7, 1⟩]⟩, ⟨[99, 97, 116], [⟨2, 3⟩, ⟨4, 5⟩]⟩]], some 1⟩
    [99, 97, 116] 9 4 [⟨[100, 111, 103], [⟨7, 1⟩]⟩] [] ⟨[99, 97, 116], [⟨2, 3⟩, ⟨4, 5⟩]⟩
    rfl (by decide) rfl (by decide) (by decide) (by decide) (by decide)).1

/-! ### Saving the reloaded index again -/

/-- C12 (as amended). For an index built from the empty one by at least one `reconstructIndex`
call, the words being non-empty, shorter than `WORD_LENGTH`, without space and of characters
that `sanitize` copies, reloading the saved file into an empty index returns an index, and
saving that index gives the first file again, byte for byte. -/
theorem save_reload_save (P : Params) (g : Nat) (calls : List Call)
    (hpos : 0 < P.MAX_NUMBER_OF_SLOTS) (hne : calls ≠ [])
    (hw : ∀ c ∈ calls, GoodWord P c.1) :
    ∃ reloaded,
      reloadIndexFromFile P g (saveIndexToFile P (buildIndex P calls)) (initStructure P) =
        Run.returns reloaded ∧
      saveIndexToFile P reloaded = saveIndexToFile P (buildIndex P calls) := by
  obtain ⟨reloaded, h1, h2⟩ := reload_save_entries P g calls hpos hne hw
  exact ⟨reloaded, h1, saveIndexToFile_perm P _ _ h2⟩

theorem save_reload_save_witness :
    ∃ reloaded,
      reloadIndexFromFile ⟨8, 2, fun w => w.length, false⟩ 0
          (saveIndexToFile ⟨8, 2, fun w => w.length, false⟩
            (buildIndex ⟨8, 2, fun w => w.length, false⟩
              [([100, 111, 103], 2, 5), ([99, 97, 116], 1, 3), ([99, 97, 116], 1, 3),
               ([99, 97, 116], 2, 7), ([99, 97, 116], 2, 1)]))
          (initStructure ⟨8, 2, fun w => w.length, false⟩) = Run.returns reloaded ∧
      saveIndexToFile ⟨8, 2, fun w => w.length, false⟩ reloaded =
        saveIndexToFile ⟨8, 2, fun w => w.length, false⟩
          (buildIndex ⟨8, 2, fun w => w.length, false⟩
            [([100, 111, 103], 2, 5), ([99, 97, 116], 1, 3), ([99, 97, 116], 1, 3),
             ([99, 97, 116], 2, 7), ([99, 97, 116], 2, 1)]) :=
  save_reload_save ⟨8, 2, fun w => w.length, false⟩ 0
    [([100, 111, 103], 2, 5), ([99, 97, 116], 1, 3), ([99, 97, 116], 1, 3),
     ([99, 97, 116], 2, 7), ([99, 97, 116], 2, 1)]
    (by decide) (by simp) (by decide)

/-- C12, counterexample.  For the index built by no call there is no reloaded index to save:
the saved file is empty and `reloadIndexFromFile` ends the process on it, whatever the value of
the byte that `loadDocument` leaves unwritten. -/
theorem save_reload_save_counterexample :
    ¬ ∃ reloaded g,
      reloadIndexFromFile ⟨8, 2, fun _ => 1, true⟩ g
          (saveIndexToFile ⟨8, 2, fun _ => 1, true⟩ (buildIndex ⟨8, 2, fun _ => 1, true⟩ []))
          (initStructure ⟨8, 2, fun _ => 1, true⟩) = Run.returns reloaded := by
  rintro ⟨reloaded, g, h⟩
  have h0 : saveIndexToFile ⟨8, 2, fun _ => 1, true⟩
      (buildIndex ⟨8, 2, fun _ => 1, true⟩ []) = [] := by decide
  rw [h0] at h
  simp [reloadIndexFromFile, loadDocument] at h

/-! ### Order of the bucket chains -/

theorem mem_firstSeen (l : List (List Nat)) (y : List Nat) : y ∈ firstSeen l ↔ y ∈ l := by
  induction l with
  | nil => simp [firstSeen]
  | cons x xs ih =>
    simp only [firstSeen, List.mem_cons, List.mem_filter, ih, decide_eq_true_eq]
    constructor
    · rintro (h | ⟨h, _⟩)
      · exact Or.inl h
      · exact Or.inr h
    · rintro (h | h)
      · exact Or.inl h
      · by_cases hy : y = x
        · exact Or.inl hy
        · exact Or.inr ⟨h, hy⟩

theorem firstSeen_concat (l : List (List Nat)) (x : List Nat) :
    firstSeen (l ++ [x]) = if x ∈ l then firstSeen l else firstSeen l ++ [x] := by
  induction l with
  | nil => simp [firstSeen]
  | cons y l ih =>
    have h1 : firstSeen (y :: l ++ [x]) =
        y :: (firstSeen (l ++ [x])).filter (fun z => decide (z ≠ y)) := rfl
    rw [h1, ih]
    by_cases hx : x ∈ l
    · simp [hx, firstSeen]
    · by_cases hxy : x = y
      · subst hxy
        simp [hx, List.filter_append, firstSeen]
      · simp [hx, hxy, List.filter_append, firstSeen]

theorem firstSeen_prefix (l m : List (List Nat)) : firstSeen l <+: firstSeen (l ++ m) := by
  induction m using List.reverseRecOn with
  | nil => simp
  | append_singleton m x ih =>
    rw [← List.append_assoc, firstSeen_concat]
    split
    · exact ih
    · exact ih.trans (List.prefix_append _ _)

theorem insertChain_words (P : Params) (word : List Nat) (d f : Int) (chain : List WordNode)
    (hn : ∀ wn ∈ chain, strncpy wn.word P.WORD_LENGTH = wn.word) :
    (insertChain P word d f chain).map WordNode.word =
      if strncpy word P.WORD_LENGTH ∈ chain.map WordNode.word then chain.map WordNode.word
      else chain.map WordNode.word ++ [strncpy word P.WORD_LENGTH] := by
  by_cases hm : ∃ x ∈ chain, strncmp x.word word P.WORD_LENGTH = 0
  · have hmem : strncpy word P.WORD_LENGTH ∈ chain.map WordNode.word := by
      obtain ⟨x, hx, h0⟩ := hm
      rw [strncmp_eq_zero_iff, hn x hx] at h0
      rw [← h0]
      exact List.mem_map_of_mem _ hx
    rw [if_pos hmem, insertChain_map_word_of_match P word d f chain hm]
  · have hno : ∀ x ∈ chain, strncmp x.word word P.WORD_LENGTH ≠ 0 := by
      intro x hx h0
      exact hm ⟨x, hx, h0⟩
    have hmem : strncpy word P.WORD_LENGTH ∉ chain.map WordNode.word := by
      intro h
      obtain ⟨x, hx, hxw⟩ := List.mem_map.1 h
      apply hno x hx
      rw [strncmp_eq_zero_iff, hn x hx, hxw]
    rw [if_neg hmem, insertChain_of_no_match P word d f chain hno, List.map_append]
    rfl

theorem bucket_normalized (P : Params) (calls : List Call) (b : Nat) :
    ∀ wn ∈ bucket (buildIndex P calls) b, strncpy wn.word P.WORD_LENGTH = wn.word := by
  rcases bucket_mem_or_nil (buildIndex P calls) b with h | h
  · exact (bucketsDistinct_build P calls _ h).1
  · rw [h]
    simp

theorem buildIndex_concat (P : Params) (xs : List Call) (c : Call) :
    buildIndex P (xs ++ [c]) = (reconstructIndex P c.1 c.2.1 c.2.2 (buildIndex P xs)).2 := by
  unfold buildIndex
  rw [applyCalls_append]
  rfl

theorem bucket_words_firstSeen (P : Params) (hpos : 0 < P.MAX_NUMBER_OF_SLOTS)
    (calls : List Call) (b : Nat) :
    (bucket (buildIndex P calls) b).map WordNode.word = firstSeen (wordsForBucket P calls b) := by
  induction calls using List.reverseRecOn with
  | nil =>
    unfold buildIndex applyCalls wordsForBucket
    simp [initStructure_bucket, firstSeen]
  | append_singleton xs c ih =>
    rw [buildIndex_concat]
    by_cases hs : slotOf P c.1 = b
    · subst hs
      rw [bucket_reconstructIndex_same P c.1 c.2.1 c.2.2 _
          (by rw [buildIndex_length]; exact slotOf_lt P c.1 hpos),
        insertChain_words P c.1 c.2.1 c.2.2 _ (bucket_normalized P xs _), ih]
      have hw : wordsForBucket P (xs ++ [c]) (slotOf P c.1) =
          wordsForBucket P xs (slotOf P c.1) ++ [strncpy c.1 P.WORD_LENGTH] := by
        simp [wordsForBucket, List.filter_append]
      rw [hw, firstSeen_concat]
      simp only [mem_firstSeen]
    · rw [bucket_reconstructIndex_other P c.1 c.2.1 c.2.2 _ b (fun h => hs h.symm), ih]
      have hw : wordsForBucket P (xs ++ [c]) b = wordsForBucket P xs b := by
        simp [wordsForBucket, List.filter_append, hs]
      rw [hw]

theorem wordsForBucket_append (P : Params) (xs ys : List Call) (b : Nat) :
    wordsForBucket P (xs ++ ys) b = wordsForBucket P xs b ++ wordsForBucket P ys b := by
  simp [wordsForBucket, List.filter_append]

/-- C14. After any sequence of `reconstructIndex` calls on the empty index, the stored words
along the chain of a bucket are the distinct words, truncated to `WORD_LENGTH`, of the calls
that hash to this bucket, in the order of their first occurrence; further calls only extend the
chain at its end. -/
theorem bucket_order_first_seen (P : Params) (hpos : 0 < P.MAX_NUMBER_OF_SLOTS)
    (calls : List Call) (b : Nat) :
    (bucket (buildIndex P calls) b).map WordNode.word = firstSeen (wordsForBucket P calls b) ∧
    ∀ more : List Call,
      (bucket (buildIndex P calls) b).map WordNode.word <+:
        (bucket (buildIndex P (calls ++ more)) b).map WordNode.word := by
  refine ⟨bucket_words_firstSeen P hpos calls b, ?_⟩
  intro more
  rw [bucket_words_firstSeen P hpos calls b, bucket_words_firstSeen P hpos (calls ++ more) b,
    wordsForBucket_append]
  exact firstSeen_prefix _ _

theorem bucket_order_first_seen_witness :
    (bucket (buildIndex ⟨3, 2, fun w => w.length, true⟩
        [([100, 111, 103], 2, 5), ([99, 97, 116], 1, 3), ([103, 110, 117, 115], 4, 1),
         ([100, 111, 103, 115], 7, 7), ([99, 97, 116], 2, 2), ([100, 117, 111], 1, 1)]) 1).map
        WordNode.word =
      [[100, 111, 103], [99, 97, 116], [100, 117, 111]] := by
  rw [(bucket_order_first_seen ⟨3, 2, fun w => w.length, true⟩ (by decide)
    [([100, 111, 103], 2, 5), ([99, 97, 116], 1, 3), ([103, 110, 117, 115], 4, 1),
     ([100, 111, 103, 115], 7, 7), ([99, 97, 116], 2, 2), ([100, 117, 111], 1, 1)] 1).1]
  decide

/-! ### The head of a Document chain -/

theorem mem_insertChain_new (P : Params) (word : List Nat) (d f : Int) (chain : List WordNode)
    (wn : WordNode) (h : wn ∈ insertChain P word d f chain) :
    wn ∈ chain ∨
      (wn = newWordNode P (newDocNode d f) word ∧
        ∀ x ∈ chain, strncmp x.word word P.WORD_LENGTH ≠ 0) ∨
      ∃ c ∈ chain, wn = { c with page := docLoop d f c.page } := by
  by_cases hm : ∃ x ∈ chain, strncmp x.word word P.WORD_LENGTH = 0
  · rcases mem_insertChain P word d f chain wn h with h1 | h1 | h1
    · exact Or.inl h1
    · have hw : wn.word ∈ chain.map WordNode.word := by
        rw [← insertChain_map_word_of_match P word d f chain hm]
        exact List.mem_map_of_mem _ h
      obtain ⟨x, hx, hxw⟩ := List.mem_map.1 hw
      by_cases hwn : wn ∈ chain
      · exact Or.inl hwn
      · -- the new node is not in the result when a node matches
        exfalso
        clear hw hx hxw x
        induction chain with
        | nil => simp at hm
        | cons c rest ih =>
          by_cases hc : strncmp c.word word P.WORD_LENGTH = 0
          · simp only [insertChain, hc, if_true] at h
            rcases List.mem_cons.1 h with h2 | h2
            · rw [h1] at h2
              have := congrArg WordNode.page h2
              simp only [newWordNode] at this
              cases hp : c.page with
              | nil => simp [hp, docLoop] at this
              | cons m t =>
                rw [hp, docLoop_cons] at this
                have h3 := congrArg List.length this
                cases t with
                | nil => simp [mergeTail] at h3
                | cons n t2 =>
                  by_cases hn : n.document_id = d <;> simp [mergeTail, hn] at h3
            · exact hwn (List.mem_cons_of_mem _ h2)
          · simp only [insertChain, hc, if_false] at h
            rcases List.mem_cons.1 h with h2 | h2
            · exact hwn (by rw [h2]; exact List.mem_cons_self _ _)
            · have hm2 : ∃ x ∈ rest, strncmp x.word word P.WORD_LENGTH = 0 := by
                obtain ⟨x, hx, h0⟩ := hm
                rcases List.mem_cons.1 hx with rfl | hr
                · exact absurd h0 hc
                · exact ⟨x, hr, h0⟩
              exact ih h2 hm2 (fun hr => hwn (List.mem_cons_of_mem _ hr))
    · exact Or.inr (Or.inr h1)
  · have hno : ∀ x ∈ chain, strncmp x.word word P.WORD_LENGTH ≠ 0 := by
      intro x hx h0
      exact hm ⟨x, hx, h0⟩
    rw [insertChain_of_no_match P word d f chain hno] at h
    rcases List.mem_append.1 h with h1 | h1
    · exact Or.inl h1
    · simp at h1
      exact Or.inr (Or.inl ⟨h1, hno⟩)

theorem chainsOk_step (P : Params) (word : List Nat) (d f : Int) (index : INVERTED_INDEX)
    (h : ChainsOk index) : ChainsOk (reconstructIndex P word d f index).2 := by
  intro chain hc wn hwn
  rw [reconstructIndex_hash] at hc
  rcases List.mem_or_eq_of_mem_set hc with h1 | h1
  · exact h chain h1 wn hwn
  · rw [h1] at hwn
    have hold : ∀ x ∈ bucket index (slotOf P word),
        x.page ≠ [] ∧ (x.page.tail.map DocumentNode.document_id).Nodup := by
      rcases bucket_mem_or_nil index (slotOf P word) with h2 | h2
      · exact h _ h2
      · rw [h2]
        simp
    rcases mem_insertChain P word d f _ wn hwn with h3 | h3 | ⟨c, hcm, h3⟩
    · exact hold wn h3
    · rw [h3]
      simp [newWordNode]
    · obtain ⟨g1, g2⟩ := hold c hcm
      rw [h3]
      cases hp : c.page with
      | nil => exact absurd hp g1
      | cons m rest =>
        rw [hp] at g2
        simp only [docLoop_cons, List.tail_cons] at g2 ⊢
        exact ⟨by simp, mergeTail_ids_nodup d f rest g2⟩

theorem chainsOk_build (P : Params) (calls : List Call) : ChainsOk (buildIndex P calls) := by
  induction calls using List.reverseRecOn with
  | nil =>
    intro chain hc
    simp [buildIndex, applyCalls, initStructure, List.mem_replicate] at hc
    rw [hc.2]
    simp
  | append_singleton xs c ih =>
    rw [buildIndex_concat]
    exact chainsOk_step P c.1 c.2.1 c.2.2 _ ih

theorem createdBy_extend (P : Params) (xs : List Call) (c : Call) (b : Nat) (wn : WordNode)
    (h : CreatedBy P xs b wn) : CreatedBy P (xs ++ [c]) b wn := by
  obtain ⟨pre, c0, post, h1, h2, h3, h4, h5⟩ := h
  exact ⟨pre, c0, post ++ [c], by rw [h1]; simp, h2, h3, h4, h5⟩

theorem head_created (P : Params) (hpos : 0 < P.MAX_NUMBER_OF_SLOTS) (calls : List Call)
    (b : Nat) : ∀ wn ∈ bucket (buildIndex P calls) b, CreatedBy P calls b wn := by
  induction calls using List.reverseRecOn generalizing b with
  | nil =>
    intro wn hwn
    simp [buildIndex, applyCalls, initStructure_bucket] at hwn
  | append_singleton xs c ih =>
    intro wn hwn
    rw [buildIndex_concat] at hwn
    by_cases hs : slotOf P c.1 = b
    · subst hs
      rw [bucket_reconstructIndex_same P c.1 c.2.1 c.2.2 _
        (by rw [buildIndex_length]; exact slotOf_lt P c.1 hpos)] at hwn
      rcases mem_insertChain_new P c.1 c.2.1 c.2.2 _ wn hwn with h1 | ⟨h1, hno⟩ | ⟨c0, hc0, h1⟩
      · exact createdBy_extend P xs c _ wn (ih _ wn h1)
      · refine ⟨xs, c, [], rfl, rfl, by rw [h1]; rfl, ?_, by rw [h1]; rfl⟩
        rintro c1 hc1 ⟨hs1, hw1⟩
        have hmem : strncpy c1.1 P.WORD_LENGTH ∈
            (bucket (buildIndex P xs) (slotOf P c.1)).map WordNode.word := by
          rw [bucket_words_firstSeen P hpos xs, mem_firstSeen]
          unfold wordsForBucket
          exact List.mem_map_of_mem _ (List.mem_filter.2 ⟨hc1, by simpa using hs1⟩)
        obtain ⟨x, hx, hxw⟩ := List.mem_map.1 hmem
        apply hno x hx
        rw [strncmp_eq_zero_iff, bucket_normalized P xs _ x hx, hxw, hw1, h1]
        rfl
      · obtain ⟨pre, c1, post, g1, g2, g3, g4, g5⟩ := ih _ c0 hc0
        refine ⟨pre, c1, post ++ [c], by rw [g1]; simp, g2, by rw [h1]; exact g3,
          by rw [h1]; exact g4, ?_⟩
        rw [h1]
        cases hp : c0.page with
        | nil =>
          rw [hp] at g5
          simp at g5
        | cons m rest =>
          rw [hp] at g5
          simp only [docLoop_cons, List.head?_cons] at g5 ⊢
          exact g5
    · rw [bucket_reconstructIndex_other P c.1 c.2.1 c.2.2 _ b (fun h => hs h.symm)] at hwn
      exact createdBy_extend P xs c b wn (ih b wn hwn)

theorem count_le_two_of_tail_nodup (ids : List Int) (h : ids.tail.Nodup) (d : Int) :
    ids.count d ≤ 2 := by
  cases ids with
  | nil => simp
  | cons a rest =>
    have h1 : rest.count d ≤ 1 := List.nodup_iff_count_le_one.1 h d
    rw [List.count_cons]
    split <;> omega

/-- C16. After any sequence of `reconstructIndex` calls on the empty index, every Word entry
was created by the first call for its bucket and stored word, and the head of its Document
chain still holds the document id and the frequency of that call; behind the head no document
id occurs twice, so a document id occurs at most twice in the chain. -/
theorem head_document_kept (P : Params) (hpos : 0 < P.MAX_NUMBER_OF_SLOTS) (calls : List Call)
    (b : Nat) :
    ∀ wn ∈ bucket (buildIndex P calls) b,
      CreatedBy P calls b wn ∧
      (wn.page.tail.map DocumentNode.document_id).Nodup ∧
      ∀ d, (wn.page.map DocumentNode.document_id).count d ≤ 2 := by
  intro wn hwn
  have hnd : (wn.page.tail.map DocumentNode.document_id).Nodup := by
    rcases bucket_mem_or_nil (buildIndex P calls) b with h | h
    · exact (chainsOk_build P calls _ h wn hwn).2
    · rw [h] at hwn
      simp at hwn
  refine ⟨head_created P hpos calls b wn hwn, hnd, ?_⟩
  intro d
  apply count_le_two_of_tail_nodup
  rw [← List.map_tail]
  exact hnd

theorem head_document_kept_witness :
    CreatedBy ⟨8, 2, fun _ => 1, true⟩
        [([99, 97, 116], 1, 3), ([100, 111, 103], 2, 5), ([99, 97, 116], 1, 4),
         ([99, 97, 116], 2, 7), ([99, 97, 116], 1, 9)] 1
        ⟨[99, 97, 116], [⟨1, 3⟩, ⟨1, 5⟩, ⟨2, 7⟩]⟩ ∧
      (([⟨1, 3⟩, ⟨1, 5⟩, ⟨2, 7⟩] : List DocumentNode).tail.map
        DocumentNode.document_id).Nodup ∧
      ∀ d, (([⟨1, 3⟩, ⟨1, 5⟩, ⟨2, 7⟩] : List DocumentNode).map
        DocumentNode.document_id).count d ≤ 2 :=
  head_document_kept ⟨8, 2, fun _ => 1, true⟩ (by decide)
    [([99, 97, 116], 1, 3), ([100, 111, 103], 2, 5), ([99, 97, 116], 1, 4),
     ([99, 97, 116], 2, 7), ([99, 97, 116], 1, 9)] 1
    ⟨[99, 97, 116], [⟨1, 3⟩, ⟨1, 5⟩, ⟨2, 7⟩]⟩ (by decide)

/-! ### Tokens of a sanitized line -/

theorem strtokAll_token_space (tok r : List Nat) (hne : tok ≠ [])
    (h : ∀ x ∈ tok, x ≠ 32 ∧ x ≠ 0) : strtokAll (tok ++ 32 :: r) = tok :: strtokAll r := by
  unfold strtokAll
  rw [cstr_append_of_no_zero _ _ (fun x hx => (h x hx).2), cstr_cons_ne 32 r (by decide)]
  unfold List.splitOn
  rw [List.splitOnP_first (fun x => x == 32) tok (fun x hx => by simpa using (h x hx).1) 32
    (by simp)]
  cases tok with
  | nil => exact absurd rfl hne
  | cons a t => simp [List.filter_cons]

theorem strtokAll_token (tok : List Nat) (hne : tok ≠ [])
    (h : ∀ x ∈ tok, x ≠ 32 ∧ x ≠ 0) : strtokAll tok = [tok] := by
  unfold strtokAll
  rw [cstr_of_no_zero _ (fun x hx => (h x hx).2)]
  unfold List.splitOn
  rw [List.splitOnP_eq_single (fun x => x == 32) tok (fun x hx => by simpa using (h x hx).1)]
  cases tok with
  | nil => exact absurd rfl hne
  | cons a t => simp [List.filter_cons]

theorem mem_sanitize (P : Params) (s : List Nat) : ∀ b ∈ sanitize P s, b ∈ s := by
  induction s with
  | nil => simp [sanitize]
  | cons x s ih =>
    intro b hb
    by_cases hx : x = 0
    · simp [sanitize, hx] at hb
    · by_cases hk : sanitizeKeeps (charVal P x) = true
      · simp only [sanitize, hx, hk, if_true, if_false] at hb
        rcases List.mem_cons.1 hb with rfl | h1
        · exact List.mem_cons_self _ _
        · exact List.mem_cons_of_mem _ (ih b h1)
      · simp only [sanitize, hx, hk, if_false, Bool.false_eq_true] at hb
        exact List.mem_cons_of_mem _ (ih b hb)

theorem numeral_chars (t : List Nat) (h : IsNumeral t) : ∀ x ∈ t, x ≠ 32 ∧ x ≠ 0 ∧ x ≠ 10 := by
  intro x hx
  have := h.2 x hx
  simp [isdigit] at this
  omega

theorem sanitize_numeral (P : Params) (t : List Nat) (h : IsNumeral t) : sanitize P t = t :=
  sanitize_of_kept P t (fun b hb => kept_digit P b (h.2 b hb))

theorem sanitize_space_cons (P : Params) (r : List Nat) :
    sanitize P (32 :: r) = 32 :: sanitize P r := by
  simp [sanitize, charVal_of_lt, sanitizeKeeps]

/-! ### Tokens separated by runs of spaces -/

theorem strtokAll_nil : strtokAll [] = [] := by
  simp [strtokAll, cstr]

theorem strtokAll_space_cons (r : List Nat) : strtokAll (32 :: r) = strtokAll r := by
  unfold strtokAll
  rw [cstr_cons_ne 32 _ (by decide)]
  unfold List.splitOn
  rw [List.splitOnP_cons]
  simp

theorem strtokAll_spaces (k : Nat) (r : List Nat) :
    strtokAll (List.replicate k 32 ++ r) = strtokAll r := by
  induction k with
  | zero => simp
  | succ k ih =>
    rw [List.replicate_succ, List.cons_append, strtokAll_space_cons, ih]

theorem strtokAll_token_then (t r : List Nat) (hne : t ≠ [])
    (h : ∀ x ∈ t, x ≠ 32 ∧ x ≠ 0) (hr : SpaceOrEnd r) :
    strtokAll (t ++ r) = t :: strtokAll r := by
  rcases hr with hr | hr
  · subst hr
    rw [List.append_nil, strtokAll_token t hne h, strtokAll_nil]
  · cases r with
    | nil => simp at hr
    | cons a r2 =>
      simp only [List.head?_cons, Option.some.injEq] at hr
      subst hr
      rw [strtokAll_token_space t r2 hne h, strtokAll_space_cons]

theorem sanitize_spaces (P : Params) (k : Nat) :
    sanitize P (List.replicate k 32) = List.replicate k 32 := by
  apply sanitize_of_kept
  intro b hb
  rw [List.eq_of_mem_replicate hb]
  exact kept_space P

theorem sanitize_spaceOrEnd (P : Params) (r : List Nat) (h : SpaceOrEnd r) :
    SpaceOrEnd (sanitize P r) := by
  rcases h with h | h
  · subst h
    exact Or.inl rfl
  · cases r with
    | nil => simp at h
    | cons a r2 =>
      simp only [List.head?_cons, Option.some.injEq] at h
      subst h
      rw [sanitize_space_cons]
      exact Or.inr rfl

theorem rawToken_no_zero (P : Params) (t : List Nat) (h : IsRawToken P t) :
    ∀ x ∈ t, x ≠ 0 :=
  fun x hx => (h.1 x hx).2.1

theorem rawToken_sanitized (P : Params) (t : List Nat) (h : IsRawToken P t) :
    ∀ x ∈ sanitize P t, x ≠ 32 ∧ x ≠ 0 := by
  intro x hx
  exact ⟨(h.1 x (mem_sanitize P t x hx)).1, sanitize_no_zero P t x hx⟩

theorem spaces_no_zero (k : Nat) : ∀ x ∈ List.replicate k 32, x ≠ 0 := by
  intro x hx
  rw [List.eq_of_mem_replicate hx]
  decide

theorem spaceOrEnd_spaces (k : Nat) : SpaceOrEnd (List.replicate k 32) := by
  cases k with
  | zero => exact Or.inl rfl
  | succ k => exact Or.inr (by simp [List.replicate_succ])

theorem spaceOrEnd_render (toks : List (Nat × List Nat)) (trail : Nat) :
    SpaceOrEnd ((toks.map spaced).flatten ++ List.replicate trail 32) := by
  cases toks with
  | nil => simpa using spaceOrEnd_spaces trail
  | cons st toks =>
    right
    simp [spaced, List.replicate_succ]

theorem strtokAll_render (P : Params) (toks : List (Nat × List Nat)) (trail : Nat)
    (h : ∀ st ∈ toks, IsRawToken P st.2) :
    strtokAll (sanitize P ((toks.map spaced).flatten ++ List.replicate trail 32)) =
      toks.map (fun st => sanitize P st.2) := by
  induction toks with
  | nil =>
    simp only [List.map_nil, List.flatten_nil, List.nil_append]
    rw [sanitize_spaces]
    have := strtokAll_spaces trail []
    rw [List.append_nil] at this
    rw [this, strtokAll_nil]
  | cons st toks ih =>
    have hst := h st (List.mem_cons_self _ _)
    have ih2 := ih (fun y hy => h y (List.mem_cons_of_mem _ hy))
    have e : ((st :: toks).map spaced).flatten ++ List.replicate trail 32 =
        List.replicate (st.1 + 1) 32 ++
          (st.2 ++ ((toks.map spaced).flatten ++ List.replicate trail 32)) := by
      simp [spaced]
    rw [e, sanitize_append P _ _ (spaces_no_zero _), sanitize_spaces,
      sanitize_append P _ _ (rawToken_no_zero P _ hst), strtokAll_spaces,
      strtokAll_token_then _ _ hst.2 (rawToken_sanitized P _ hst)
        (sanitize_spaceOrEnd P _ (spaceOrEnd_render toks trail)), ih2]
    rfl

/-! ### Numeric tokens -/

theorem intNumeral_cases (t : List Nat) (h : IsIntNumeral t) :
    IsNumeral t ∨ (∃ ds, t = 45 :: ds ∧ IsNumeral ds) ∨ (∃ ds, t = 43 :: ds ∧ IsNumeral ds) := by
  rcases h with h | ⟨h1, h2⟩
  · exact Or.inl h
  · cases t with
    | nil => simp at h1
    | cons a ds =>
      simp only [List.head?_cons, Option.some.injEq, List.tail_cons] at h1 h2
      rcases h1 with rfl | rfl
      · exact Or.inr (Or.inl ⟨ds, rfl, h2⟩)
      · exact Or.inr (Or.inr ⟨ds, rfl, h2⟩)

theorem numeral_head (t : List Nat) (h : IsNumeral t) :
    t.head? ≠ some 45 ∧ t.head? ≠ some 43 := by
  obtain ⟨hne, hd⟩ := h
  cases t with
  | nil => exact absurd rfl hne
  | cons c t =>
    have := hd c (List.mem_cons_self _ _)
    simp [isdigit] at this
    simp only [List.head?_cons, ne_eq, Option.some.injEq]
    omega

theorem sanitize_plus_cons (P : Params) (r : List Nat) :
    sanitize P (43 :: r) = sanitize P r := by
  simp [sanitize, charVal_of_lt, sanitizeKeeps]

theorem sanitize_minus_cons (P : Params) (r : List Nat) :
    sanitize P (45 :: r) = 45 :: sanitize P r := by
  simp [sanitize, charVal_of_lt, sanitizeKeeps]

theorem atoi_minus_numeral (ds : List Nat) (h : IsNumeral ds) :
    atoi (45 :: ds) = - (decimalValue ds : Int) := by
  have hz : ∀ b ∈ 45 :: ds, b ≠ 0 := by
    intro b hb h0
    rcases List.mem_cons.1 hb with h1 | h1
    · omega
    · have := h.2 b h1
      rw [h0] at this
      simp [isdigit] at this
  unfold atoi
  rw [cstr_of_no_zero _ hz]
  simp only [List.dropWhile_cons, isspace]
  simp only [Nat.reduceEqDiff, decide_False, Nat.reduceLeDiff, decide_True, Bool.and_false,
    Bool.or_self, Bool.false_eq_true, if_false]
  rw [digitsValue_numeral _ h.2]

theorem atoi_sanitize_intNumeral (P : Params) (t : List Nat) (h : IsIntNumeral t) :
    atoi (sanitize P t) = intValue t := by
  rcases intNumeral_cases t h with h1 | ⟨ds, rfl, h1⟩ | ⟨ds, rfl, h1⟩
  · have hh := numeral_head t h1
    rw [sanitize_numeral P t h1, atoi_numeral t h1]
    simp [intValue, hh.1, hh.2]
  · rw [sanitize_minus_cons, sanitize_numeral P ds h1, atoi_minus_numeral ds h1]
    simp [intValue]
  · rw [sanitize_plus_cons, sanitize_numeral P ds h1, atoi_numeral ds h1]
    simp [intValue]

theorem intNumeral_isRawToken (P : Params) (t : List Nat) (h : IsIntNumeral t) :
    IsRawToken P t := by
  rcases intNumeral_cases t h with h1 | ⟨ds, rfl, h1⟩ | ⟨ds, rfl, h1⟩
  · refine ⟨fun b hb => ?_, by rw [sanitize_numeral P t h1]; exact h1.1⟩
    have := numeral_chars t h1 b hb
    exact ⟨this.1, this.2.1, this.2.2⟩
  · refine ⟨fun b hb => ?_, by rw [sanitize_minus_cons]; simp⟩
    rcases List.mem_cons.1 hb with rfl | hb
    · decide
    · have := numeral_chars ds h1 b hb
      exact ⟨this.1, this.2.1, this.2.2⟩
  · refine ⟨fun b hb => ?_, by rw [sanitize_plus_cons, sanitize_numeral P ds h1]; exact h1.1⟩
    rcases List.mem_cons.1 hb with rfl | hb
    · decide
    · have := numeral_chars ds h1 b hb
      exact ⟨this.1, this.2.1, this.2.2⟩

/-! ### Reloading a file in the format of the index file -/

theorem processLines_calls {α : Type} (P : Params) (f : α → List Nat) (c : α → List Call)
    (ls : List α) (index : INVERTED_INDEX)
    (h : ∀ l ∈ ls, ∀ i, processLine P (f l) i = Run.returns (applyCalls P (c l) i)) :
    processLines P (ls.map f) index =
      Run.returns (applyCalls P (ls.map c).flatten index) := by
  induction ls generalizing index with
  | nil => rfl
  | cons l ls ih =>
    simp only [List.map_cons, processLines, List.flatten_cons]
    rw [h l (List.mem_cons_self _ _)]
    simp only
    rw [ih _ (fun y hy => h y (List.mem_cons_of_mem _ hy)), applyCalls_append]

theorem FileLine.numerals_raw (P : Params) (l : FileLine) (h : l.WellFormed P) :
    ∀ st ∈ l.numerals, IsRawToken P st.2 := by
  intro st hst
  unfold FileLine.numerals at hst
  rcases List.mem_cons.1 hst with rfl | hst
  · exact intNumeral_isRawToken P _ h.2.1
  obtain ⟨l2, hl2, htl⟩ := List.mem_flatten.1 hst
  obtain ⟨p, hp, rfl⟩ := List.mem_map.1 hl2
  have := h.2.2 p hp
  simp at htl
  rcases htl with rfl | rfl
  · exact intNumeral_isRawToken P _ this.1.1
  · exact intNumeral_isRawToken P _ this.2.1

theorem FileLine.body_split (l : FileLine) :
    l.body = List.replicate l.lead 32 ++
      (l.word ++ ((l.numerals.map spaced).flatten ++ List.replicate l.trail 32)) := by
  simp [FileLine.body]

theorem FileLine.body_chars (P : Params) (l : FileLine) (h : l.WellFormed P) :
    ∀ x ∈ l.body, x ≠ 10 ∧ x ≠ 0 := by
  intro x hx
  rw [l.body_split] at hx
  have h32 : (32 : Nat) ≠ 10 ∧ (32 : Nat) ≠ 0 := by decide
  rcases List.mem_append.1 hx with h1 | h1
  · rw [List.eq_of_mem_replicate h1]
    exact h32
  rcases List.mem_append.1 h1 with h2 | h2
  · exact ⟨(h.1.1 x h2).2.2, (h.1.1 x h2).2.1⟩
  rcases List.mem_append.1 h2 with h3 | h3
  · obtain ⟨t, ht, hxt⟩ := List.mem_flatten.1 h3
    obtain ⟨st, hst, rfl⟩ := List.mem_map.1 ht
    rcases List.mem_append.1 hxt with h4 | h4
    · rw [List.eq_of_mem_replicate h4]
      exact h32
    · have := (l.numerals_raw P h st hst).1 x h4
      exact ⟨this.2.2, this.2.1⟩
  · rw [List.eq_of_mem_replicate h3]
    exact h32

theorem FileLine.body_nonempty (P : Params) (l : FileLine) (h : l.WellFormed P) : l.body ≠ [] := by
  intro h0
  rw [l.body_split] at h0
  have hw : l.word = [] := by
    have := congrArg List.length h0
    simp only [List.length_append, List.length_nil] at this
    exact List.length_eq_zero.1 (by omega)
  apply h.1.2
  rw [hw]
  rfl

theorem FileLine.processLine_fold (P : Params) (l : FileLine) (index : INVERTED_INDEX)
    (h : l.WellFormed P) :
    processLine P l.body index = Run.returns (applyCalls P (l.specCalls P) index) := by
  have htoks := l.numerals_raw P h
  have hpairs : (l.pairs.map (fun p => [p.1, p.2])).flatten.map (fun st => sanitize P st.2) =
      ((l.pairs.map (fun p => (sanitize P p.1.2, sanitize P p.2.2))).map
        (fun p => [p.1, p.2])).flatten := by
    induction l.pairs with
    | nil => rfl
    | cons p ps ih => simp [ih]
  unfold processLine
  rw [l.body_split, sanitize_append P _ _ (spaces_no_zero _), sanitize_spaces,
    sanitize_append P _ _ (rawToken_no_zero P _ h.1), strtokAll_spaces,
    strtokAll_token_then _ _ h.1.2 (rawToken_sanitized P _ h.1)
      (sanitize_spaceOrEnd P _ (spaceOrEnd_render _ _)),
    strtokAll_render P _ _ htoks]
  simp only [FileLine.numerals, List.map_cons, List.drop_one, List.tail_cons]
  rw [hpairs, pairLoop_pairs]
  congr 2
  unfold FileLine.specCalls
  rw [List.map_map]
  apply List.map_congr_left
  intro p hp
  have := h.2.2 p hp
  simp only [Function.comp]
  rw [atoi_sanitize_intNumeral P _ this.1.1, atoi_sanitize_intNumeral P _ this.2.1]

/-- C5 (as amended). For a file without zero byte that has at least one line, each line being a
word that keeps at least one character under `sanitize`, a numeric count field and an even
number of numeric tokens with values within the range of `int`, separated by one or more spaces
(spaces may stand in front of the word and behind the last token, the numeric tokens may carry a
sign, and the last line may lack its newline), `reloadIndexFromFile` returns the index obtained by
one `reconstructIndex` call per pair, in file order and from left to right within a line, with
the word as `sanitize` leaves it and the decimal values of the two tokens. -/
theorem reload_is_fold (P : Params) (g : Nat) (ls : List FileLine) (last : Option FileLine)
    (index : INVERTED_INDEX) (hne : ls ++ last.toList ≠ [])
    (hw : ∀ l ∈ ls ++ last.toList, l.WellFormed P) :
    reloadIndexFromFile P g (linesFile (ls.map FileLine.body) (last.elim [] FileLine.body))
        index =
      Run.returns
        (applyCalls P ((ls ++ last.toList).map (FileLine.specCalls P)).flatten index) := by
  have hk : ∀ l ∈ ls ++ last.toList, ∀ x ∈ l.body, x ≠ 10 ∧ x ≠ 0 :=
    fun l hl => l.body_chars P (hw l hl)
  have hlines : linesOf (ls.map FileLine.body) (last.elim [] FileLine.body) =
      (ls ++ last.toList).map FileLine.body := by
    unfold linesOf
    cases last with
    | none => simp
    | some l =>
      have := l.body_nonempty P (hw l (by simp))
      cases hb : l.body with
      | nil => exact absurd hb this
      | cons a t => simp [hb]
  rw [reloadIndexFromFile_linesFile, hlines]
  · exact processLines_calls P FileLine.body (FileLine.specCalls P) _ index
      (fun l hl i => l.processLine_fold P i (hw l hl))
  · cases last with
    | none =>
      apply linesFile_ne_nil_of_bodies
      simpa using hne
    | some l =>
      intro h0
      have h1 := l.body_nonempty P (hw l (by simp))
      have h2 := congrArg List.length h0
      simp [linesFile] at h2
      exact h1 h2.2
  · intro b hb x hx
    obtain ⟨l, hl, rfl⟩ := List.mem_map.1 hb
    exact hk l (List.mem_append_left _ hl) x hx
  · intro x hx
    cases last with
    | none => simp at hx
    | some l => exact hk l (by simp) x hx

theorem reload_is_fold_witness :
    reloadIndexFromFile ⟨8, 2, fun _ => 1, true⟩ 7
        [99, 46, 97, 116, 32, 32, 50, 32, 50, 32, 32, 32, 45, 51, 32, 43, 52, 32, 53, 32, 10,
         32, 100, 111, 103, 32, 49, 32, 55, 32, 49]
        (initStructure ⟨8, 2, fun _ => 1, true⟩) =
      Run.returns (applyCalls ⟨8, 2, fun _ => 1, true⟩
        [([99, 97, 116], 2, -3), ([99, 97, 116], 4, 5), ([100, 111, 103], 7, 1)]
        (initStructure ⟨8, 2, fun _ => 1, true⟩)) :=
  reload_is_fold ⟨8, 2, fun _ => 1, true⟩ 7
    [⟨0, [99, 46, 97, 116], (1, [50]), [((0, [50]), (2, [45, 51])), ((0, [43, 52]), (0, [53]))],
      1⟩]
    (some ⟨1, [100, 111, 103], (0, [49]), [((0, [55]), (0, [49]))], 0⟩)
    (initStructure ⟨8, 2, fun _ => 1, true⟩) (by simp) (by decide)

/-- C5, counterexample.  The file without a line ends the process in `loadDocument` instead of
returning the index unchanged; the word of the line `a.b 1 2 3` is inserted as `ab`, not as it
stands in the file; in the line `!! 1 2 3` the word vanishes under `sanitize`, the count field is
taken as the word, and the last token is left without partner; and with a zero byte in the word
of the line `a`, zero, `b 1 2 3` the size handed to `fgets` is one character, and no call is
made. -/
theorem reload_is_fold_counterexample :
    reloadIndexFromFile ⟨8, 2, fun _ => 1, true⟩ 0 [] (initStructure ⟨8, 2, fun _ => 1, true⟩) =
      Run.exits ∧
    reloadIndexFromFile ⟨8, 2, fun _ => 1, true⟩ 0 [97, 46, 98, 32, 49, 32, 50, 32, 51, 10]
        (initStructure ⟨8, 2, fun _ => 1, true⟩) ≠
      Run.returns (applyCalls ⟨8, 2, fun _ => 1, true⟩ [([97, 46, 98], 2, 3)]
        (initStructure ⟨8, 2, fun _ => 1, true⟩)) ∧
    reloadIndexFromFile ⟨8, 2, fun _ => 1, true⟩ 0 [97, 46, 98, 32, 49, 32, 50, 32, 51, 10]
        (initStructure ⟨8, 2, fun _ => 1, true⟩) =
      Run.returns ⟨[[], [⟨[97, 98], [⟨2, 3⟩]⟩]], some 1⟩ ∧
    reloadIndexFromFile ⟨8, 2, fun _ => 1, true⟩ 0 [33, 33, 32, 49, 32, 50, 32, 51, 10]
        (initStructure ⟨8, 2, fun _ => 1, true⟩) = Run.crashes ∧
    reloadIndexFromFile ⟨8, 2, fun _ => 1, true⟩ 0 [97, 0, 98, 32, 49, 32, 50, 32, 51, 10]
        (initStructure ⟨8, 2, fun _ => 1, true⟩) =
      Run.returns (initStructure ⟨8, 2, fun _ => 1, true⟩) := by
  decide

/-! ### Lines without a pair -/

/-- C6 (as amended). In a file without zero byte, a line that after sanitizing has fewer than
three tokens (an empty line, a word alone, a word with its count) causes no `reconstructIndex`
call: when the file without that line is not empty, reloading it gives the result of reloading
the whole file, whether the line stands in front of other lines or is the last line without
newline, so the lines behind it are processed as before. -/
theorem short_line_skipped (P : Params) (g : Nat) (pre post : List (List Nat))
    (b tail : List Nat) (index : INVERTED_INDEX)
    (hshort : (strtokAll (sanitize P b)).length ≤ 2)
    (hne : linesFile (pre ++ post) tail ≠ [])
    (hchars : ∀ l ∈ tail :: (pre ++ b :: post), ∀ x ∈ l, x ≠ 10 ∧ x ≠ 0) :
    (∀ index1, processLine P b index1 = Run.returns index1) ∧
    reloadIndexFromFile P g (linesFile (pre ++ b :: post) tail) index =
      reloadIndexFromFile P g (linesFile (pre ++ post) tail) index ∧
    (post = [] → tail = [] →
      reloadIndexFromFile P g (linesFile pre b) index =
        reloadIndexFromFile P g (linesFile pre []) index) := by
  have hpre : ∀ l ∈ pre, ∀ x ∈ l, x ≠ 10 ∧ x ≠ 0 :=
    fun l hl => hchars l (List.mem_cons_of_mem _ (List.mem_append_left _ hl))
  have hb : ∀ x ∈ b, x ≠ 10 ∧ x ≠ 0 :=
    hchars b (List.mem_cons_of_mem _ (List.mem_append_right _ (List.mem_cons_self _ _)))
  have hrest : ∀ l ∈ pre ++ post, ∀ x ∈ l, x ≠ 10 ∧ x ≠ 0 := by
    intro l hl
    apply hchars l
    rcases List.mem_append.1 hl with h1 | h1
    · exact List.mem_cons_of_mem _ (List.mem_append_left _ h1)
    · exact List.mem_cons_of_mem _ (List.mem_append_right _ (List.mem_cons_of_mem _ h1))
  refine ⟨fun index1 => processLine_short P b index1 hshort, ?_, ?_⟩
  · rw [reloadIndexFromFile_linesFile P g _ tail index
        (linesFile_ne_nil_of_bodies _ _ (by simp))
        (fun l hl => hchars l (List.mem_cons_of_mem _ hl)) (hchars tail (List.mem_cons_self _ _)),
      reloadIndexFromFile_linesFile P g _ tail index hne hrest
        (hchars tail (List.mem_cons_self _ _))]
    simp only [linesOf, List.append_assoc, List.cons_append]
    rw [processLines_append, processLines_append]
    cases processLines P pre index with
    | returns i =>
      simp only [processLines]
      rw [processLine_short P b i hshort]
    | exits => rfl
    | crashes => rfl
    | hangs => rfl
  · intro hpost htail
    subst hpost
    subst htail
    rw [List.append_nil] at hne
    have hne2 : linesFile pre b ≠ [] := by
      intro h0
      apply hne
      have := congrArg List.length h0
      simp only [linesFile, List.length_append, List.length_nil] at this
      apply List.length_eq_zero.1
      simp only [linesFile, List.length_append, List.length_nil]
      omega
    rw [reloadIndexFromFile_linesFile P g pre b index hne2 hpre hb,
      reloadIndexFromFile_linesFile P g pre [] index hne hpre (by simp)]
    simp only [linesOf, List.isEmpty_nil, if_true, List.append_nil]
    split
    · rw [List.append_nil]
    · rw [processLines_append]
      cases processLines P pre index with
      | returns i =>
        simp only [processLines]
        rw [processLine_short P b i hshort]
      | exits => rfl
      | crashes => rfl
      | hangs => rfl

theorem short_line_skipped_witness :
    reloadIndexFromFile ⟨8, 2, fun _ => 1, true⟩ 7
        [100, 111, 103, 32, 49, 32, 55, 32, 49, 10, 99, 97, 116, 32, 53, 10, 97, 32, 49, 32, 50,
         32, 51]
        (initStructure ⟨8, 2, fun _ => 1, true⟩) =
      reloadIndexFromFile ⟨8, 2, fun _ => 1, true⟩ 7
        [100, 111, 103, 32, 49, 32, 55, 32, 49, 10, 97, 32, 49, 32, 50, 32, 51]
        (initStructure ⟨8, 2, fun _ => 1, true⟩) ∧
    reloadIndexFromFile ⟨8, 2, fun _ => 1, true⟩ 7
        [100, 111, 103, 32, 49, 32, 55, 32, 49, 10, 99, 97, 116, 32, 53]
        (initStructure ⟨8, 2, fun _ => 1, true⟩) =
      reloadIndexFromFile ⟨8, 2, fun _ => 1, true⟩ 7
        [100, 111, 103, 32, 49, 32, 55, 32, 49, 10]
        (initStructure ⟨8, 2, fun _ => 1, true⟩) :=
  ⟨(short_line_skipped ⟨8, 2, fun _ => 1, true⟩ 7 [[100, 111, 103, 32, 49, 32, 55, 32, 49]] []
      [99, 97, 116, 32, 53] [97, 32, 49, 32, 50, 32, 51] (initStructure ⟨8, 2, fun _ => 1, true⟩)
      (by decide) (by decide) (by decide)).2.1,
   (short_line_skipped ⟨8, 2, fun _ => 1, true⟩ 7 [[100, 111, 103, 32, 49, 32, 55, 32, 49]] []
      [99, 97, 116, 32, 53] [] (initStructure ⟨8, 2, fun _ => 1, true⟩)
      (by decide) (by decide) (by decide)).2.2 rfl rfl⟩

/-- C6, counterexample.  In the file `dog 1 1 1`, `cat 1 foo bar` the second line does not parse
as numbers, yet reloading inserts `cat` with document id `0` and frequency `0`, the values
`atoi` gives for `foo` and `bar`; the file without that line reloads to an index without `cat`.
The line `cat 2 7 7` announces two pairs and holds one, and reloading inserts `cat` with `(7, 7)`.
The file that consists of the line `cat 5` reloads to the unchanged index, the file without that
line ends the process.  With a zero byte in the file the size handed to `fgets` is the length of
the string in front of it: the file `x`, `a 1`, a zero byte, `w 5 2 3 4 5 6 7` hands a null
pointer to `atoi`, and without the line `x` it reloads to the empty index. -/
theorem malformed_line_counterexample :
    reloadIndexFromFile ⟨8, 2, fun _ => 1, true⟩ 0
        [100, 111, 103, 32, 49, 32, 49, 32, 49, 10,
         99, 97, 116, 32, 49, 32, 102, 111, 111, 32, 98, 97, 114, 10]
        (initStructure ⟨8, 2, fun _ => 1, true⟩) ≠
      reloadIndexFromFile ⟨8, 2, fun _ => 1, true⟩ 0
        [100, 111, 103, 32, 49, 32, 49, 32, 49, 10]
        (initStructure ⟨8, 2, fun _ => 1, true⟩) ∧
    reloadIndexFromFile ⟨8, 2, fun _ => 1, true⟩ 0
        [100, 111, 103, 32, 49, 32, 49, 32, 49, 10,
         99, 97, 116, 32, 49, 32, 102, 111, 111, 32, 98, 97, 114, 10]
        (initStructure ⟨8, 2, fun _ => 1, true⟩) =
      Run.returns ⟨[[], [⟨[100, 111, 103], [⟨1, 1⟩]⟩, ⟨[99, 97, 116], [⟨0, 0⟩]⟩]], some 1⟩ ∧
    reloadIndexFromFile ⟨8, 2, fun _ => 1, true⟩ 0
        [100, 111, 103, 32, 49, 32, 49, 32, 49, 10]
        (initStructure ⟨8, 2, fun _ => 1, true⟩) =
      Run.returns ⟨[[], [⟨[100, 111, 103], [⟨1, 1⟩]⟩]], some 1⟩ ∧
    reloadIndexFromFile ⟨8, 2, fun _ => 1, true⟩ 0
        [100, 111, 103, 32, 49, 32, 49, 32, 49, 10, 99, 97, 116, 32, 50, 32, 55, 32, 55, 10]
        (initStructure ⟨8, 2, fun _ => 1, true⟩) =
      Run.returns ⟨[[], [⟨[100, 111, 103], [⟨1, 1⟩]⟩, ⟨[99, 97, 116], [⟨7, 7⟩]⟩]], some 1⟩ ∧
    reloadIndexFromFile ⟨8, 2, fun _ => 1, true⟩ 0 [99, 97, 116, 32, 53, 10]
        (initStructure ⟨8, 2, fun _ => 1, true⟩) =
      Run.returns (initStructure ⟨8, 2, fun _ => 1, true⟩) ∧
    reloadIndexFromFile ⟨8, 2, fun _ => 1, true⟩ 0 []
        (initStructure ⟨8, 2, fun _ => 1, true⟩) = Run.exits ∧
    reloadIndexFromFile ⟨8, 2, fun _ => 1, true⟩ 0
        [120, 10, 97, 32, 49, 10, 0, 10, 119, 32, 53, 32, 50, 32, 51, 32, 52, 32, 53, 32, 54, 32,
         55, 10]
        (initStructure ⟨8, 2, fun _ => 1, true⟩) = Run.crashes ∧
    reloadIndexFromFile ⟨8, 2, fun _ => 1, true⟩ 0
        [97, 32, 49, 10, 0, 10, 119, 32, 53, 32, 50, 32, 51, 32, 52, 32, 53, 32, 54, 32, 55, 10]
        (initStructure ⟨8, 2, fun _ => 1, true⟩) =
      Run.returns (initStructure ⟨8, 2, fun _ => 1, true⟩) := by
  decide

/-! ### The count field of a line -/

theorem processLine_count (P : Params) (lead gap : Nat) (w t rest : List Nat)
    (index : INVERTED_INDEX) (hw : IsRawToken P w) (ht : IsRawToken P t)
    (hrest : SpaceOrEnd rest) :
    processLine P (List.replicate lead 32 ++ w ++ spaced (gap, t) ++ rest) index =
      pairLoop P (sanitize P w) (strtokAll (sanitize P rest)) index := by
  have e : List.replicate lead 32 ++ w ++ spaced (gap, t) ++ rest =
      List.replicate lead 32 ++ (w ++ (List.replicate (gap + 1) 32 ++ (t ++ rest))) := by
    simp [spaced]
  have hsp : SpaceOrEnd (List.replicate (gap + 1) 32 ++ (sanitize P t ++ sanitize P rest)) :=
    Or.inr (by simp [List.replicate_succ])
  unfold processLine
  rw [e, sanitize_append P _ _ (spaces_no_zero _), sanitize_spaces,
    sanitize_append P _ _ (rawToken_no_zero P _ hw),
    sanitize_append P _ _ (spaces_no_zero _), sanitize_spaces,
    sanitize_append P _ _ (rawToken_no_zero P _ ht), strtokAll_spaces,
    strtokAll_token_then _ _ hw.2 (rawToken_sanitized P _ hw) hsp, strtokAll_spaces,
    strtokAll_token_then _ _ ht.2 (rawToken_sanitized P _ ht) (sanitize_spaceOrEnd P _ hrest)]
  rfl

theorem processLine_sameUpToCount (P : Params) (l1 l2 : List Nat) (index : INVERTED_INDEX)
    (h : SameUpToCount P l1 l2) : processLine P l1 index = processLine P l2 index := by
  rcases h with h | ⟨lead, w, gap, t1, t2, rest, e1, e2, hw, ht1, ht2, hrest⟩
  · rw [h]
  · rw [e1, e2, processLine_count P lead gap w t1 rest index hw ht1 hrest,
      processLine_count P lead gap w t2 rest index hw ht2 hrest]

theorem sameUpToCount_chars (P : Params) (l1 l2 : List Nat) (h : SameUpToCount P l1 l2)
    (h1 : ∀ x ∈ l1, x ≠ 10 ∧ x ≠ 0) : ∀ x ∈ l2, x ≠ 10 ∧ x ≠ 0 := by
  rcases h with h | ⟨lead, w, gap, t1, t2, rest, e1, e2, _, _, ht2, _⟩
  · rw [← h]
    exact h1
  · intro x hx
    rw [e2] at hx
    simp only [spaced, List.mem_append] at hx
    rcases hx with ((hx | hx) | (hx | hx)) | hx
    · exact h1 x (by rw [e1]; simp only [spaced, List.mem_append]; tauto)
    · exact h1 x (by rw [e1]; simp only [spaced, List.mem_append]; tauto)
    · exact h1 x (by rw [e1]; simp only [spaced, List.mem_append]; tauto)
    · exact ⟨(ht2.1 x hx).2.2, (ht2.1 x hx).2.1⟩
    · exact h1 x (by rw [e1]; simp only [spaced, List.mem_append]; tauto)

theorem sameUpToCount_nil_iff (P : Params) (l1 l2 : List Nat) (h : SameUpToCount P l1 l2) :
    l1 = [] ↔ l2 = [] := by
  rcases h with h | ⟨lead, w, gap, t1, t2, rest, e1, e2, _⟩
  · rw [h]
  · rw [e1, e2]
    simp [spaced, List.replicate_succ]

theorem processLines_sameUpToCount (P : Params) (bs1 bs2 : List (List Nat))
    (h : List.Forall₂ (SameUpToCount P) bs1 bs2)
    (index : INVERTED_INDEX) : processLines P bs1 index = processLines P bs2 index := by
  induction h generalizing index with
  | nil => rfl
  | cons hab _ ih =>
    simp only [processLines]
    rw [processLine_sameUpToCount P _ _ index hab]
    split
    · exact ih _
    · rfl
    · rfl
    · rfl

theorem forall2_sameUpToCount_chars (P : Params) (bs1 bs2 : List (List Nat))
    (h : List.Forall₂ (SameUpToCount P) bs1 bs2)
    (h1 : ∀ l ∈ bs1, ∀ x ∈ l, x ≠ 10 ∧ x ≠ 0) : ∀ l ∈ bs2, ∀ x ∈ l, x ≠ 10 ∧ x ≠ 0 := by
  induction h with
  | nil => simp
  | cons hab _ ih =>
    intro l hl
    rcases List.mem_cons.1 hl with rfl | h2
    · exact sameUpToCount_chars P _ _ hab (h1 _ (List.mem_cons_self _ _))
    · exact ih (fun l hl => h1 l (List.mem_cons_of_mem _ hl)) l h2

/-- C18 (as amended). Two files without zero byte whose lines agree pairwise, except that in
some lines the second space-separated token is another one, reload to the same result from the
same starting index, provided that in such a line the first token and both second tokens keep at
least one character under `sanitize`, as every non-empty string of decimal digits does: the
count field is skipped, and the calls of a line are made for the tokens behind it. -/
theorem count_field_ignored (P : Params) (g : Nat) (bs1 bs2 : List (List Nat))
    (tail1 tail2 : List Nat) (index : INVERTED_INDEX)
    (hrel : List.Forall₂ (SameUpToCount P) bs1 bs2) (htail : SameUpToCount P tail1 tail2)
    (hchars : ∀ l ∈ tail1 :: bs1, ∀ x ∈ l, x ≠ 10 ∧ x ≠ 0) :
    reloadIndexFromFile P g (linesFile bs1 tail1) index =
      reloadIndexFromFile P g (linesFile bs2 tail2) index ∧
    ∀ t, IsNumeral t → IsRawToken P t := by
  refine ⟨?_, fun t ht => intNumeral_isRawToken P t (Or.inl ht)⟩
  have hb1 : ∀ l ∈ bs1, ∀ x ∈ l, x ≠ 10 ∧ x ≠ 0 :=
    fun l hl => hchars l (List.mem_cons_of_mem _ hl)
  have ht1 : ∀ x ∈ tail1, x ≠ 10 ∧ x ≠ 0 := hchars tail1 (List.mem_cons_self _ _)
  have hb2 := forall2_sameUpToCount_chars P bs1 bs2 hrel hb1
  have ht2 := sameUpToCount_chars P tail1 tail2 htail ht1
  have hnil := sameUpToCount_nil_iff P tail1 tail2 htail
  by_cases hne : linesFile bs1 tail1 = []
  · have hbs : bs1 = [] := by
      by_contra hb
      exact linesFile_ne_nil_of_bodies bs1 tail1 hb hne
    subst hbs
    have htl : tail1 = [] := by simpa [linesFile] using hne
    have hbs2 : bs2 = [] := List.forall₂_nil_left_iff.1 hrel
    rw [hbs2, htl, hnil.1 htl]
  have hne2 : linesFile bs2 tail2 ≠ [] := by
    cases hrel with
    | nil =>
      simp only [linesFile, List.map_nil, List.flatten_nil, List.nil_append] at hne ⊢
      exact fun h => hne (hnil.2 h)
    | cons _ _ => exact linesFile_ne_nil_of_bodies _ _ (by simp)
  rw [reloadIndexFromFile_linesFile P g bs1 tail1 index hne hb1 ht1,
    reloadIndexFromFile_linesFile P g bs2 tail2 index hne2 hb2 ht2]
  apply processLines_sameUpToCount
  unfold linesOf
  apply List.rel_append hrel
  by_cases h1 : tail1 = []
  · have h2 := hnil.1 h1
    subst h1
    subst h2
    exact List.Forall₂.nil
  · have h2 : tail2 ≠ [] := fun h => h1 (hnil.2 h)
    have e1 : tail1.isEmpty = false := by
      cases tail1 with
      | nil => exact absurd rfl h1
      | cons a t => rfl
    have e2 : tail2.isEmpty = false := by
      cases tail2 with
      | nil => exact absurd rfl h2
      | cons a t => rfl
    simp only [e1, e2, Bool.false_eq_true, if_false]
    exact List.Forall₂.cons htail List.Forall₂.nil

theorem count_field_ignored_witness :
    reloadIndexFromFile ⟨8, 2, fun _ => 1, true⟩ 7
        [100, 111, 103, 32, 49, 32, 55, 32, 49, 10, 99, 97, 116, 32, 32, 53, 32, 50, 32, 51, 10,
         32, 97, 32, 120, 32, 50, 32, 51, 32]
        (initStructure ⟨8, 2, fun _ => 1, true⟩) =
      reloadIndexFromFile ⟨8, 2, fun _ => 1, true⟩ 7
        [100, 111, 103, 32, 49, 32, 55, 32, 49, 10, 99, 97, 116, 32, 32, 54, 54, 32, 50, 32, 51,
         10, 32, 97, 32, 57, 32, 50, 32, 51, 32]
        (initStructure ⟨8, 2, fun _ => 1, true⟩) :=
  (count_field_ignored ⟨8, 2, fun _ => 1, true⟩ 7
    [[100, 111, 103, 32, 49, 32, 55, 32, 49], [99, 97, 116, 32, 32, 53, 32, 50, 32, 51]]
    [[100, 111, 103, 32, 49, 32, 55, 32, 49], [99, 97, 116, 32, 32, 54, 54, 32, 50, 32, 51]]
    [32, 97, 32, 120, 32, 50, 32, 51, 32] [32, 97, 32, 57, 32, 50, 32, 51, 32]
    (initStructure ⟨8, 2, fun _ => 1, true⟩)
    (List.Forall₂.cons (Or.inl rfl)
      (List.Forall₂.cons
        (Or.inr ⟨0, [99, 97, 116], 1, [53], [54, 54], [32, 50, 32, 51], rfl, rfl, by decide,
          by decide, by decide, Or.inr rfl⟩)
        List.Forall₂.nil))
    (Or.inr ⟨1, [97], 0, [120], [57], [32, 50, 32, 51, 32], rfl, rfl, by decide, by decide,
      by decide, Or.inr rfl⟩)
    (by decide)).1

/-- C18, counterexample.  The files `!! 5 2 3 4` and `!! 6 2 3 4` differ only in their second
token, and they reload to different indexes: `sanitize` removes the first token, so the second
one is taken as the word.  The files `cat , 2 3 4` and `cat 7 2 3 4` differ only in their second
token too: `sanitize` removes the comma, the first reloads to `cat` with `(3, 4)`, and the second
hands a null pointer to `atoi`.  The files `a 1`, a zero byte, `w 5 2 3 4 5 6 7` and the same
with `11` for `1` differ only in the second token of the first line: the first reloads to the
empty index, the second hands a null pointer to `atoi`, because the size given to `fgets` is the
length of the string in front of the zero byte. -/
theorem count_field_counterexample :
    reloadIndexFromFile ⟨8, 2, fun _ => 1, true⟩ 0
        [33, 33, 32, 53, 32, 50, 32, 51, 32, 52, 10]
        (initStructure ⟨8, 2, fun _ => 1, true⟩) ≠
      reloadIndexFromFile ⟨8, 2, fun _ => 1, true⟩ 0
        [33, 33, 32, 54, 32, 50, 32, 51, 32, 52, 10]
        (initStructure ⟨8, 2, fun _ => 1, true⟩) ∧
    reloadIndexFromFile ⟨8, 2, fun _ => 1, true⟩ 0
        [33, 33, 32, 53, 32, 50, 32, 51, 32, 52, 10]
        (initStructure ⟨8, 2, fun _ => 1, true⟩) =
      Run.returns ⟨[[], [⟨[53], [⟨3, 4⟩]⟩]], some 1⟩ ∧
    reloadIndexFromFile ⟨8, 2, fun _ => 1, true⟩ 0
        [99, 97, 116, 32, 44, 32, 50, 32, 51, 32, 52, 10]
        (initStructure ⟨8, 2, fun _ => 1, true⟩) =
      Run.returns ⟨[[], [⟨[99, 97, 116], [⟨3, 4⟩]⟩]], some 1⟩ ∧
    reloadIndexFromFile ⟨8, 2, fun _ => 1, true⟩ 0
        [99, 97, 116, 32, 55, 32, 50, 32, 51, 32, 52, 10]
        (initStructure ⟨8, 2, fun _ => 1, true⟩) = Run.crashes ∧
    reloadIndexFromFile ⟨8, 2, fun _ => 1, true⟩ 0
        [97, 32, 49, 10, 0, 10, 119, 32, 53, 32, 50, 32, 51, 32, 52, 32, 53, 32, 54, 32, 55, 10]
        (initStructure ⟨8, 2, fun _ => 1, true⟩) =
      Run.returns (initStructure ⟨8, 2, fun _ => 1, true⟩) ∧
    reloadIndexFromFile ⟨8, 2, fun _ => 1, true⟩ 0
        [97, 32, 49, 49, 10, 0, 10, 119, 32, 53, 32, 50, 32, 51, 32, 52, 32, 53, 32, 54, 32, 55,
         10]
        (initStructure ⟨8, 2, fun _ => 1, true⟩) = Run.crashes := by
  decide

end SearchEngine
